import Mathlib

/-!
# A verification development for `Vector<T>` (src/main.cpp)

The container owns a heap buffer through the raw pointer `data_` and keeps the two
counters `size_` and `capacity_`.  The embedding keeps that shape:

* the free store is a list of blocks; the pointer `p + 1` names block `p`, the pointer
  `0` is `nullptr`; a block is `some slots` while it is allocated and `none` once
  `delete[]` has released it; addresses are never handed out twice;
* a `Vector` is the record of the three data members;
* every member function takes the object and the free store and returns an `Outcome`:
  normal return, a propagating exception together with the state it leaves behind, or
  undefined behaviour (a read or write outside a block, through `nullptr` or through a
  released block, or a second `delete[]` of the same block);
* `size_t` is `Nat`, with `% SIZE_LIMIT` where the source computes a value that can wrap.

What the element type and the allocator do is a parameter (`Env`): whether `new T[n]`
obtains storage, which value a freshly constructed slot holds, whether the relocation of
line 30 is a move assignment, what a moved-from element holds, and whether the relocation
and the element assignments of `push_back`, `emplace_back` and `resize` throw.  A
parameter of type `const T&` is a `Ref`: it names an object outside the buffers, given by
its value, or a slot of a block, which is read when the code reads it.  The element copies
of the constructors and of the copy assignment are those of a type whose copy assignment
does not throw (such as the `int` of `main`).
-/

namespace CustomVector

/-- The number of values of `size_t` (64 bit). -/
def SIZE_LIMIT : Nat := 2 ^ 64

/-- The exceptions that leave a member function. -/
inductive Exc where
  | bad_alloc
  | element_error
  | out_of_range
  deriving DecidableEq, Repr

/-- The result of running a piece of the program: normal return with a value and the
resulting state, an exception that propagates out of it with the state it leaves, or
undefined behaviour. -/
inductive Outcome (σ α : Type) where
  | ok (a : α) (s : σ)
  | throws (e : Exc) (s : σ)
  | ub
  deriving DecidableEq, Repr

/-- The free store: block `p` is `some slots` while allocated, `none` once released. -/
abbrev Heap (T : Type) := List (Option (List T))

/-- The behaviour of the allocator and of the element type. -/
structure Env (T : Type) where
  /-- the value held by a slot of a fresh `new T[n]` array -/
  dflt : T
  /-- whether `new T[n]` succeeds in the given free store -/
  avail : Heap T → Nat → Bool
  /-- whether relocating the element at index `i` with value `x` (line 30) throws -/
  xfer_throws : Nat → T → Bool
  /-- whether `std::move_if_noexcept` gives an rvalue (the move constructor of `T` is
  `noexcept`, or `T` cannot be copied), so that line 30 is a move assignment -/
  nothrow_move : Bool
  /-- the value a moved-from element is left with -/
  moved_from : T → T
  /-- whether assigning the value `x` to a slot (lines 196, 206, 218 and 253) throws -/
  assign_throws : T → Bool

/-- The data members of `Vector<T>` (lines 16-18). -/
structure Vector where
  data_ : Nat
  size_ : Nat
  capacity_ : Nat
  deriving DecidableEq, Repr

variable {T : Type}

/-- The slots of the allocated block a pointer names, if it names one. -/
def block (h : Heap T) (p : Nat) : Option (List T) :=
  match p with
  | 0 => none
  | q + 1 => (h[q]?).getD none

/-- The expression `new T[n]`: `none` when it throws, else the pointer and the new store. -/
def new_array (env : Env T) (h : Heap T) (n : Nat) : Option (Nat × Heap T) :=
  if env.avail h n then some (h.length + 1, h ++ [some (List.replicate n env.dflt)]) else none

/-- The statement `delete[] p`: a no-op on `nullptr`, `none` (undefined behaviour) when `p`
names no allocated block. -/
def delete_array (h : Heap T) (p : Nat) : Option (Heap T) :=
  match p with
  | 0 => some h
  | q + 1 =>
    match (h[q]?).getD none with
    | some _ => some (h.set q none)
    | none => none

/-- Reading `p[i]`; `none` is undefined behaviour. -/
def load (h : Heap T) (p i : Nat) : Option T :=
  match block h p with
  | some b => b[i]?
  | none => none

/-- Writing `p[i] = x`; `none` is undefined behaviour. -/
def store (h : Heap T) (p i : Nat) (x : T) : Option (Heap T) :=
  match block h p with
  | some b => if i < b.length then some (h.set (p - 1) (some (b.set i x))) else none
  | none => none

/-- What a parameter of type `const T&` refers to: an object outside the buffers of the
free store (a temporary or a named object), given by its value, or the slot `i` of the
block `p`. -/
inductive Ref (T : Type) where
  | val (x : T)
  | elem (p i : Nat)
  deriving DecidableEq, Repr

/-- Reading through a reference; `none` is undefined behaviour (the slot it names is
outside an allocated block, as after the block was released). -/
def Ref.read (h : Heap T) : Ref T → Option T
  | .val x => some x
  | .elem p i => load h p i

/-- The loop of lines 28-31, `new_data[i] = std::move_if_noexcept(data_[i])`, for the `k`
indices from `i` on.  The statement is an assignment: a move assignment, which leaves the
source slot moved-from, when `std::move_if_noexcept` gives an rvalue, a copy assignment
otherwise.  An assignment that throws leaves both of its slots as they were. -/
def transfer (env : Env T) (src dst : Nat) : Nat → Nat → Heap T → Outcome (Heap T) Unit
  | 0, _, h => .ok () h
  | k + 1, i, h =>
    match load h src i with
    | none => .ub
    | some x =>
      match store h dst i x with
      | none => .ub
      | some h1 =>
        if env.xfer_throws i x then .throws .element_error h
        else if env.nothrow_move then
          match store h1 src i (env.moved_from x) with
          | none => .ub
          | some h2 => transfer env src dst k (i + 1) h2
        else transfer env src dst k (i + 1) h1

/-- `Vector::reallocate` (lines 20-44). -/
def reallocate (env : Env T) (v : Vector) (h : Heap T) (new_capacity : Nat) :
    Outcome (Vector × Heap T) Unit :=
  match new_array env h new_capacity with
  | none => .throws .bad_alloc (v, h)
  | some (new_data, h1) =>
    match transfer env v.data_ new_data v.size_ 0 h1 with
    | .ub => .ub
    | .throws e h2 =>
      match delete_array h2 new_data with
      | none => .ub
      | some h3 => .throws e (v, h3)
    | .ok _ h2 =>
      match delete_array h2 v.data_ with
      | none => .ub
      | some h3 => .ok () ({ v with data_ := new_data, capacity_ := new_capacity }, h3)

/-- The argument `capacity_ == 0 ? 1 : capacity_ * 2` of lines 193, 203 and 215, computed
in `size_t`. -/
def next_capacity (capacity : Nat) : Nat :=
  if capacity = 0 then 1 else capacity * 2 % SIZE_LIMIT

/-- The statement `data_[size_++] = value` of lines 196, 206 and 218.  The argument is
read here; `size_++` is done before the assignment, so an assignment that throws leaves
the incremented `size_` (and its slot as it was). -/
def store_back (env : Env T) (v : Vector) (h : Heap T) (value : Ref T) :
    Outcome (Vector × Heap T) Unit :=
  match value.read h with
  | none => .ub
  | some x =>
    match store h v.data_ v.size_ x with
    | none => .ub
    | some h1 =>
      if env.assign_throws x then
        .throws .element_error ({ v with size_ := (v.size_ + 1) % SIZE_LIMIT }, h)
      else .ok () ({ v with size_ := (v.size_ + 1) % SIZE_LIMIT }, h1)

/-- `Vector::push_back(const T&)` (lines 189-197): the growth step of lines 191-194, then
line 196, which reads the argument after the growth step.  The overload of lines 199-207
does the same with an argument it may leave moved-from. -/
def push_back (env : Env T) (v : Vector) (h : Heap T) (value : Ref T) :
    Outcome (Vector × Heap T) Unit :=
  match (if v.size_ ≥ v.capacity_ then reallocate env v h (next_capacity v.capacity_)
    else .ok () (v, h)) with
  | .ok _ (v1, h1) => store_back env v1 h1 value
  | .throws e s => .throws e s
  | .ub => .ub

/-- The default constructor (line 49). -/
def Vector.empty : Vector := { data_ := 0, size_ := 0, capacity_ := 0 }

/-- The loop `for (i = ...; ...; ++i) data_[i] = value` of lines 60-63 and 251-254, for the
`k` indices from `i` on; `none` is undefined behaviour. -/
def fill (p : Nat) (value : T) : Nat → Nat → Heap T → Option (Heap T)
  | 0, _, h => some h
  | k + 1, i, h =>
    match store h p i value with
    | none => none
    | some h1 => fill p value k (i + 1) h1

/-- The call `std::copy(init.begin(), init.end(), data_)` of line 71, writing from index
`i` on. -/
def copy_in (p : Nat) : List T → Nat → Heap T → Option (Heap T)
  | [], _, h => some h
  | x :: xs, i, h =>
    match store h p i x with
    | none => none
    | some h1 => copy_in p xs (i + 1) h1

/-- The loop `data_[i] = other.data_[i]` of lines 81-84 and 108-111, for the `k` indices
from `i` on. -/
def copy_elems (src dst : Nat) : Nat → Nat → Heap T → Option (Heap T)
  | 0, _, h => some h
  | k + 1, i, h =>
    match load h src i with
    | none => none
    | some x =>
      match store h dst i x with
      | none => none
      | some h1 => copy_elems src dst k (i + 1) h1

/-- The constructor `Vector(size_t size)` (lines 51-54). -/
def ctor_size (env : Env T) (h : Heap T) (size : Nat) : Outcome (Heap T) Vector :=
  match new_array env h size with
  | none => .throws .bad_alloc h
  | some (p, h1) => .ok { data_ := p, size_ := size, capacity_ := size } h1

/-- The constructor `Vector(size_t size, const T& value)` (lines 56-64). -/
def ctor_fill (env : Env T) (h : Heap T) (size : Nat) (value : T) : Outcome (Heap T) Vector :=
  match new_array env h size with
  | none => .throws .bad_alloc h
  | some (p, h1) =>
    match fill p value size 0 h1 with
    | none => .ub
    | some h2 => .ok { data_ := p, size_ := size, capacity_ := size } h2

/-- The constructor `Vector(std::initializer_list<T> init)` (lines 66-72). -/
def ctor_init (env : Env T) (h : Heap T) (init : List T) : Outcome (Heap T) Vector :=
  match new_array env h init.length with
  | none => .throws .bad_alloc h
  | some (p, h1) =>
    match copy_in p init 0 h1 with
    | none => .ub
    | some h2 => .ok { data_ := p, size_ := init.length, capacity_ := init.length } h2

/-- The copy constructor (lines 75-85). -/
def ctor_copy (env : Env T) (h : Heap T) (other : Vector) : Outcome (Heap T) Vector :=
  match new_array env h other.capacity_ with
  | none => .throws .bad_alloc h
  | some (p, h1) =>
    match copy_elems other.data_ p other.size_ 0 h1 with
    | none => .ub
    | some h2 => .ok { data_ := p, size_ := other.size_, capacity_ := other.capacity_ } h2

/-- The move constructor (lines 88-95): the new object and the moved-from `other`. -/
def ctor_move (other : Vector) : Vector × Vector :=
  ({ data_ := other.data_, size_ := other.size_, capacity_ := other.capacity_ },
   { data_ := 0, size_ := 0, capacity_ := 0 })

/-- Copy assignment (lines 98-115).  `same` is the outcome of the identity test
`this == &other` of line 100. -/
def copy_assign (env : Env T) (same : Bool) (this other : Vector) (h : Heap T) :
    Outcome (Vector × Heap T) Unit :=
  if same then .ok () (this, h)
  else
    match delete_array h this.data_ with
    | none => .ub
    | some h1 =>
      match new_array env h1 other.capacity_ with
      | none =>
        .throws .bad_alloc ({ this with size_ := other.size_, capacity_ := other.capacity_ }, h1)
      | some (p, h2) =>
        match copy_elems other.data_ p other.size_ 0 h2 with
        | none => .ub
        | some h3 =>
          .ok () ({ data_ := p, size_ := other.size_, capacity_ := other.capacity_ }, h3)

/-- Move assignment (lines 118-134): the state is `*this`, the moved-from `other` and the
free store.  `same` is the outcome of the identity test of line 120. -/
def move_assign (same : Bool) (this other : Vector) (h : Heap T) :
    Outcome (Vector × Vector × Heap T) Unit :=
  if same then .ok () (this, other, h)
  else
    match delete_array h this.data_ with
    | none => .ub
    | some h1 =>
      .ok () ({ data_ := other.data_, size_ := other.size_, capacity_ := other.capacity_ },
              { data_ := 0, size_ := 0, capacity_ := 0 }, h1)

/-- The destructor (lines 137-140); `none` is undefined behaviour. -/
def destroy (v : Vector) (h : Heap T) : Option (Heap T) :=
  delete_array h v.data_

/-- Reading through `operator[]` (lines 144-152): no check; `none` is undefined behaviour. -/
def op_index (v : Vector) (h : Heap T) (index : Nat) : Option T :=
  load h v.data_ index

/-- `Vector::at` (lines 154-172). -/
def at_ (v : Vector) (h : Heap T) (index : Nat) : Outcome (Vector × Heap T) T :=
  if index ≥ v.size_ then .throws .out_of_range (v, h)
  else
    match load h v.data_ index with
    | none => .ub
    | some x => .ok x (v, h)

/-- `Vector::pop_back` (lines 221-227). -/
def pop_back (v : Vector) : Vector :=
  if v.size_ > 0 then { v with size_ := v.size_ - 1 } else v

/-- `Vector::clear` (lines 229-232). -/
def clear (v : Vector) : Vector :=
  { v with size_ := 0 }

/-- `Vector::reserve` (lines 234-240). -/
def reserve (env : Env T) (v : Vector) (h : Heap T) (new_capacity : Nat) :
    Outcome (Vector × Heap T) Unit :=
  if new_capacity > v.capacity_ then reallocate env v h new_capacity else .ok () (v, h)

/-- The loop of lines 251-254, `data_[i] = value`, for the `k` indices from `i` on.  The
argument is read at each assignment; an assignment that throws leaves its slot as it
was. -/
def fill_ref (env : Env T) (p : Nat) (value : Ref T) :
    Nat → Nat → Heap T → Outcome (Heap T) Unit
  | 0, _, h => .ok () h
  | k + 1, i, h =>
    match value.read h with
    | none => .ub
    | some x =>
      match store h p i x with
      | none => .ub
      | some h1 =>
        if env.assign_throws x then .throws .element_error h
        else fill_ref env p value k (i + 1) h1

/-- `Vector::resize` (lines 242-258).  The argument is read in the fill loop, after the
growth step; `size_` is written after the loop. -/
def resize (env : Env T) (v : Vector) (h : Heap T) (new_size : Nat) (value : Ref T) :
    Outcome (Vector × Heap T) Unit :=
  match (if new_size > v.capacity_ then reallocate env v h new_size else .ok () (v, h)) with
  | .ok _ (v1, h1) =>
    match (if new_size > v1.size_ then
        fill_ref env v1.data_ value (new_size - v1.size_) v1.size_ h1
      else .ok () h1) with
    | .ok _ h2 => .ok () ({ v1 with size_ := new_size }, h2)
    | .throws e h2 => .throws e (v1, h2)
    | .ub => .ub
  | .throws e s => .throws e s
  | .ub => .ub

/-- A valid object in a free store: its counters are `size_t` values with
`size_ <= capacity_`, and it holds either no buffer (with capacity 0) or an allocated
block of exactly `capacity_` slots. -/
def WF (h : Heap T) (v : Vector) : Prop :=
  v.size_ ≤ v.capacity_ ∧ v.capacity_ < SIZE_LIMIT ∧
  (if v.data_ = 0 then v.capacity_ = 0
   else (block h v.data_).map List.length = some v.capacity_)

instance (h : Heap T) (v : Vector) : Decidable (WF h v) :=
  inferInstanceAs (Decidable (_ ∧ _ ∧ _))

/-- An allocator that always succeeds and an element type like `int`: nothing throws, a
move leaves the source as it was. -/
def Env.total (d : T) : Env T :=
  { dflt := d, avail := fun _ _ => true, xfer_throws := fun _ _ => false,
    nothrow_move := true, moved_from := fun x => x, assign_throws := fun _ => false }

/-- An allocator that never has storage. -/
def Env.no_memory (d : T) : Env T :=
  { dflt := d, avail := fun _ _ => false, xfer_throws := fun _ _ => false,
    nothrow_move := true, moved_from := fun x => x, assign_throws := fun _ => false }

/-- An element type whose move constructor may throw, so that it is relocated by copy
assignment, and whose copy assignment throws at index `k` of the relocation. -/
def Env.throwing_at (k : Nat) (d : T) : Env T :=
  { dflt := d, avail := fun _ _ => true, xfer_throws := fun i _ => i == k,
    nothrow_move := false, moved_from := fun x => x, assign_throws := fun _ => false }

/-- An element type whose move constructor is `noexcept`, so that it is relocated by move
assignment, whose move assignment throws at index `k` of the relocation and leaves `d` in
a moved-from element. -/
def Env.throwing_move (k : Nat) (d : T) : Env T :=
  { dflt := d, avail := fun _ _ => true, xfer_throws := fun i _ => i == k,
    nothrow_move := true, moved_from := fun _ => d, assign_throws := fun _ => false }

/-- An element type whose assignment of the value `bad` to a slot throws. -/
def Env.throwing_assign [DecidableEq T] (bad d : T) : Env T :=
  { dflt := d, avail := fun _ _ => true, xfer_throws := fun _ _ => false,
    nothrow_move := true, moved_from := fun x => x, assign_throws := fun x => x = bad }

/-- The free store of `main` after line 335, `v1.push_back(6)`. -/
def main_heap_pushed : Heap Int := [none, some [1, 2, 3, 4, 5, 6, 0, 0, 0, 0]]

/-- The object `v1` of `main` after line 335. -/
def main_v1_pushed : Vector := { data_ := 2, size_ := 6, capacity_ := 10 }

/-- The free store of `main` after line 324, `Vector<int> v1 = {1, 2, 3, 4, 5}`. -/
def main_heap : Heap Int := [some [1, 2, 3, 4, 5]]

/-- The object `v1` of `main` after line 324. -/
def main_v1 : Vector := { data_ := 1, size_ := 5, capacity_ := 5 }

/-- The three growing calls of the public interface, with their arguments. -/
inductive Call (T : Type) where
  | push_back (value : Ref T)
  | reserve (new_capacity : Nat)
  | resize (new_size : Nat) (value : Ref T)

/-- The `size_t` arguments of a call are `size_t` values. -/
def Call.in_size_t : Call T → Prop
  | .push_back _ => True
  | .reserve n => n < SIZE_LIMIT
  | .resize n _ => n < SIZE_LIMIT

/-- Running one call on an object. -/
def Call.run (env : Env T) (c : Call T) (v : Vector) (h : Heap T) :
    Outcome (Vector × Heap T) Unit :=
  match c with
  | .push_back x => CustomVector.push_back env v h x
  | .reserve n => CustomVector.reserve env v h n
  | .resize n x => CustomVector.resize env v h n x

/-- The states an object can be in: it comes out of a constructor (default, sized, filled,
from a literal list, copy or move of another such object), and then undergoes `push_back`,
`reserve` and `resize` calls, each of which returns normally or throws. -/
inductive Reachable (env : Env T) : Vector → Heap T → Prop where
  | ctor_default (h : Heap T) : Reachable env Vector.empty h
  | ctor_size {h h1 : Heap T} {n : Nat} {v : Vector} :
      n < SIZE_LIMIT → ctor_size env h n = .ok v h1 → Reachable env v h1
  | ctor_fill {h h1 : Heap T} {n : Nat} {x : T} {v : Vector} :
      n < SIZE_LIMIT → ctor_fill env h n x = .ok v h1 → Reachable env v h1
  | ctor_init {h h1 : Heap T} {init : List T} {v : Vector} :
      init.length < SIZE_LIMIT → ctor_init env h init = .ok v h1 → Reachable env v h1
  | ctor_copy {h h1 : Heap T} {other v : Vector} :
      Reachable env other h → ctor_copy env h other = .ok v h1 → Reachable env v h1
  | ctor_move {h : Heap T} {other : Vector} :
      Reachable env other h → Reachable env (ctor_move other).1 h
  | returned {h h1 : Heap T} {v v1 : Vector} (c : Call T) :
      Reachable env v h → c.in_size_t → c.run env v h = .ok () (v1, h1) → Reachable env v1 h1
  | thrown {h h1 : Heap T} {v v1 : Vector} (c : Call T) (e : Exc) :
      Reachable env v h → c.in_size_t → c.run env v h = .throws e (v1, h1) →
      Reachable env v1 h1

/-- Consecutive `push_back` calls, one for each value of `xs` in order, each with an
argument outside the buffers.  The value returned is the number of calls that took the
branch of line 191, that is the number of calls of `reallocate`. -/
def push_back_all (env : Env T) : List T → Vector → Heap T → Outcome (Vector × Heap T) Nat
  | [], v, h => .ok 0 (v, h)
  | x :: xs, v, h =>
    match push_back env v h (.val x) with
    | .ok _ (v1, h1) =>
      match push_back_all env xs v1 h1 with
      | .ok k s => .ok (k + if v.size_ ≥ v.capacity_ then 1 else 0) s
      | .throws e s => .throws e s
      | .ub => .ub
    | .throws e s => .throws e s
    | .ub => .ub

/-- The doubling schedule: a vector grown from empty by `size` appends has made `allocs`
reallocations and has capacity `2 ^ m` for the least `m` with `size <= 2 ^ m`, after
`m + 1` reallocations; nothing has happened to the empty vector. -/
def Sched (size capacity allocs : Nat) : Prop :=
  (size = 0 ∧ capacity = 0 ∧ allocs = 0) ∨
  (1 ≤ size ∧ ∃ m, capacity = 2 ^ m ∧ allocs = m + 1 ∧ size ≤ 2 ^ m ∧
    ∀ m1, size ≤ 2 ^ m1 → m ≤ m1)

/-- The free store after `Vector<int> w = {1, 2, 3}` and `w.pop_back()`: the slot of index 2
still holds 3. -/
def popped_heap : Heap Int := [some [1, 2, 3]]

/-- The object `w` after `Vector<int> w = {1, 2, 3}` and `w.pop_back()`. -/
def popped_w : Vector := { data_ := 1, size_ := 2, capacity_ := 3 }

/-- `Vector::emplace_back` (lines 211-219) with one argument, of which the element
`T(arg)` is a copy: the argument is read at line 218, after the growth step, and the
assignment of the new element can throw after `size_++`. -/
def emplace_back (env : Env T) (v : Vector) (h : Heap T) (arg : Ref T) :
    Outcome (Vector × Heap T) Unit :=
  match (if v.size_ ≥ v.capacity_ then reallocate env v h (next_capacity v.capacity_)
    else .ok () (v, h)) with
  | .ok _ (v1, h1) => store_back env v1 h1 arg
  | .throws e s => .throws e s
  | .ub => .ub

/-- The loop of lines 295-298, `result += element`, over the `k` elements from index `i`
on.  `add` is the `+=` of the element type; `none` is undefined behaviour (a read outside
the buffer, or an addition that has none, such as a signed overflow). -/
def sum_loop (add : T → T → Option T) (p : Nat) : Nat → Nat → Heap T → T → Option T
  | 0, _, _, result => some result
  | k + 1, i, h, result =>
    match load h p i with
    | none => none
    | some element =>
      match add result element with
      | none => none
      | some r => sum_loop add p k (i + 1) h r

/-- The function `sum` (lines 291-301); `zero` is the value `T{}`. -/
def sum (zero : T) (add : T → T → Option T) (vec : Vector) (h : Heap T) : Option T :=
  sum_loop add vec.data_ vec.size_ 0 h zero

/-- The `+=` of `int` (32 bit): undefined when the sum is not an `int`. -/
def int_add (a b : Int) : Option Int :=
  if -2147483648 ≤ a + b ∧ a + b ≤ 2147483647 then some (a + b) else none

/-- The loop of lines 313-316, `result.push_back(func(element))`, over the `k` elements of
the source buffer `p` from index `i` on.  When `push_back` throws, the local `result` is
destroyed while the exception propagates. -/
def transform_loop (env : Env T) (func : T → T) (p : Nat) :
    Nat → Nat → Vector → Heap T → Outcome (Heap T) Vector
  | 0, _, result, h => .ok result h
  | k + 1, i, result, h =>
    match load h p i with
    | none => .ub
    | some element =>
      match push_back env result h (.val (func element)) with
      | .ok _ (r1, h1) => transform_loop env func p k (i + 1) r1 h1
      | .throws e (r1, h1) =>
        match destroy r1 h1 with
        | some h2 => .throws e h2
        | none => .ub
      | .ub => .ub

/-- The function `transform` (lines 307-319).  The free store holds elements of one type,
so `func` maps the element type to itself, as `x * 2` on `int` in `main` (a function into
another type is a function on the sum of the two types).  The value returned is the local
`result`. -/
def transform (env : Env T) (vec : Vector) (func : T → T) (h : Heap T) :
    Outcome (Heap T) Vector :=
  match reserve env Vector.empty h vec.size_ with
  | .ok _ (result, h1) => transform_loop env func vec.data_ vec.size_ 0 result h1
  | .throws e (result, h1) =>
    match destroy result h1 with
    | some h2 => .throws e h2
    | none => .ub
  | .ub => .ub

/-- The form of I1 the code maintains: with capacity 0 the object holds no buffer or an
allocated block of zero slots, with a positive capacity its buffer has exactly `capacity_`
slots. -/
def I1_code (h : Heap T) (v : Vector) : Prop :=
  (v.capacity_ = 0 → v.data_ = 0 ∨ block h v.data_ = some []) ∧
  (v.capacity_ > 0 → (block h v.data_).map List.length = some v.capacity_)

theorem block_eq_some {h : Heap T} {p : Nat} {b : List T} :
    block h p = some b ↔ 0 < p ∧ h[p - 1]? = some (some b) := by
  cases p with
  | zero => simp [block]
  | succ q =>
    simp only [block, Nat.add_sub_cancel, Nat.succ_pos, true_and]
    cases hq : h[q]? with
    | none => simp
    | some o => simp

theorem block_bound {h : Heap T} {p : Nat} {b : List T} (hb : block h p = some b) :
    0 < p ∧ p ≤ h.length := by
  obtain ⟨hp, hg⟩ := block_eq_some.1 hb
  have := (List.getElem?_eq_some_iff.1 hg).1
  omega

theorem block_append_old (h : Heap T) (o : Option (List T)) (p : Nat) (hp : p ≤ h.length) :
    block (h ++ [o]) p = block h p := by
  cases p with
  | zero => rfl
  | succ q =>
    have hq : q < h.length := hp
    simp [block, List.getElem?_append_left hq]

theorem block_append_new (h : Heap T) (b : List T) :
    block (h ++ [some b]) (h.length + 1) = some b := by
  simp [block]

theorem block_set (h : Heap T) (q : Nat) (o : Option (List T)) (p : Nat) :
    block (h.set q o) p = if p = q + 1 ∧ q < h.length then o else block h p := by
  cases p with
  | zero => simp [block]
  | succ r =>
    by_cases hqr : q = r
    · subst hqr
      by_cases hl : q < h.length
      · simp [block, hl]
      · have hn : (h.set q o)[q]? = none := List.getElem?_eq_none (by simp; omega)
        have hn2 : h[q]? = none := List.getElem?_eq_none (by omega)
        simp [block, hl, hn, hn2]
    · have hne : ¬ (r = q) := fun hc => hqr hc.symm
      simp [block, hne, List.getElem?_set_ne hqr]

theorem store_eq_some {h h1 : Heap T} {p i : Nat} {x : T} :
    store h p i x = some h1 ↔
      ∃ b, block h p = some b ∧ i < b.length ∧ h1 = h.set (p - 1) (some (b.set i x)) := by
  unfold store
  cases hb : block h p with
  | none => simp
  | some b =>
    by_cases hi : i < b.length
    · simp [hi, eq_comm]
    · simp [hi]

theorem store_length {h h1 : Heap T} {p i : Nat} {x : T} (hs : store h p i x = some h1) :
    h1.length = h.length := by
  obtain ⟨b, _, _, rfl⟩ := store_eq_some.1 hs
  simp

theorem store_block {h h1 : Heap T} {p i : Nat} {x : T} (hs : store h p i x = some h1)
    (q : Nat) :
    block h1 q = if q = p then (block h p).map (fun b => b.set i x) else block h q := by
  obtain ⟨b, hb, _, rfl⟩ := store_eq_some.1 hs
  obtain ⟨hp, hl⟩ := block_bound hb
  rw [block_set]
  by_cases hq : q = p
  · subst hq
    have hc : q = q - 1 + 1 ∧ q - 1 < h.length := by omega
    rw [if_pos hc, if_pos rfl, hb]; rfl
  · have hc : ¬ (q = p - 1 + 1 ∧ p - 1 < h.length) := by omega
    rw [if_neg hc, if_neg hq]

theorem delete_eq_some {h h1 : Heap T} {p : Nat} :
    delete_array h p = some h1 ↔
      (p = 0 ∧ h1 = h) ∨ (∃ b, block h p = some b ∧ h1 = h.set (p - 1) none) := by
  cases p with
  | zero => simp [delete_array, block, eq_comm]
  | succ q =>
    simp only [delete_array, block, Nat.add_sub_cancel]
    cases hq : h[q]? with
    | none => simp
    | some o =>
      cases o with
      | none => simp
      | some b => simp [eq_comm]

theorem delete_length {h h1 : Heap T} {p : Nat} (hd : delete_array h p = some h1) :
    h1.length = h.length := by
  rcases delete_eq_some.1 hd with ⟨_, rfl⟩ | ⟨b, _, rfl⟩ <;> simp

theorem delete_block {h h1 : Heap T} {p : Nat} (hd : delete_array h p = some h1) (q : Nat) :
    block h1 q = if q = p then none else block h q := by
  rcases delete_eq_some.1 hd with ⟨rfl, rfl⟩ | ⟨b, hb, rfl⟩
  · by_cases hq : q = 0
    · subst hq; simp [block]
    · simp [hq]
  · obtain ⟨hp, hl⟩ := block_bound hb
    rw [block_set]
    by_cases hq : q = p
    · subst hq
      have hc : q = q - 1 + 1 ∧ q - 1 < h.length := by omega
      rw [if_pos hc, if_pos rfl]
    · have hc : ¬ (q = p - 1 + 1 ∧ p - 1 < h.length) := by omega
      rw [if_neg hc, if_neg hq]

theorem delete_of_block {h : Heap T} {p : Nat} {b : List T} (hb : block h p = some b) :
    ∃ h1, delete_array h p = some h1 :=
  ⟨_, delete_eq_some.2 (Or.inr ⟨b, hb, rfl⟩)⟩

theorem load_eq (h : Heap T) (p i : Nat) :
    load h p i = (block h p).bind (fun b => b[i]?) := by
  unfold load
  cases block h p <;> rfl

theorem load_store {h h1 : Heap T} {p i : Nat} {x : T} (hs : store h p i x = some h1)
    (q j : Nat) :
    load h1 q j = if q = p ∧ j = i then some x else load h q j := by
  have hblk := store_block hs q
  obtain ⟨b, hb, hi, _⟩ := store_eq_some.1 hs
  rw [load_eq, load_eq, hblk]
  by_cases hq : q = p
  · subst hq
    by_cases hj : j = i
    · subst hj
      simp [hb, hi]
    · have hne : ¬ (i = j) := fun hc => hj hc.symm
      simp [hb, hj, List.getElem?_set_ne hne]
  · simp [hq]

theorem store_block_length {h h1 : Heap T} {p i : Nat} {x : T}
    (hs : store h p i x = some h1) (q : Nat) :
    (block h1 q).map List.length = (block h q).map List.length := by
  rw [store_block hs q]
  by_cases hq : q = p
  · subst hq
    cases block h q <;> simp
  · simp [hq]

theorem store_of_block {h : Heap T} {p i : Nat} {b : List T} (x : T)
    (hb : block h p = some b) (hi : i < b.length) : ∃ h1, store h p i x = some h1 :=
  ⟨_, store_eq_some.2 ⟨b, hb, hi, rfl⟩⟩

/-! ## The loops -/

theorem copy_in_spec (p : Nat) (xs : List T) :
    ∀ (i : Nat) (h h1 : Heap T), copy_in p xs i h = some h1 →
      h1.length = h.length ∧
      (∀ q, (block h1 q).map List.length = (block h q).map List.length) ∧
      (∀ q j, load h1 q j =
        if q = p ∧ i ≤ j ∧ j < i + xs.length then xs[j - i]? else load h q j) ∧
      (xs ≠ [] → ∃ b, block h p = some b ∧ i + xs.length ≤ b.length) := by
  induction xs with
  | nil =>
    intro i h h1 hc
    simp only [copy_in, Option.some.injEq] at hc
    subst hc
    refine ⟨rfl, fun _ => rfl, ?_, fun hne => absurd rfl hne⟩
    intro q j
    have : ¬ (q = p ∧ i ≤ j ∧ j < i + ([] : List T).length) := by
      simp only [List.length_nil]; omega
    rw [if_neg this]
  | cons x xs ih =>
    intro i h h1 hc
    simp only [copy_in] at hc
    cases hs : store h p i x with
    | none => simp [hs] at hc
    | some h2 =>
      simp only [hs] at hc
      obtain ⟨hl, hbl, hld, hbd⟩ := ih (i + 1) h2 h1 hc
      obtain ⟨b, hb, hi, _⟩ := store_eq_some.1 hs
      refine ⟨by rw [hl, store_length hs], ?_, ?_, ?_⟩
      · intro q; rw [hbl q, store_block_length hs q]
      · intro q j
        rw [hld q j, load_store hs q j]
        by_cases hq : q = p
        · by_cases hji : j = i
          · subst hji
            have h1 : ¬ (q = p ∧ j + 1 ≤ j ∧ j < j + 1 + xs.length) := by omega
            have h2 : q = p ∧ j ≤ j ∧ j < j + (x :: xs).length := by
              simp only [List.length_cons]; omega
            rw [if_neg h1, if_pos ⟨hq, rfl⟩, if_pos h2]
            simp
          · by_cases hr : i + 1 ≤ j ∧ j < i + 1 + xs.length
            · have h2 : q = p ∧ i ≤ j ∧ j < i + (x :: xs).length := by
                simp only [List.length_cons]; omega
              rw [if_pos ⟨hq, hr⟩, if_pos h2]
              have : j - i = (j - (i + 1)) + 1 := by omega
              rw [this, List.getElem?_cons_succ]
            · have h1 : ¬ (q = p ∧ i + 1 ≤ j ∧ j < i + 1 + xs.length) := fun hc => hr hc.2
              have h2 : ¬ (q = p ∧ i ≤ j ∧ j < i + (x :: xs).length) := by
                simp only [List.length_cons]; omega
              have h3 : ¬ (q = p ∧ j = i) := fun hc => hji hc.2
              rw [if_neg h1, if_neg h2, if_neg h3]
        · have h1 : ¬ (q = p ∧ i + 1 ≤ j ∧ j < i + 1 + xs.length) := fun hc => hq hc.1
          have h2 : ¬ (q = p ∧ i ≤ j ∧ j < i + (x :: xs).length) := fun hc => hq hc.1
          have h3 : ¬ (q = p ∧ j = i) := fun hc => hq hc.1
          rw [if_neg h1, if_neg h2, if_neg h3]
      · intro _
        refine ⟨b, hb, ?_⟩
        by_cases hxs : xs = []
        · subst hxs; simp only [List.length_cons, List.length_nil]; omega
        · obtain ⟨b2, hb2, hlen⟩ := hbd hxs
          have hb2len := store_block_length hs p
          rw [hb2, hb] at hb2len
          simp only [Option.map_some', Option.some.injEq] at hb2len
          simp only [List.length_cons]; omega

theorem copy_in_ok (p : Nat) (xs : List T) :
    ∀ (i : Nat) (h : Heap T) (b : List T), block h p = some b → i + xs.length ≤ b.length →
      ∃ h1, copy_in p xs i h = some h1 := by
  induction xs with
  | nil => intro i h b _ _; exact ⟨h, rfl⟩
  | cons x xs ih =>
    intro i h b hb hi
    simp only [List.length_cons] at hi
    obtain ⟨h2, hs⟩ := store_of_block x hb (show i < b.length by omega)
    have hb2 := store_block hs p
    rw [if_pos rfl, hb] at hb2
    obtain ⟨h1, hc⟩ := ih (i + 1) h2 (b.set i x) hb2 (by simp; omega)
    exact ⟨h1, by simp only [copy_in, hs, hc]⟩

theorem fill_eq_copy_in (p : Nat) (value : T) :
    ∀ (k i : Nat) (h : Heap T), fill p value k i h = copy_in p (List.replicate k value) i h := by
  intro k
  induction k with
  | zero => intro i h; rfl
  | succ k ih =>
    intro i h
    simp only [fill, List.replicate_succ, copy_in]
    cases store h p i value with
    | none => rfl
    | some h1 => exact ih (i + 1) h1

theorem block_ext {h h1 : Heap T} {q : Nat}
    (hlen : (block h1 q).map List.length = (block h q).map List.length)
    (hld : ∀ j, load h1 q j = load h q j) : block h1 q = block h q := by
  cases hb1 : block h1 q with
  | none =>
    rw [hb1] at hlen
    cases hb : block h q with
    | none => rfl
    | some b => rw [hb] at hlen; simp at hlen
  | some b1 =>
    rw [hb1] at hlen
    cases hb : block h q with
    | none => rw [hb] at hlen; simp at hlen
    | some b =>
      congr 1
      apply List.ext_getElem?
      intro j
      have := hld j
      rw [load_eq, load_eq, hb1, hb] at this
      exact this

theorem copy_elems_spec (src dst : Nat) (hne : src ≠ dst) :
    ∀ (k i : Nat) (h h1 : Heap T), copy_elems src dst k i h = some h1 →
      h1.length = h.length ∧
      (∀ q, (block h1 q).map List.length = (block h q).map List.length) ∧
      (∀ q j, load h1 q j =
        if q = dst ∧ i ≤ j ∧ j < i + k then load h src j else load h q j) ∧
      (0 < k → ∃ b, block h dst = some b ∧ i + k ≤ b.length) ∧
      (∀ j, i ≤ j → j < i + k → ∃ x, load h src j = some x) := by
  intro k
  induction k with
  | zero =>
    intro i h h1 hc
    simp only [copy_elems, Option.some.injEq] at hc
    subst hc
    refine ⟨rfl, fun _ => rfl, ?_, fun hk => absurd hk (Nat.lt_irrefl 0), ?_⟩
    · intro q j
      have : ¬ (q = dst ∧ i ≤ j ∧ j < i + 0) := by omega
      rw [if_neg this]
    · intro j h1 h2; omega
  | succ k ih =>
    intro i h h1 hc
    simp only [copy_elems] at hc
    cases hl : load h src i with
    | none => simp [hl] at hc
    | some x =>
      simp only [hl] at hc
      cases hs : store h dst i x with
      | none => simp [hs] at hc
      | some h2 =>
        simp only [hs] at hc
        obtain ⟨hlen, hbl, hld, hbd, hsrc⟩ := ih (i + 1) h2 h1 hc
        obtain ⟨b, hb, hi, _⟩ := store_eq_some.1 hs
        have hsrc2 : ∀ j, load h2 src j = load h src j := by
          intro j
          rw [load_store hs src j]
          have : ¬ (src = dst ∧ j = i) := fun hc => hne hc.1
          rw [if_neg this]
        refine ⟨by rw [hlen, store_length hs], ?_, ?_, ?_, ?_⟩
        · intro q; rw [hbl q, store_block_length hs q]
        · intro q j
          rw [hld q j, load_store hs q j, hsrc2 j]
          by_cases hq : q = dst
          · by_cases hji : j = i
            · subst hji
              have h1 : ¬ (q = dst ∧ j + 1 ≤ j ∧ j < j + 1 + k) := by omega
              have h2 : q = dst ∧ j ≤ j ∧ j < j + (k + 1) := by omega
              rw [if_neg h1, if_pos ⟨hq, rfl⟩, if_pos h2, hl]
            · by_cases hr : i + 1 ≤ j ∧ j < i + 1 + k
              · have h2 : q = dst ∧ i ≤ j ∧ j < i + (k + 1) := by omega
                rw [if_pos ⟨hq, hr⟩, if_pos h2]
              · have h1 : ¬ (q = dst ∧ i + 1 ≤ j ∧ j < i + 1 + k) := fun hc => hr hc.2
                have h2 : ¬ (q = dst ∧ i ≤ j ∧ j < i + (k + 1)) := by omega
                have h3 : ¬ (q = dst ∧ j = i) := fun hc => hji hc.2
                rw [if_neg h1, if_neg h2, if_neg h3]
          · have h1 : ¬ (q = dst ∧ i + 1 ≤ j ∧ j < i + 1 + k) := fun hc => hq hc.1
            have h2 : ¬ (q = dst ∧ i ≤ j ∧ j < i + (k + 1)) := fun hc => hq hc.1
            have h3 : ¬ (q = dst ∧ j = i) := fun hc => hq hc.1
            rw [if_neg h1, if_neg h2, if_neg h3]
        · intro _
          refine ⟨b, hb, ?_⟩
          by_cases hk : 0 < k
          · obtain ⟨b2, hb2, hlen2⟩ := hbd hk
            have hb2len := store_block_length hs dst
            rw [hb2, hb] at hb2len
            simp only [Option.map_some', Option.some.injEq] at hb2len
            omega
          · omega
        · intro j hj1 hj2
          by_cases hji : j = i
          · subst hji; exact ⟨x, hl⟩
          · obtain ⟨y, hy⟩ := hsrc j (by omega) (by omega)
            exact ⟨y, by rw [← hsrc2 j]; exact hy⟩

/-- The free store after one relocation of line 30: the store to the new slot, followed in
a move by the store of the moved-from value to the source slot. -/
theorem relocated_heap {h h1 hm : Heap T} {src dst i : Nat} {x : T} (hne : src ≠ dst)
    (hs : store h dst i x = some h1)
    (hcase : hm = h1 ∨ ∃ y, store h1 src i y = some hm) :
    hm.length = h.length ∧
    (∀ q, (block hm q).map List.length = (block h q).map List.length) ∧
    (∀ q j, q ≠ src → load hm q j = if q = dst ∧ j = i then some x else load h q j) ∧
    (∀ j, j ≠ i → load hm src j = load h src j) := by
  have hsrc1 : ∀ j, load h1 src j = load h src j := by
    intro j
    rw [load_store hs]
    have : ¬ (src = dst ∧ j = i) := fun hc => hne hc.1
    rw [if_neg this]
  rcases hcase with rfl | ⟨y, hs2⟩
  · exact ⟨store_length hs, store_block_length hs, fun q j _ => load_store hs q j,
      fun j _ => hsrc1 j⟩
  · refine ⟨by rw [store_length hs2, store_length hs], ?_, ?_, ?_⟩
    · intro q; rw [store_block_length hs2, store_block_length hs]
    · intro q j hq
      rw [load_store hs2]
      have : ¬ (q = src ∧ j = i) := fun hc => hq hc.1
      rw [if_neg this, load_store hs]
    · intro j hj
      rw [load_store hs2]
      have : ¬ (src = src ∧ j = i) := fun hc => hj hc.2
      rw [if_neg this, hsrc1]

/-- One iteration of the loop of lines 28-31 that reads `x` and does not throw. -/
theorem transfer_succ (env : Env T) (src dst k i : Nat) (h h1 : Heap T) (x : T)
    (hl : load h src i = some x) (hs : store h dst i x = some h1)
    (hx : env.xfer_throws i x = false) :
    transfer env src dst (k + 1) i h =
      if env.nothrow_move then
        match store h1 src i (env.moved_from x) with
        | none => .ub
        | some h2 => transfer env src dst k (i + 1) h2
      else transfer env src dst k (i + 1) h1 := by
  simp only [transfer, hl, hs, hx, Bool.false_eq_true, if_false]

/-- What a normal return of the loop of lines 28-31 leaves: the new block holds the
elements read from the old one, which did not throw, and every block other than the two
is as before. -/
theorem transfer_spec (env : Env T) (src dst : Nat) (hne : src ≠ dst) :
    ∀ (k i : Nat) (h hf : Heap T), transfer env src dst k i h = .ok () hf →
      hf.length = h.length ∧
      (∀ q, (block hf q).map List.length = (block h q).map List.length) ∧
      (∀ q j, q ≠ src → load hf q j =
        if q = dst ∧ i ≤ j ∧ j < i + k then load h src j else load h q j) ∧
      (0 < k → ∃ b, block h dst = some b ∧ i + k ≤ b.length) ∧
      (∀ j, i ≤ j → j < i + k →
        ∃ x, load h src j = some x ∧ env.xfer_throws j x = false) := by
  intro k
  induction k with
  | zero =>
    intro i h hf ht
    simp only [transfer, Outcome.ok.injEq, true_and] at ht
    subst ht
    refine ⟨rfl, fun _ => rfl, ?_, fun hk => absurd hk (Nat.lt_irrefl 0), ?_⟩
    · intro q j _
      have : ¬ (q = dst ∧ i ≤ j ∧ j < i + 0) := by omega
      rw [if_neg this]
    · intro j h1 h2; omega
  | succ k ih =>
    intro i h hf ht
    cases hl : load h src i with
    | none => simp [transfer, hl] at ht
    | some x =>
      cases hs : store h dst i x with
      | none => simp [transfer, hl, hs] at ht
      | some h1 =>
        by_cases hx : env.xfer_throws i x = true
        · simp [transfer, hl, hs, hx] at ht
        · have hx0 : env.xfer_throws i x = false := by simpa using hx
          rw [transfer_succ env src dst k i h h1 x hl hs hx0] at ht
          have hmid : ∃ hm, transfer env src dst k (i + 1) hm = .ok () hf ∧
              (hm = h1 ∨ ∃ y, store h1 src i y = some hm) := by
            by_cases hmv : env.nothrow_move = true
            · rw [if_pos hmv] at ht
              cases hs2 : store h1 src i (env.moved_from x) with
              | none => simp [hs2] at ht
              | some h2 =>
                simp only [hs2] at ht
                exact ⟨h2, ht, Or.inr ⟨_, hs2⟩⟩
            · rw [if_neg hmv] at ht
              exact ⟨h1, ht, Or.inl rfl⟩
          obtain ⟨hm, htm, hmcase⟩ := hmid
          obtain ⟨hA, hB, hC, hD⟩ := relocated_heap hne hs hmcase
          obtain ⟨hlen, hbl, hld, hbd, hsrc⟩ := ih (i + 1) hm hf htm
          obtain ⟨b, hb, hi, _⟩ := store_eq_some.1 hs
          refine ⟨by rw [hlen, hA], fun q => by rw [hbl q, hB q], ?_, ?_, ?_⟩
          · intro q j hq
            rw [hld q j hq, hC q j hq]
            by_cases hqd : q = dst
            · by_cases hji : j = i
              · subst hji
                have h1 : ¬ (q = dst ∧ j + 1 ≤ j ∧ j < j + 1 + k) := by omega
                have h2 : q = dst ∧ j ≤ j ∧ j < j + (k + 1) := by omega
                rw [if_neg h1, if_pos ⟨hqd, rfl⟩, if_pos h2, hl]
              · by_cases hr : i + 1 ≤ j ∧ j < i + 1 + k
                · have h2 : q = dst ∧ i ≤ j ∧ j < i + (k + 1) := by omega
                  rw [if_pos ⟨hqd, hr⟩, if_pos h2, hD j hji]
                · have h1 : ¬ (q = dst ∧ i + 1 ≤ j ∧ j < i + 1 + k) := fun hc => hr hc.2
                  have h2 : ¬ (q = dst ∧ i ≤ j ∧ j < i + (k + 1)) := by omega
                  have h3 : ¬ (q = dst ∧ j = i) := fun hc => hji hc.2
                  rw [if_neg h1, if_neg h2, if_neg h3]
            · have h1 : ¬ (q = dst ∧ i + 1 ≤ j ∧ j < i + 1 + k) := fun hc => hqd hc.1
              have h2 : ¬ (q = dst ∧ i ≤ j ∧ j < i + (k + 1)) := fun hc => hqd hc.1
              have h3 : ¬ (q = dst ∧ j = i) := fun hc => hqd hc.1
              rw [if_neg h1, if_neg h2, if_neg h3]
          · intro _
            refine ⟨b, hb, ?_⟩
            by_cases hk : 0 < k
            · obtain ⟨b2, hb2, hlen2⟩ := hbd hk
              have hb2len := hB dst
              rw [hb2, hb] at hb2len
              simp only [Option.map_some', Option.some.injEq] at hb2len
              omega
            · omega
          · intro j hj1 hj2
            by_cases hji : j = i
            · subst hji; exact ⟨x, hl, hx0⟩
            · obtain ⟨y, hy, hq⟩ := hsrc j (by omega) (by omega)
              exact ⟨y, by rw [← hD j hji]; exact hy, hq⟩

/-- The loop of lines 28-31 on readable source slots and a new block with room: it
returns normally, or it throws the exception of an element. -/
theorem transfer_total (env : Env T) (src dst : Nat) (hne : src ≠ dst) :
    ∀ (k i : Nat) (h : Heap T) (b : List T),
      (∀ j, i ≤ j → j < i + k → ∃ x, load h src j = some x) →
      block h dst = some b → i + k ≤ b.length →
      (∃ hf, transfer env src dst k i h = .ok () hf) ∨
      (∃ hf, transfer env src dst k i h = .throws .element_error hf ∧
        ∃ j x, i ≤ j ∧ j < i + k ∧ load h src j = some x ∧ env.xfer_throws j x = true) := by
  intro k
  induction k with
  | zero => intro i h b _ _ _; exact Or.inl ⟨h, rfl⟩
  | succ k ih =>
    intro i h b hsrc hb hi
    obtain ⟨x, hl⟩ := hsrc i (Nat.le_refl i) (by omega)
    obtain ⟨h1, hs⟩ := store_of_block x hb (show i < b.length by omega)
    by_cases hx : env.xfer_throws i x = true
    · right
      exact ⟨h, by simp only [transfer, hl, hs, hx, if_true], i, x, Nat.le_refl i,
        by omega, hl, hx⟩
    · have hx0 : env.xfer_throws i x = false := by simpa using hx
      rw [transfer_succ env src dst k i h h1 x hl hs hx0]
      have hnext : ∀ hm, (hm = h1 ∨ ∃ y, store h1 src i y = some hm) →
          (∃ hf, transfer env src dst k (i + 1) hm = .ok () hf) ∨
          (∃ hf, transfer env src dst k (i + 1) hm = .throws .element_error hf ∧
            ∃ j x, i ≤ j ∧ j < i + (k + 1) ∧ load h src j = some x ∧
              env.xfer_throws j x = true) := by
        intro hm hmcase
        obtain ⟨_, hB, hC, hD⟩ := relocated_heap hne hs hmcase
        have hbm : ∃ bm, block hm dst = some bm ∧ bm.length = b.length := by
          have := hB dst
          rw [hb] at this
          cases hbm : block hm dst with
          | none => rw [hbm] at this; simp at this
          | some bm => rw [hbm] at this; exact ⟨bm, rfl, by simpa using this⟩
        obtain ⟨bm, hbm, hbml⟩ := hbm
        have hsrcm : ∀ j, i + 1 ≤ j → j < i + 1 + k → ∃ y, load hm src j = some y := by
          intro j hj1 hj2
          obtain ⟨y, hy⟩ := hsrc j (by omega) (by omega)
          exact ⟨y, by rw [hD j (by omega)]; exact hy⟩
        rcases ih (i + 1) hm bm hsrcm hbm (by omega) with hok | ⟨hf, hth, j, y, hj1, hj2, hy, hq⟩
        · exact Or.inl hok
        · right
          refine ⟨hf, hth, j, y, by omega, by omega, ?_, hq⟩
          rw [← hD j (by omega)]; exact hy
      by_cases hmv : env.nothrow_move = true
      · rw [if_pos hmv]
        have hbs : ∃ bs, block h1 src = some bs ∧ i < bs.length := by
          obtain ⟨bs, hbs, hbx⟩ : ∃ bs, block h src = some bs ∧ bs[i]? = some x := by
            rw [load_eq] at hl
            cases hbs : block h src with
            | none => rw [hbs] at hl; simp at hl
            | some bs => rw [hbs] at hl; exact ⟨bs, rfl, by simpa using hl⟩
          have hi2 : i < bs.length := (List.getElem?_eq_some_iff.1 hbx).1
          have := store_block hs src
          rw [if_neg hne, hbs] at this
          exact ⟨bs, this, hi2⟩
        obtain ⟨bs, hbs, hi2⟩ := hbs
        obtain ⟨h2, hs2⟩ := store_of_block (env.moved_from x) hbs hi2
        simp only [hs2]
        exact hnext h2 (Or.inr ⟨_, hs2⟩)
      · rw [if_neg hmv]
        exact hnext h1 (Or.inl rfl)

theorem transfer_returns (env : Env T) (src dst : Nat) (hne : src ≠ dst) (k i : Nat)
    (h : Heap T) (b : List T)
    (hsrc : ∀ j, i ≤ j → j < i + k → ∃ x, load h src j = some x)
    (hq : ∀ j x, i ≤ j → j < i + k → load h src j = some x → env.xfer_throws j x = false)
    (hb : block h dst = some b) (hi : i + k ≤ b.length) :
    ∃ hf, transfer env src dst k i h = .ok () hf := by
  rcases transfer_total env src dst hne k i h b hsrc hb hi with hok | ⟨_, _, j, x, h1, h2, hl, hx⟩
  · exact hok
  · rw [hq j x h1 h2 hl] at hx; cases hx

theorem transfer_no_ub (env : Env T) (src dst : Nat) (hne : src ≠ dst) (k i : Nat)
    (h : Heap T) (b : List T)
    (hsrc : ∀ j, i ≤ j → j < i + k → ∃ x, load h src j = some x)
    (hb : block h dst = some b) (hi : i + k ≤ b.length) :
    transfer env src dst k i h ≠ .ub := by
  rcases transfer_total env src dst hne k i h b hsrc hb hi with ⟨hf, ht⟩ | ⟨hf, ht, _⟩
  · rw [ht]; exact fun hc => by cases hc
  · rw [ht]; exact fun hc => by cases hc

/-- What the loop of lines 28-31 leaves when it throws: the exception of an element; every
block other than the old and the new one as before; the old block with its length, and
with its contents when the relocation is by copy. -/
theorem transfer_throws_spec (env : Env T) (src dst : Nat) (hne : src ≠ dst) :
    ∀ (k i : Nat) (h hf : Heap T) (e : Exc), transfer env src dst k i h = .throws e hf →
      e = .element_error ∧ hf.length = h.length ∧
      (∀ q, (block hf q).map List.length = (block h q).map List.length) ∧
      (∀ q j, q ≠ src → q ≠ dst → load hf q j = load h q j) ∧
      (env.nothrow_move = false → ∀ j, load hf src j = load h src j) ∧
      (∃ b, block h dst = some b) := by
  intro k
  induction k with
  | zero => intro i h hf e ht; simp [transfer] at ht
  | succ k ih =>
    intro i h hf e ht
    cases hl : load h src i with
    | none => simp [transfer, hl] at ht
    | some x =>
      cases hs : store h dst i x with
      | none => simp [transfer, hl, hs] at ht
      | some h1 =>
        obtain ⟨b, hb, _, _⟩ := store_eq_some.1 hs
        by_cases hx : env.xfer_throws i x = true
        · simp only [transfer, hl, hs, hx, if_true, Outcome.throws.injEq] at ht
          obtain ⟨rfl, rfl⟩ := ht
          exact ⟨rfl, rfl, fun _ => rfl, fun _ _ _ _ => rfl, fun _ _ => rfl, b, hb⟩
        · have hx0 : env.xfer_throws i x = false := by simpa using hx
          rw [transfer_succ env src dst k i h h1 x hl hs hx0] at ht
          by_cases hmv : env.nothrow_move = true
          · rw [if_pos hmv] at ht
            cases hs2 : store h1 src i (env.moved_from x) with
            | none => simp [hs2] at ht
            | some h2 =>
              simp only [hs2] at ht
              obtain ⟨hA, hB, hC, _⟩ := relocated_heap hne hs (Or.inr ⟨_, hs2⟩)
              obtain ⟨he, hlen, hbl, hld, _, _⟩ := ih (i + 1) h2 hf e ht
              refine ⟨he, by rw [hlen, hA], fun q => by rw [hbl q, hB q], ?_, ?_, b, hb⟩
              · intro q j hq1 hq2
                rw [hld q j hq1 hq2, hC q j hq1]
                have : ¬ (q = dst ∧ j = i) := fun hc => hq2 hc.1
                rw [if_neg this]
              · intro hcopy; rw [hcopy] at hmv; cases hmv
          · rw [if_neg hmv] at ht
            obtain ⟨hA, hB, hC, hD⟩ := relocated_heap hne hs (Or.inl (rfl : h1 = h1))
            obtain ⟨he, hlen, hbl, hld, hcp, _⟩ := ih (i + 1) h1 hf e ht
            refine ⟨he, by rw [hlen, hA], fun q => by rw [hbl q, hB q], ?_, ?_, b, hb⟩
            · intro q j hq1 hq2
              rw [hld q j hq1 hq2, hC q j hq1]
              have : ¬ (q = dst ∧ j = i) := fun hc => hq2 hc.1
              rw [if_neg this]
            · intro hcopy j
              rw [hcp hcopy j]
              rw [load_store hs]
              have : ¬ (src = dst ∧ j = i) := fun hc => hne hc.1
              rw [if_neg this]

/-! ## Well-formed objects -/

theorem WF.data_le {h : Heap T} {v : Vector} (hwf : WF h v) : v.data_ ≤ h.length := by
  obtain ⟨_, _, hb⟩ := hwf
  by_cases hd : v.data_ = 0
  · omega
  · rw [if_neg hd] at hb
    cases hblk : block h v.data_ with
    | none => rw [hblk] at hb; simp at hb
    | some b => exact (block_bound hblk).2

theorem WF.has_block {h : Heap T} {v : Vector} (hwf : WF h v) (hd : v.data_ ≠ 0) :
    ∃ b, block h v.data_ = some b ∧ b.length = v.capacity_ := by
  obtain ⟨_, _, hb⟩ := hwf
  rw [if_neg hd] at hb
  cases hblk : block h v.data_ with
  | none => rw [hblk] at hb; simp at hb
  | some b => rw [hblk] at hb; exact ⟨b, rfl, by simpa using hb⟩

theorem WF.cap_zero {h : Heap T} {v : Vector} (hwf : WF h v) (hd : v.data_ = 0) :
    v.capacity_ = 0 ∧ v.size_ = 0 := by
  obtain ⟨hs, _, hb⟩ := hwf
  rw [if_pos hd] at hb
  omega

theorem WF.can_load {h : Heap T} {v : Vector} (hwf : WF h v) {j : Nat} (hj : j < v.capacity_) :
    ∃ x, load h v.data_ j = some x := by
  by_cases hd : v.data_ = 0
  · have := hwf.cap_zero hd; omega
  · obtain ⟨b, hb, hlen⟩ := hwf.has_block hd
    have hjb : j < b.length := by omega
    exact ⟨b[j], by rw [load_eq, hb]; simp [hjb]⟩

theorem WF.can_delete {h : Heap T} {v : Vector} (hwf : WF h v) :
    ∃ h1, delete_array h v.data_ = some h1 := by
  by_cases hd : v.data_ = 0
  · rw [hd]; exact ⟨h, rfl⟩
  · obtain ⟨b, hb, _⟩ := hwf.has_block hd
    exact delete_of_block hb

theorem WF.of_block {h : Heap T} {v : Vector} {b : List T} (hs : v.size_ ≤ v.capacity_)
    (hc : v.capacity_ < SIZE_LIMIT) (hb : block h v.data_ = some b)
    (hl : b.length = v.capacity_) : WF h v := by
  refine ⟨hs, hc, ?_⟩
  have hd : v.data_ ≠ 0 := by have := (block_bound hb).1; omega
  rw [if_neg hd, hb]; simp [hl]

/-! ## `reallocate` -/

theorem new_array_eq_some {env : Env T} {h h1 : Heap T} {n p : Nat} :
    new_array env h n = some (p, h1) ↔
      env.avail h n = true ∧ p = h.length + 1 ∧
        h1 = h ++ [some (List.replicate n env.dflt)] := by
  unfold new_array
  by_cases ha : env.avail h n = true
  · simp [ha, eq_comm]
  · simp [ha]

theorem new_array_eq_none {env : Env T} {h : Heap T} {n : Nat} :
    new_array env h n = none ↔ env.avail h n = false := by
  unfold new_array
  by_cases ha : env.avail h n = true
  · simp [ha]
  · simp [ha]

theorem load_append_old (h : Heap T) (o : Option (List T)) (p j : Nat) (hp : p ≤ h.length) :
    load (h ++ [o]) p j = load h p j := by
  rw [load_eq, load_eq, block_append_old h o p hp]

/-- What `reallocate` leaves when it throws: the object as it was; after a failed
allocation the free store as it was; after a throwing relocation the new block released,
every block other than the old one as it was, and the old block with its length, and with
its contents when the relocation is by copy. -/
theorem reallocate_throws {env : Env T} {v v1 : Vector} {h h1 : Heap T} {n : Nat} {e : Exc}
    (hv : v.data_ ≤ h.length) (hr : reallocate env v h n = .throws e (v1, h1)) :
    v1 = v ∧ ((e = .bad_alloc ∧ h1 = h ∧ env.avail h n = false) ∨
      (e = .element_error ∧ env.avail h n = true ∧ h1.length = h.length + 1 ∧
        block h1 (h.length + 1) = none ∧
        (∀ q, q ≤ h.length → (block h1 q).map List.length = (block h q).map List.length) ∧
        (∀ q, q ≠ v.data_ → q ≤ h.length → block h1 q = block h q) ∧
        (env.nothrow_move = false → block h1 v.data_ = block h v.data_))) := by
  unfold reallocate at hr
  cases hn : new_array env h n with
  | none =>
    simp only [hn, Outcome.throws.injEq, Prod.mk.injEq] at hr
    exact ⟨hr.2.1.symm, Or.inl ⟨hr.1.symm, hr.2.2.symm, new_array_eq_none.1 hn⟩⟩
  | some r =>
    obtain ⟨p, h2⟩ := r
    obtain ⟨ha, rfl, rfl⟩ := new_array_eq_some.1 hn
    simp only [hn] at hr
    have hne : v.data_ ≠ h.length + 1 := by omega
    cases ht : transfer env v.data_ (h.length + 1) v.size_ 0
        (h ++ [some (List.replicate n env.dflt)]) with
    | ub => simp [ht] at hr
    | ok a h3 =>
      simp only [ht] at hr
      cases hd : delete_array h3 v.data_ <;> simp [hd] at hr
    | throws e2 h3 =>
      simp only [ht] at hr
      obtain ⟨he, hlen, hbl, hld, hcp, _⟩ := transfer_throws_spec env _ _ hne _ _ _ _ _ ht
      cases hd : delete_array h3 (h.length + 1) with
      | none => simp [hd] at hr
      | some h4 =>
        simp only [hd, Outcome.throws.injEq, Prod.mk.injEq] at hr
        obtain ⟨rfl, rfl, rfl⟩ := hr
        refine ⟨rfl, Or.inr ⟨he, ha, ?_, ?_, ?_, ?_, ?_⟩⟩
        · rw [delete_length hd, hlen]; simp
        · rw [delete_block hd, if_pos rfl]
        · intro q hq
          have hq3 : q ≠ h.length + 1 := by omega
          rw [delete_block hd, if_neg hq3, hbl q, block_append_old h _ q hq]
        · intro q hq1 hq2
          have hq3 : q ≠ h.length + 1 := by omega
          rw [delete_block hd, if_neg hq3]
          apply (block_ext (hbl q) ?_).trans (block_append_old h _ q hq2)
          intro j
          exact hld q j hq1 hq3
        · intro hcopy
          rw [delete_block hd, if_neg hne]
          apply (block_ext (hbl _) ?_).trans (block_append_old h _ _ hv)
          intro j
          exact hcp hcopy j

theorem load_delete {h h1 : Heap T} {p : Nat} (hd : delete_array h p = some h1) (q j : Nat) :
    load h1 q j = if q = p then none else load h q j := by
  rw [load_eq, load_eq, delete_block hd q]
  by_cases hq : q = p
  · simp [hq]
  · simp [hq]

/-- What a normal return of `reallocate` leaves: the object points at the new block, which
has `n` slots, the `size_` relocated elements first and fresh slots after them; the old
block is released and every other block is as before. -/
theorem reallocate_ok {env : Env T} {v v1 : Vector} {h h1 : Heap T} {n : Nat}
    (hv : v.data_ ≤ h.length) (hr : reallocate env v h n = .ok () (v1, h1)) :
    v1 = { v with data_ := h.length + 1, capacity_ := n } ∧
    env.avail h n = true ∧
    h1.length = h.length + 1 ∧
    (∃ b, block h1 (h.length + 1) = some b ∧ b.length = n) ∧
    (∀ j, j < v.size_ → load h1 (h.length + 1) j = load h v.data_ j) ∧
    (∀ j, v.size_ ≤ j → j < n → load h1 (h.length + 1) j = some env.dflt) ∧
    (∀ q, q ≠ v.data_ → q ≤ h.length → block h1 q = block h q) ∧
    (block h1 v.data_ = none) ∧
    (0 < v.size_ → v.size_ ≤ n) ∧
    (∀ j, j < v.size_ → ∃ x, load h v.data_ j = some x ∧ env.xfer_throws j x = false) := by
  unfold reallocate at hr
  cases hn : new_array env h n with
  | none => simp [hn] at hr
  | some r =>
    obtain ⟨p, h2⟩ := r
    obtain ⟨ha, rfl, rfl⟩ := new_array_eq_some.1 hn
    simp only [hn] at hr
    have hne : v.data_ ≠ h.length + 1 := by omega
    cases ht : transfer env v.data_ (h.length + 1) v.size_ 0
        (h ++ [some (List.replicate n env.dflt)]) with
    | ub => simp [ht] at hr
    | throws e2 h3 =>
      simp only [ht] at hr
      cases hd : delete_array h3 (h.length + 1) <;> simp [hd] at hr
    | ok a h3 =>
      simp only [ht] at hr
      cases hd : delete_array h3 v.data_ with
      | none => simp [hd] at hr
      | some h4 =>
        simp only [hd, Outcome.ok.injEq, Prod.mk.injEq, true_and] at hr
        obtain ⟨hv1, rfl⟩ := hr
        obtain ⟨hlen, hbl, hld, hbd, hsrc⟩ := transfer_spec env _ _ hne _ _ _ _ ht
        have hdl := delete_length hd
        have hnew : (block h3 (h.length + 1)).map List.length = some n := by
          rw [hbl, block_append_new]; simp
        refine ⟨hv1.symm, ha, ?_, ?_, ?_, ?_, ?_, ?_, ?_, ?_⟩
        · rw [hdl, hlen]; simp
        · rw [delete_block hd, if_neg (Ne.symm hne)]
          cases hb3 : block h3 (h.length + 1) with
          | none => rw [hb3] at hnew; simp at hnew
          | some b => rw [hb3] at hnew; exact ⟨b, rfl, by simpa using hnew⟩
        · intro j hj
          rw [load_delete hd, if_neg (Ne.symm hne), hld _ _ (Ne.symm hne)]
          have : h.length + 1 = h.length + 1 ∧ 0 ≤ j ∧ j < 0 + v.size_ := by omega
          rw [if_pos this, load_append_old h _ _ _ hv]
        · intro j hj1 hj2
          rw [load_delete hd, if_neg (Ne.symm hne), hld _ _ (Ne.symm hne)]
          have : ¬ (h.length + 1 = h.length + 1 ∧ 0 ≤ j ∧ j < 0 + v.size_) := by omega
          rw [if_neg this, load_eq, block_append_new]
          simp [hj2]
        · intro q hq1 hq2
          rw [delete_block hd, if_neg hq1]
          have hq3 : q ≠ h.length + 1 := by omega
          apply (block_ext (hbl q) ?_).trans (block_append_old h _ q hq2)
          intro j
          rw [hld q j hq1]
          have : ¬ (q = h.length + 1 ∧ 0 ≤ j ∧ j < 0 + v.size_) := fun hc => hq3 hc.1
          rw [if_neg this]
        · rw [delete_block hd, if_pos rfl]
        · intro hpos
          obtain ⟨b, hb, hle⟩ := hbd hpos
          rw [block_append_new] at hb
          cases hb
          simpa using hle
        · intro j hj
          obtain ⟨x, hx, hq⟩ := hsrc j (Nat.zero_le j) (by omega)
          refine ⟨x, ?_, hq⟩
          rw [← load_append_old h _ _ _ hv]; exact hx

/-- When `reallocate` returns normally: the object is valid, the request covers the live
elements, the allocator has the storage and no live element throws on relocation. -/
theorem reallocate_returns {env : Env T} {v : Vector} {h : Heap T} {n : Nat}
    (hwf : WF h v) (hn : v.size_ ≤ n) (ha : env.avail h n = true)
    (hq : ∀ j x, j < v.size_ → load h v.data_ j = some x → env.xfer_throws j x = false) :
    ∃ h1, reallocate env v h n =
      .ok () ({ v with data_ := h.length + 1, capacity_ := n }, h1) := by
  have hv := hwf.data_le
  have hne : v.data_ ≠ h.length + 1 := by omega
  have hnew : new_array env h n =
      some (h.length + 1, h ++ [some (List.replicate n env.dflt)]) :=
    new_array_eq_some.2 ⟨ha, rfl, rfl⟩
  have hsrc : ∀ j, 0 ≤ j → j < 0 + v.size_ →
      ∃ x, load (h ++ [some (List.replicate n env.dflt)]) v.data_ j = some x := by
    intro j _ hj
    obtain ⟨x, hx⟩ := hwf.can_load (show j < v.capacity_ by have := hwf.1; omega)
    exact ⟨x, by rw [load_append_old h _ _ _ hv]; exact hx⟩
  obtain ⟨h2, ht⟩ := transfer_returns env v.data_ (h.length + 1) hne v.size_ 0
    (h ++ [some (List.replicate n env.dflt)]) _ hsrc
    (fun j x _ hj hx => by
      rw [load_append_old h _ _ _ hv] at hx
      exact hq j x (by omega) hx)
    (block_append_new h _) (by simpa using hn)
  obtain ⟨_, hbl, hld, _, _⟩ := transfer_spec env _ _ hne _ _ _ _ ht
  have hdel : ∃ h3, delete_array h2 v.data_ = some h3 := by
    by_cases hd : v.data_ = 0
    · rw [hd]; exact ⟨h2, rfl⟩
    · obtain ⟨b, hb, _⟩ := hwf.has_block hd
      have h2b := hbl v.data_
      rw [block_append_old h _ _ hv, hb] at h2b
      cases hb2 : block h2 v.data_ with
      | none => rw [hb2] at h2b; simp at h2b
      | some b2 => exact delete_of_block hb2
  obtain ⟨h3, hd⟩ := hdel
  exact ⟨h3, by simp only [reallocate, hnew, ht, hd]⟩

theorem reallocate_ok_alias {env : Env T} {v v1 : Vector} {h h1 : Heap T} {n : Nat}
    (hr : reallocate env v h n = .ok () (v1, h1)) :
    v1 = { v with data_ := h.length + 1, capacity_ := n } ∧
    (v.data_ ≤ h.length ∨ block h1 (h.length + 1) = none) := by
  have hr0 := hr
  unfold reallocate at hr
  cases hn : new_array env h n with
  | none => simp [hn] at hr
  | some r =>
    obtain ⟨p, h2⟩ := r
    obtain ⟨ha, rfl, rfl⟩ := new_array_eq_some.1 hn
    simp only [hn] at hr
    cases ht : transfer env v.data_ (h.length + 1) v.size_ 0
        (h ++ [some (List.replicate n env.dflt)]) with
    | ub => simp [ht] at hr
    | throws e2 h3 =>
      simp only [ht] at hr
      cases hd : delete_array h3 (h.length + 1) <;> simp [hd] at hr
    | ok a h3 =>
      simp only [ht] at hr
      cases hd : delete_array h3 v.data_ with
      | none => simp [hd] at hr
      | some h4 =>
        simp only [hd, Outcome.ok.injEq, Prod.mk.injEq, true_and] at hr
        obtain ⟨hv1, rfl⟩ := hr
        refine ⟨hv1.symm, ?_⟩
        by_cases hle : v.data_ ≤ h.length
        · exact Or.inl hle
        · right
          by_cases heq : v.data_ = h.length + 1
          · rw [delete_block hd, if_pos heq.symm]
          · exfalso
            have hne : v.data_ ≠ h.length + 1 := heq
            obtain ⟨hlen, _, _, _, _⟩ := transfer_spec env _ _ hne _ _ _ _ ht
            rcases delete_eq_some.1 hd with ⟨h0, _⟩ | ⟨b, hb, _⟩
            · omega
            · have := (block_bound hb).2
              rw [hlen] at this
              simp at this
              omega

/-! ## `push_back` -/

theorem push_back_room {env : Env T} {v : Vector} {h : Heap T} {r : Ref T}
    (hlt : v.size_ < v.capacity_) : push_back env v h r = store_back env v h r := by
  have : ¬ (v.size_ ≥ v.capacity_) := by omega
  simp only [push_back, this, if_false]

theorem push_back_full {env : Env T} {v : Vector} {h : Heap T} {r : Ref T}
    (hge : v.size_ ≥ v.capacity_) :
    push_back env v h r =
      match reallocate env v h (next_capacity v.capacity_) with
      | .ok _ (v1, h1) => store_back env v1 h1 r
      | .throws e s => .throws e s
      | .ub => .ub := by
  simp only [push_back, hge, if_true]

theorem next_capacity_lt (c : Nat) : next_capacity c < SIZE_LIMIT := by
  unfold next_capacity
  split
  · decide
  · exact Nat.mod_lt _ (by decide)

theorem next_capacity_of_lt {c s : Nat} (hcs : c ≤ s) (hs : s < next_capacity c) :
    next_capacity c = max 1 (2 * c) ∧ 2 * c < SIZE_LIMIT := by
  have hlt := next_capacity_lt c
  unfold next_capacity at hs hlt ⊢
  unfold SIZE_LIMIT at hs hlt ⊢
  by_cases hc : c = 0
  · subst hc; simp
  · rw [if_neg hc] at hs hlt ⊢
    have h2 : c * 2 < 2 ^ 64 := by
      by_contra hcon
      have : c * 2 % 2 ^ 64 = c * 2 - 2 ^ 64 := by
        rw [Nat.mod_eq_sub_mod (by omega), Nat.mod_eq_of_lt (by omega)]
      omega
    rw [Nat.mod_eq_of_lt h2]
    omega

/-- A normal return of line 196: the argument was readable, the slot of index `size_` is
in the block, and the assignment did not throw. -/
theorem store_back_ok {env : Env T} {v v2 : Vector} {h h2 : Heap T} {r : Ref T}
    (hp : store_back env v h r = .ok () (v2, h2)) :
    ∃ x, r.read h = some x ∧ store h v.data_ v.size_ x = some h2 ∧
      env.assign_throws x = false ∧ v2 = { v with size_ := (v.size_ + 1) % SIZE_LIMIT } := by
  unfold store_back at hp
  cases hr : r.read h with
  | none => simp [hr] at hp
  | some x =>
    simp only [hr] at hp
    cases hs : store h v.data_ v.size_ x with
    | none => simp [hs] at hp
    | some h3 =>
      simp only [hs] at hp
      by_cases hx : env.assign_throws x = true
      · simp [hx] at hp
      · have hx0 : env.assign_throws x = false := by simpa using hx
        simp only [hx0, Bool.false_eq_true, if_false, Outcome.ok.injEq, Prod.mk.injEq,
          true_and] at hp
        exact ⟨x, rfl, by rw [← hp.2]; exact hs, hx0, hp.1.symm⟩

/-- An exception out of line 196 is the one of the element assignment: the slot was in the
block, `size_` is incremented and the free store is as before. -/
theorem store_back_throws {env : Env T} {v v2 : Vector} {h h2 : Heap T} {r : Ref T}
    {e : Exc} (hp : store_back env v h r = .throws e (v2, h2)) :
    ∃ x h3, r.read h = some x ∧ store h v.data_ v.size_ x = some h3 ∧
      env.assign_throws x = true ∧ e = .element_error ∧
      v2 = { v with size_ := (v.size_ + 1) % SIZE_LIMIT } ∧ h2 = h := by
  unfold store_back at hp
  cases hr : r.read h with
  | none => simp [hr] at hp
  | some x =>
    simp only [hr] at hp
    cases hs : store h v.data_ v.size_ x with
    | none => simp [hs] at hp
    | some h3 =>
      simp only [hs] at hp
      by_cases hx : env.assign_throws x = true
      · simp only [hx, if_true, Outcome.throws.injEq, Prod.mk.injEq] at hp
        exact ⟨x, h3, rfl, hs, hx, hp.1.symm, hp.2.1.symm, hp.2.2.symm⟩
      · simp [hx] at hp

/-- Line 196 with a readable argument and the slot of index `size_` in the block returns
or throws. -/
theorem store_back_total {env : Env T} {v : Vector} {h : Heap T} {r : Ref T} {x : T}
    {b : List T} (hr : r.read h = some x) (hb : block h v.data_ = some b)
    (hi : v.size_ < b.length) :
    ∃ h2, store h v.data_ v.size_ x = some h2 ∧
      store_back env v h r =
        if env.assign_throws x then
          .throws .element_error ({ v with size_ := (v.size_ + 1) % SIZE_LIMIT }, h)
        else .ok () ({ v with size_ := (v.size_ + 1) % SIZE_LIMIT }, h2) := by
  obtain ⟨h2, hs⟩ := store_of_block x hb hi
  exact ⟨h2, hs, by simp only [store_back, hr, hs]⟩

/-- A normal return of `push_back`: the growth step returned, or there was room, and then
line 196 returned. -/
theorem push_back_ok_inv {env : Env T} {v v2 : Vector} {h h2 : Heap T} {r : Ref T}
    (hp : push_back env v h r = .ok () (v2, h2)) :
    ∃ v1 h1, ((v.size_ < v.capacity_ ∧ v1 = v ∧ h1 = h) ∨
        (v.size_ ≥ v.capacity_ ∧
          reallocate env v h (next_capacity v.capacity_) = .ok () (v1, h1))) ∧
      store_back env v1 h1 r = .ok () (v2, h2) := by
  by_cases hlt : v.size_ < v.capacity_
  · rw [push_back_room hlt] at hp
    exact ⟨v, h, Or.inl ⟨hlt, rfl, rfl⟩, hp⟩
  · have hge : v.size_ ≥ v.capacity_ := by omega
    rw [push_back_full hge] at hp
    cases hr : reallocate env v h (next_capacity v.capacity_) with
    | ub => simp [hr] at hp
    | throws e s => simp [hr] at hp
    | ok a s =>
      obtain ⟨v1, h1⟩ := s
      simp only [hr] at hp
      exact ⟨v1, h1, Or.inr ⟨hge, rfl⟩, hp⟩

/-- An exception out of `push_back` comes from the growth step or, after the growth step
returned or was not needed, from line 196. -/
theorem push_back_throws_inv {env : Env T} {v v2 : Vector} {h h2 : Heap T} {r : Ref T}
    {e : Exc} (hp : push_back env v h r = .throws e (v2, h2)) :
    (v.size_ ≥ v.capacity_ ∧
      reallocate env v h (next_capacity v.capacity_) = .throws e (v2, h2)) ∨
    (∃ v1 h1, ((v.size_ < v.capacity_ ∧ v1 = v ∧ h1 = h) ∨
        (v.size_ ≥ v.capacity_ ∧
          reallocate env v h (next_capacity v.capacity_) = .ok () (v1, h1))) ∧
      store_back env v1 h1 r = .throws e (v2, h2)) := by
  by_cases hlt : v.size_ < v.capacity_
  · rw [push_back_room hlt] at hp
    exact Or.inr ⟨v, h, Or.inl ⟨hlt, rfl, rfl⟩, hp⟩
  · have hge : v.size_ ≥ v.capacity_ := by omega
    rw [push_back_full hge] at hp
    cases hr : reallocate env v h (next_capacity v.capacity_) with
    | ub => simp [hr] at hp
    | throws e2 s =>
      simp only [hr, Outcome.throws.injEq] at hp
      obtain ⟨rfl, rfl⟩ := hp
      exact Or.inl ⟨hge, rfl⟩
    | ok a s =>
      obtain ⟨v1, h1⟩ := s
      simp only [hr] at hp
      exact Or.inr ⟨v1, h1, Or.inr ⟨hge, rfl⟩, hp⟩

/-- After a normal return of the growing branch of `push_back`: the store of the new
element was inside the new block. -/
theorem push_back_full_ok {env : Env T} {v v2 : Vector} {h h2 : Heap T} {r : Ref T}
    (hge : v.size_ ≥ v.capacity_) (hp : push_back env v h r = .ok () (v2, h2)) :
    ∃ h1 x, reallocate env v h (next_capacity v.capacity_) =
        .ok () ({ v with data_ := h.length + 1, capacity_ := next_capacity v.capacity_ }, h1) ∧
      r.read h1 = some x ∧ env.assign_throws x = false ∧
      store h1 (h.length + 1) v.size_ x = some h2 ∧
      v2 = { data_ := h.length + 1, size_ := (v.size_ + 1) % SIZE_LIMIT,
             capacity_ := next_capacity v.capacity_ } ∧
      v.data_ ≤ h.length := by
  obtain ⟨v1, h1, hcase, hsb⟩ := push_back_ok_inv hp
  rcases hcase with ⟨hlt, _, _⟩ | ⟨_, hr⟩
  · omega
  · obtain ⟨hv1, halias⟩ := reallocate_ok_alias hr
    subst hv1
    obtain ⟨x, hrd, hs, hx, hv2⟩ := store_back_ok hsb
    refine ⟨h1, x, hr, hrd, hx, hs, hv2, ?_⟩
    rcases halias with hle | hnone
    · exact hle
    · obtain ⟨b, hb, _⟩ := store_eq_some.1 hs
      simp only at hb
      rw [hnone] at hb; cases hb

theorem push_back_ok_capacity {env : Env T} {v v2 : Vector} {h h2 : Heap T} {r : Ref T}
    (hp : push_back env v h r = .ok () (v2, h2)) :
    v2.capacity_ = if v.size_ < v.capacity_ then v.capacity_ else max 1 (2 * v.capacity_) := by
  by_cases hlt : v.size_ < v.capacity_
  · rw [if_pos hlt]
    rw [push_back_room hlt] at hp
    obtain ⟨x, _, _, _, rfl⟩ := store_back_ok hp
    rfl
  · rw [if_neg hlt]
    have hge : v.size_ ≥ v.capacity_ := by omega
    obtain ⟨h1, x, hr, _, _, hs, rfl, hle⟩ := push_back_full_ok hge hp
    obtain ⟨_, _, _, ⟨b, hb, hbl⟩, _⟩ := reallocate_ok hle hr
    obtain ⟨b1, hb1, hi, _⟩ := store_eq_some.1 hs
    rw [hb] at hb1; cases hb1
    exact (next_capacity_of_lt hge (by omega)).1

/-- What a normal return of `push_back` on a valid object leaves. -/
theorem push_back_ok {env : Env T} {v v2 : Vector} {h h2 : Heap T} {r : Ref T}
    (hwf : WF h v) (hp : push_back env v h r = .ok () (v2, h2)) :
    WF h2 v2 ∧ v2.size_ = v.size_ + 1 ∧
    v2.capacity_ = (if v.size_ < v.capacity_ then v.capacity_ else max 1 (2 * v.capacity_)) ∧
    v2.data_ = (if v.size_ < v.capacity_ then v.data_ else h.length + 1) ∧
    h2.length = (if v.size_ < v.capacity_ then h.length else h.length + 1) ∧
    (∀ x, r = .val x → load h2 v2.data_ v.size_ = some x) ∧
    (∀ i, i < v.size_ → load h2 v2.data_ i = load h v.data_ i) ∧
    (∀ q, q ≠ v.data_ → q ≤ h.length → block h2 q = block h q) := by
  have hcap := push_back_ok_capacity hp
  obtain ⟨hsc, hcl, _⟩ := id hwf
  by_cases hlt : v.size_ < v.capacity_
  · simp only [if_pos hlt] at hcap ⊢
    rw [push_back_room hlt] at hp
    obtain ⟨x, hrd, hs, _, rfl⟩ := store_back_ok hp
    have hmod : (v.size_ + 1) % SIZE_LIMIT = v.size_ + 1 := Nat.mod_eq_of_lt (by omega)
    have hd : v.data_ ≠ 0 := fun hd => by have := hwf.cap_zero hd; omega
    obtain ⟨b, hb, hbl⟩ := hwf.has_block hd
    have hb3 := store_block hs v.data_
    rw [if_pos rfl, hb] at hb3
    refine ⟨?_, hmod, rfl, rfl, store_length hs, ?_, ?_, ?_⟩
    · exact WF.of_block (by simp only [hmod]; omega) hcl hb3 (by simpa using hbl)
    · intro y hy
      subst hy
      simp only [Ref.read, Option.some.injEq] at hrd
      subst hrd
      simp only
      rw [load_store hs]; simp
    · intro i hi
      simp only
      rw [load_store hs]
      have : ¬ (v.data_ = v.data_ ∧ i = v.size_) := by omega
      rw [if_neg this]
    · intro q hq _
      rw [store_block hs, if_neg hq]
  · simp only [if_neg hlt] at hcap ⊢
    have hge : v.size_ ≥ v.capacity_ := by omega
    obtain ⟨h1, x, hr, hrd, _, hs, rfl, hle⟩ := push_back_full_ok hge hp
    obtain ⟨_, _, hlen, ⟨b, hb, hbl⟩, hold, _, hframe, _, _, _⟩ := reallocate_ok hle hr
    obtain ⟨b1, hb1, hi, _⟩ := store_eq_some.1 hs
    rw [hb] at hb1; cases hb1
    have hnc := next_capacity_lt v.capacity_
    have hmod : (v.size_ + 1) % SIZE_LIMIT = v.size_ + 1 := Nat.mod_eq_of_lt (by omega)
    have hb3 := store_block hs (h.length + 1)
    rw [if_pos rfl, hb] at hb3
    refine ⟨?_, hmod, hcap, rfl, by rw [store_length hs, hlen], ?_, ?_, ?_⟩
    · exact WF.of_block (by simp only [hmod]; omega) hnc hb3 (by simpa using hbl)
    · intro y hy
      subst hy
      simp only [Ref.read, Option.some.injEq] at hrd
      subst hrd
      rw [load_store hs]; simp
    · intro i hi2
      rw [load_store hs]
      have : ¬ (h.length + 1 = h.length + 1 ∧ i = v.size_) := by omega
      rw [if_neg this]
      exact hold i hi2
    · intro q hq hql
      rw [store_block hs, if_neg (by omega)]
      exact hframe q hq hql

/-- `push_back` on a valid object, with an argument outside the buffers whose assignment
does not throw, returns normally when its growth step does. -/
theorem push_back_returns {env : Env T} {v : Vector} {h : Heap T} (x : T) (hwf : WF h v)
    (hx : env.assign_throws x = false)
    (hgrow : v.size_ ≥ v.capacity_ →
      ∃ s, reallocate env v h (next_capacity v.capacity_) = .ok () s) :
    ∃ v2 h2, push_back env v h (.val x) = .ok () (v2, h2) := by
  by_cases hlt : v.size_ < v.capacity_
  · rw [push_back_room hlt]
    have hd : v.data_ ≠ 0 := fun hd => by have := hwf.cap_zero hd; omega
    obtain ⟨b, hb, hbl⟩ := hwf.has_block hd
    obtain ⟨h2, _, hsb⟩ := @store_back_total T env v h (.val x) x b rfl hb (by omega)
    rw [hx] at hsb
    exact ⟨_, h2, hsb⟩
  · have hge : v.size_ ≥ v.capacity_ := by omega
    obtain ⟨⟨v1, h1⟩, hr⟩ := hgrow hge
    have hle := hwf.data_le
    obtain ⟨rfl, _, hlen, ⟨b, hb, hbl⟩, _, _, _, _, hsz, _⟩ := reallocate_ok hle hr
    rw [push_back_full hge, hr]
    have hlt2 : v.size_ < next_capacity v.capacity_ := by
      have hcl := hwf.2.1
      have hsc := hwf.1
      unfold next_capacity SIZE_LIMIT at hsz ⊢
      unfold SIZE_LIMIT at hcl
      by_cases hc : v.capacity_ = 0
      · rw [if_pos hc]; omega
      · rw [if_neg hc] at hsz ⊢
        have hpos : 0 < v.size_ := by omega
        have := hsz hpos
        omega
    obtain ⟨h2, _, hsb⟩ := @store_back_total T env
      { v with data_ := h.length + 1, capacity_ := next_capacity v.capacity_ } h1 (.val x) x b
      rfl hb (by simp only; omega)
    rw [hx] at hsb
    exact ⟨_, h2, hsb⟩

/-- On a valid object and for a request that covers the live elements, `reallocate` either
returns normally or throws: it has no undefined behaviour. -/
theorem reallocate_no_ub {env : Env T} {v : Vector} {h : Heap T} {n : Nat}
    (hwf : WF h v) (hn : v.size_ ≤ n) : reallocate env v h n ≠ .ub := by
  have hv := hwf.data_le
  have hne : v.data_ ≠ h.length + 1 := by omega
  unfold reallocate
  cases hnew : new_array env h n with
  | none => simp
  | some r =>
    obtain ⟨p, h2⟩ := r
    obtain ⟨ha, rfl, rfl⟩ := new_array_eq_some.1 hnew
    simp only
    have hsrc : ∀ j, 0 ≤ j → j < 0 + v.size_ →
        ∃ x, load (h ++ [some (List.replicate n env.dflt)]) v.data_ j = some x := by
      intro j _ hj
      obtain ⟨x, hx⟩ := hwf.can_load (show j < v.capacity_ by have := hwf.1; omega)
      exact ⟨x, by rw [load_append_old h _ _ _ hv]; exact hx⟩
    cases ht : transfer env v.data_ (h.length + 1) v.size_ 0
        (h ++ [some (List.replicate n env.dflt)]) with
    | ub =>
      exact absurd ht (transfer_no_ub env _ _ hne _ _ _ _ hsrc (block_append_new h _)
        (by simpa using hn))
    | throws e h3 =>
      obtain ⟨_, _, hbl, _, _, _⟩ := transfer_throws_spec env _ _ hne _ _ _ _ _ ht
      have hb3 := hbl (h.length + 1)
      rw [block_append_new] at hb3
      cases hb : block h3 (h.length + 1) with
      | none => rw [hb] at hb3; simp at hb3
      | some b2 =>
        obtain ⟨h4, hd⟩ := delete_of_block hb
        simp [hd]
    | ok a h3 =>
      obtain ⟨_, hbl, _, _, _⟩ := transfer_spec env _ _ hne _ _ _ _ ht
      have hdel : ∃ h4, delete_array h3 v.data_ = some h4 := by
        by_cases hd : v.data_ = 0
        · rw [hd]; exact ⟨h3, rfl⟩
        · obtain ⟨b, hb, _⟩ := hwf.has_block hd
          have h2b := hbl v.data_
          rw [block_append_old h _ _ hv, hb] at h2b
          cases hb2 : block h3 v.data_ with
          | none => rw [hb2] at h2b; simp at h2b
          | some b2 => exact delete_of_block hb2
      obtain ⟨h4, hd⟩ := hdel
      simp [hd]

/-- A valid object and the blocks of a free store after `reallocate` threw: the object is
as it was and still valid, no block other than its own has changed, and its own block has
its length. -/
theorem reallocate_throws_frame {env : Env T} {v v1 : Vector} {h h1 : Heap T} {n : Nat}
    {e : Exc} (hwf : WF h v) (hr : reallocate env v h n = .throws e (v1, h1)) :
    v1 = v ∧ WF h1 v ∧ h.length ≤ h1.length ∧
    (∀ q, q ≤ h.length → (block h1 q).map List.length = (block h q).map List.length) ∧
    (∀ q, q ≠ v.data_ → q ≤ h.length → block h1 q = block h q) := by
  have hv := hwf.data_le
  obtain ⟨hv1, hcase⟩ := reallocate_throws hv hr
  have key : h.length ≤ h1.length ∧
      (∀ q, q ≤ h.length → (block h1 q).map List.length = (block h q).map List.length) ∧
      (∀ q, q ≠ v.data_ → q ≤ h.length → block h1 q = block h q) := by
    rcases hcase with ⟨_, rfl, _⟩ | ⟨_, _, hlen, _, hbl, hfr, _⟩
    · exact ⟨Nat.le_refl _, fun _ _ => rfl, fun _ _ _ => rfl⟩
    · exact ⟨by omega, hbl, hfr⟩
  refine ⟨hv1, ?_, key⟩
  refine ⟨hwf.1, hwf.2.1, ?_⟩
  by_cases hd : v.data_ = 0
  · rw [if_pos hd]; exact (hwf.cap_zero hd).1
  · rw [if_neg hd, key.2.1 _ hv]
    have := hwf.2.2
    rw [if_neg hd] at this
    exact this

/-- What `push_back` on a valid object leaves when it throws: a valid object whose
capacity is not smaller, and every block other than its own as it was. -/
theorem push_back_throws {env : Env T} {v v1 : Vector} {h h1 : Heap T} {r : Ref T} {e : Exc}
    (hwf : WF h v) (hp : push_back env v h r = .throws e (v1, h1)) :
    WF h1 v1 ∧ v.capacity_ ≤ v1.capacity_ ∧ h.length ≤ h1.length ∧
    (∀ q, q ≠ v.data_ → q ≤ h.length → block h1 q = block h q) := by
  rcases push_back_throws_inv hp with ⟨_, hr⟩ | ⟨v0, h0, hcase, hsb⟩
  · obtain ⟨rfl, hwf1, hlen, _, hfr⟩ := reallocate_throws_frame hwf hr
    exact ⟨hwf1, Nat.le_refl _, hlen, hfr⟩
  · obtain ⟨x, h3, _, hs, _, _, rfl, rfl⟩ := store_back_throws hsb
    obtain ⟨b, hb, hi, _⟩ := store_eq_some.1 hs
    rcases hcase with ⟨hlt, rfl, rfl⟩ | ⟨hge, hr⟩
    · have hcl := hwf.2.1
      have hd : v0.data_ ≠ 0 := fun hd => by have := hwf.cap_zero hd; omega
      obtain ⟨b1, hb1, hbl⟩ := hwf.has_block hd
      rw [hb] at hb1; cases hb1
      have hmod : (v0.size_ + 1) % SIZE_LIMIT = v0.size_ + 1 := Nat.mod_eq_of_lt (by omega)
      refine ⟨?_, Nat.le_refl _, Nat.le_refl _, fun _ _ _ => rfl⟩
      exact WF.of_block (by simp only [hmod]; omega) hcl hb hbl
    · obtain ⟨rfl, _, hlen, ⟨b1, hb1, hbl⟩, _, _, hframe, _, _, _⟩ :=
        reallocate_ok hwf.data_le hr
      simp only at hb hi
      rw [hb1] at hb; cases hb
      have hnc := next_capacity_lt v.capacity_
      have hmod : (v.size_ + 1) % SIZE_LIMIT = v.size_ + 1 := Nat.mod_eq_of_lt (by omega)
      refine ⟨?_, ?_, by omega, hframe⟩
      · exact WF.of_block (by simp only [hmod]; omega) hnc hb1 hbl
      · simp only; omega

theorem reserve_throws {env : Env T} {v v1 : Vector} {h h1 : Heap T} {n : Nat} {e : Exc}
    (hp : reserve env v h n = .throws e (v1, h1)) :
    reallocate env v h n = .throws e (v1, h1) := by
  unfold reserve at hp
  by_cases hn : n > v.capacity_
  · simpa [hn] using hp
  · simp [hn] at hp

/-! ## `reserve`, `resize` and the constructors -/

theorem fill_spec (p : Nat) (x : T) (k i : Nat) (h h1 : Heap T)
    (hf : fill p x k i h = some h1) :
    h1.length = h.length ∧
    (∀ q, (block h1 q).map List.length = (block h q).map List.length) ∧
    (∀ q j, load h1 q j = if q = p ∧ i ≤ j ∧ j < i + k then some x else load h q j) ∧
    (0 < k → ∃ b, block h p = some b ∧ i + k ≤ b.length) := by
  rw [fill_eq_copy_in] at hf
  obtain ⟨hlen, hbl, hld, hbd⟩ := copy_in_spec p _ i h h1 hf
  simp only [List.length_replicate] at hld hbd
  refine ⟨hlen, hbl, ?_, ?_⟩
  · intro q j
    rw [hld q j]
    by_cases hc : q = p ∧ i ≤ j ∧ j < i + k
    · rw [if_pos hc, if_pos hc]
      exact List.getElem?_replicate_of_lt (by omega)
    · rw [if_neg hc, if_neg hc]
  · intro hk
    apply hbd
    intro hnil
    have := congrArg List.length hnil
    simp at this
    omega

theorem fill_ok (p : Nat) (x : T) (k i : Nat) (h : Heap T) (b : List T)
    (hb : block h p = some b) (hi : i + k ≤ b.length) : ∃ h1, fill p x k i h = some h1 := by
  rw [fill_eq_copy_in]
  exact copy_in_ok p _ i h b hb (by simpa using hi)

theorem WF.of_blocks {h h1 : Heap T} {v : Vector} (hwf : WF h v)
    (hb : (block h1 v.data_).map List.length = (block h v.data_).map List.length) :
    WF h1 v := by
  obtain ⟨hs, hc, hd⟩ := hwf
  refine ⟨hs, hc, ?_⟩
  by_cases h0 : v.data_ = 0
  · rw [if_pos h0] at hd ⊢; exact hd
  · rw [if_neg h0] at hd ⊢; rw [hb]; exact hd

theorem WF.resized {h : Heap T} {v : Vector} (hwf : WF h v) {n : Nat}
    (hn : n ≤ v.capacity_) : WF h { v with size_ := n } :=
  ⟨hn, hwf.2.1, hwf.2.2⟩

theorem reallocate_ok_wf {env : Env T} {v v1 : Vector} {h h1 : Heap T} {n : Nat}
    (hwf : WF h v) (hn : v.size_ ≤ n) (hl : n < SIZE_LIMIT)
    (hr : reallocate env v h n = .ok () (v1, h1)) : WF h1 v1 := by
  obtain ⟨rfl, _, _, ⟨b, hb, hbl⟩, _⟩ := reallocate_ok hwf.data_le hr
  exact WF.of_block hn hl hb hbl

/-- What a normal return of `reserve` on a valid object leaves. -/
theorem reserve_ok {env : Env T} {v v1 : Vector} {h h1 : Heap T} {n : Nat}
    (hwf : WF h v) (hl : n < SIZE_LIMIT) (hp : reserve env v h n = .ok () (v1, h1)) :
    WF h1 v1 ∧ v1.size_ = v.size_ ∧ v1.capacity_ = max v.capacity_ n ∧
    (n ≤ v.capacity_ → v1 = v ∧ h1 = h) ∧
    (∀ i, i < v.size_ → load h1 v1.data_ i = load h v.data_ i) ∧
    (∀ q, q ≠ v.data_ → q ≤ h.length → block h1 q = block h q) ∧
    h.length ≤ h1.length := by
  unfold reserve at hp
  by_cases hn : n > v.capacity_
  · simp only [hn, if_true] at hp
    have hsz : v.size_ ≤ n := by have := hwf.1; omega
    have hwf1 := reallocate_ok_wf hwf hsz hl hp
    obtain ⟨rfl, _, hlen, _, hold, _, hframe, _⟩ := reallocate_ok hwf.data_le hp
    refine ⟨hwf1, rfl, ?_, ?_, hold, hframe, by omega⟩
    · simp only; omega
    · intro hle; omega
  · simp only [hn, if_false, Outcome.ok.injEq, Prod.mk.injEq, true_and] at hp
    obtain ⟨rfl, rfl⟩ := hp
    refine ⟨hwf, rfl, by omega, fun _ => ⟨rfl, rfl⟩, fun _ _ => rfl, fun _ _ _ => rfl,
      Nat.le_refl _⟩

/-- The loop of lines 251-254 with an argument outside the buffers whose assignment does
not throw is the plain fill loop. -/
theorem fill_ref_val (env : Env T) (p : Nat) (x : T) (hx : env.assign_throws x = false) :
    ∀ (k i : Nat) (h : Heap T), fill_ref env p (.val x) k i h =
      match fill p x k i h with
      | none => .ub
      | some h1 => .ok () h1 := by
  intro k
  induction k with
  | zero => intro i h; rfl
  | succ k ih =>
    intro i h
    simp only [fill_ref, fill, Ref.read]
    cases hs : store h p i x with
    | none => rfl
    | some h1 =>
      simp only [hx, Bool.false_eq_true, if_false]
      exact ih (i + 1) h1

/-- What the loop of lines 251-254 leaves, when it returns and when it throws: only the
slots of its range are written, with the argument when that is an object outside the
buffers. -/
theorem fill_ref_spec (env : Env T) (p : Nat) (r : Ref T) :
    ∀ (k i : Nat) (h h1 : Heap T) (o : Outcome (Heap T) Unit),
      fill_ref env p r k i h = o → (o = .ok () h1 ∨ ∃ e, o = .throws e h1) →
      h1.length = h.length ∧
      (∀ q, (block h1 q).map List.length = (block h q).map List.length) ∧
      (∀ q j, ¬ (q = p ∧ i ≤ j ∧ j < i + k) → load h1 q j = load h q j) ∧
      (o = .ok () h1 → ∀ x, r = .val x → ∀ j, i ≤ j → j < i + k → load h1 p j = some x) ∧
      (o = .ok () h1 → 0 < k → ∃ b, block h p = some b ∧ i + k ≤ b.length) ∧
      (∀ e, o = .throws e h1 → e = .element_error) := by
  intro k
  induction k with
  | zero =>
    intro i h h1 o hf ho
    simp only [fill_ref] at hf
    subst hf
    rcases ho with ho | ⟨e, ho⟩
    · simp only [Outcome.ok.injEq, true_and] at ho
      subst ho
      refine ⟨rfl, fun _ => rfl, fun _ _ _ => rfl, ?_, ?_, ?_⟩
      · intro _ x _ j h1 h2; omega
      · intro _ hk; omega
      · intro e he; cases he
    · cases ho
  | succ k ih =>
    intro i h h1 o hf ho
    simp only [fill_ref] at hf
    cases hrd : r.read h with
    | none =>
      simp only [hrd] at hf
      subst hf
      rcases ho with ho | ⟨e, ho⟩ <;> cases ho
    | some x =>
      simp only [hrd] at hf
      cases hs : store h p i x with
      | none =>
        simp only [hs] at hf
        subst hf
        rcases ho with ho | ⟨e, ho⟩ <;> cases ho
      | some h2 =>
        simp only [hs] at hf
        obtain ⟨b, hb, hib, _⟩ := store_eq_some.1 hs
        by_cases hx : env.assign_throws x = true
        · simp only [hx, if_true] at hf
          subst hf
          rcases ho with ho | ⟨e, ho⟩
          · cases ho
          · simp only [Outcome.throws.injEq] at ho
            obtain ⟨rfl, rfl⟩ := ho
            refine ⟨rfl, fun _ => rfl, fun _ _ _ => rfl, ?_, ?_, ?_⟩
            · intro hc; cases hc
            · intro hc; cases hc
            · intro e he
              simp only [Outcome.throws.injEq] at he
              exact he.1.symm
        · have hx0 : env.assign_throws x = false := by simpa using hx
          simp only [hx0, Bool.false_eq_true, if_false] at hf
          obtain ⟨hlen, hbl, hld, hnew, hbd, hex⟩ := ih (i + 1) h2 h1 o hf ho
          refine ⟨by rw [hlen, store_length hs], fun q => by rw [hbl q, store_block_length hs q],
            ?_, ?_, ?_, hex⟩
          · intro q j hout
            rw [hld q j (by omega), load_store hs]
            have : ¬ (q = p ∧ j = i) := by omega
            rw [if_neg this]
          · intro hok y hy j hj1 hj2
            subst hy
            simp only [Ref.read, Option.some.injEq] at hrd
            subst hrd
            by_cases hji : j = i
            · subst hji
              rw [hld p j (by omega), load_store hs]
              simp
            · exact hnew hok _ rfl j (by omega) (by omega)
          · intro hok _
            refine ⟨b, hb, ?_⟩
            by_cases hk : 0 < k
            · obtain ⟨b2, hb2, hlen2⟩ := hbd hok hk
              have hb2len := store_block_length hs p
              rw [hb2, hb] at hb2len
              simp only [Option.map_some', Option.some.injEq] at hb2len
              omega
            · omega

/-- The second half of `resize` (lines 249-257) on a valid object with room for
`n` elements, when the fill loop returns. -/
theorem resize_tail {env : Env T} {v1 : Vector} {h1 h2 : Heap T} {n : Nat} {r : Ref T}
    (hwf : WF h1 v1) (hn : n ≤ v1.capacity_)
    (hf : (if n > v1.size_ then fill_ref env v1.data_ r (n - v1.size_) v1.size_ h1
      else .ok () h1) = .ok () h2) :
    WF h2 { v1 with size_ := n } ∧ h2.length = h1.length ∧
    (∀ i, i < v1.size_ → load h2 v1.data_ i = load h1 v1.data_ i) ∧
    (∀ x, r = .val x → ∀ i, v1.size_ ≤ i → i < n → load h2 v1.data_ i = some x) ∧
    (∀ q, q ≠ v1.data_ → block h2 q = block h1 q) := by
  by_cases hgt : n > v1.size_
  · rw [if_pos hgt] at hf
    obtain ⟨hlen, hbl, hld, hnew, _, _⟩ :=
      fill_ref_spec env _ r _ _ _ h2 _ hf (Or.inl rfl)
    refine ⟨(hwf.of_blocks (hbl _)).resized hn, hlen, ?_, ?_, ?_⟩
    · intro i hi
      exact hld _ _ (by omega)
    · intro x hx i hi1 hi2
      exact hnew rfl x hx i hi1 (by omega)
    · intro q hq
      apply block_ext (hbl q)
      intro j
      exact hld _ _ (fun hc => hq hc.1)
  · rw [if_neg hgt] at hf
    simp only [Outcome.ok.injEq, true_and] at hf
    subst hf
    refine ⟨hwf.resized hn, rfl, fun _ _ => rfl, ?_, fun _ _ => rfl⟩
    intro x _ i hi1 hi2; omega

/-- The second half of `resize` when the fill loop throws: the object is still valid and
only slots of its own block were written. -/
theorem resize_tail_throws {env : Env T} {v1 : Vector} {h1 h2 : Heap T} {n : Nat}
    {r : Ref T} {e : Exc} (hwf : WF h1 v1)
    (hf : (if n > v1.size_ then fill_ref env v1.data_ r (n - v1.size_) v1.size_ h1
      else .ok () h1) = .throws e h2) :
    WF h2 v1 ∧ h2.length = h1.length ∧ e = .element_error ∧
    (∀ q, q ≠ v1.data_ → block h2 q = block h1 q) := by
  by_cases hgt : n > v1.size_
  · rw [if_pos hgt] at hf
    obtain ⟨hlen, hbl, hld, _, _, hex⟩ :=
      fill_ref_spec env _ r _ _ _ h2 _ hf (Or.inr ⟨e, rfl⟩)
    refine ⟨hwf.of_blocks (hbl _), hlen, hex e rfl, ?_⟩
    intro q hq
    apply block_ext (hbl q)
    intro j
    exact hld _ _ (fun hc => hq hc.1)
  · rw [if_neg hgt] at hf
    cases hf

theorem resize_tail_ok {env : Env T} {v1 : Vector} {h1 : Heap T} {n : Nat} (x : T)
    (hx : env.assign_throws x = false) (hwf : WF h1 v1) (hn : n ≤ v1.capacity_) :
    ∃ h2, (if n > v1.size_ then fill_ref env v1.data_ (.val x) (n - v1.size_) v1.size_ h1
      else .ok () h1) = .ok () h2 := by
  by_cases hgt : n > v1.size_
  · rw [if_pos hgt]
    have hd : v1.data_ ≠ 0 := fun hd => by have := hwf.cap_zero hd; omega
    obtain ⟨b, hb, hbl⟩ := hwf.has_block hd
    obtain ⟨h2, hf⟩ := fill_ok v1.data_ x (n - v1.size_) v1.size_ h1 b hb (by omega)
    exact ⟨h2, by rw [fill_ref_val env _ x hx, hf]⟩
  · rw [if_neg hgt]; exact ⟨h1, rfl⟩

/-- A normal return of `resize`: the growth step returned, or was not needed, and then the
fill loop returned. -/
theorem resize_ok_inv {env : Env T} {v v2 : Vector} {h h2 : Heap T} {n : Nat} {r : Ref T}
    (hp : resize env v h n r = .ok () (v2, h2)) :
    ∃ v1 h1, ((n ≤ v.capacity_ ∧ v1 = v ∧ h1 = h) ∨
        (n > v.capacity_ ∧ reallocate env v h n = .ok () (v1, h1))) ∧
      (if n > v1.size_ then fill_ref env v1.data_ r (n - v1.size_) v1.size_ h1
        else .ok () h1) = .ok () h2 ∧
      v2 = { v1 with size_ := n } := by
  have tail : ∀ (v1 : Vector) (h1 : Heap T),
      (match (if n > v1.size_ then fill_ref env v1.data_ r (n - v1.size_) v1.size_ h1
          else .ok () h1) with
        | .ok _ h3 => Outcome.ok () (({ v1 with size_ := n } : Vector), h3)
        | .throws e h3 => .throws e (v1, h3)
        | .ub => .ub) = .ok () (v2, h2) →
      (if n > v1.size_ then fill_ref env v1.data_ r (n - v1.size_) v1.size_ h1
        else .ok () h1) = .ok () h2 ∧ v2 = { v1 with size_ := n } := by
    intro v1 h1 ht
    cases hf : (if n > v1.size_ then fill_ref env v1.data_ r (n - v1.size_) v1.size_ h1
        else Outcome.ok () h1) with
    | ub => rw [hf] at ht; cases ht
    | throws e h3 => rw [hf] at ht; cases ht
    | ok a h3 =>
      rw [hf] at ht
      simp only [Outcome.ok.injEq, Prod.mk.injEq, true_and] at ht
      exact ⟨by rw [ht.2], ht.1.symm⟩
  unfold resize at hp
  by_cases hn : n > v.capacity_
  · simp only [hn, if_true] at hp
    cases hr : reallocate env v h n with
    | ub => simp [hr] at hp
    | throws e s => simp [hr] at hp
    | ok a s =>
      obtain ⟨v1, h1⟩ := s
      simp only [hr] at hp
      obtain ⟨hf, hv2⟩ := tail v1 h1 hp
      exact ⟨v1, h1, Or.inr ⟨hn, rfl⟩, hf, hv2⟩
  · simp only [hn, if_false] at hp
    obtain ⟨hf, hv2⟩ := tail v h hp
    exact ⟨v, h, Or.inl ⟨by omega, rfl, rfl⟩, hf, hv2⟩

/-- An exception out of `resize` comes from the growth step or, after the growth step
returned or was not needed, from the fill loop. -/
theorem resize_throws_inv {env : Env T} {v v2 : Vector} {h h2 : Heap T} {n : Nat}
    {r : Ref T} {e : Exc} (hp : resize env v h n r = .throws e (v2, h2)) :
    (n > v.capacity_ ∧ reallocate env v h n = .throws e (v2, h2)) ∨
    (∃ h1, ((n ≤ v.capacity_ ∧ v2 = v ∧ h1 = h) ∨
        (n > v.capacity_ ∧ reallocate env v h n = .ok () (v2, h1))) ∧
      (if n > v2.size_ then fill_ref env v2.data_ r (n - v2.size_) v2.size_ h1
        else .ok () h1) = .throws e h2) := by
  have tail : ∀ (v1 : Vector) (h1 : Heap T),
      (match (if n > v1.size_ then fill_ref env v1.data_ r (n - v1.size_) v1.size_ h1
          else .ok () h1) with
        | .ok _ h3 => Outcome.ok () (({ v1 with size_ := n } : Vector), h3)
        | .throws e h3 => .throws e (v1, h3)
        | .ub => .ub) = .throws e (v2, h2) →
      (if n > v1.size_ then fill_ref env v1.data_ r (n - v1.size_) v1.size_ h1
        else .ok () h1) = .throws e h2 ∧ v2 = v1 := by
    intro v1 h1 ht
    cases hf : (if n > v1.size_ then fill_ref env v1.data_ r (n - v1.size_) v1.size_ h1
        else Outcome.ok () h1) with
    | ub => rw [hf] at ht; cases ht
    | ok a h3 => rw [hf] at ht; cases ht
    | throws e2 h3 =>
      rw [hf] at ht
      simp only [Outcome.throws.injEq, Prod.mk.injEq] at ht
      obtain ⟨rfl, rfl, rfl⟩ := ht
      exact ⟨rfl, rfl⟩
  unfold resize at hp
  by_cases hn : n > v.capacity_
  · simp only [hn, if_true] at hp
    cases hr : reallocate env v h n with
    | ub => simp [hr] at hp
    | throws e2 s =>
      simp only [hr, Outcome.throws.injEq] at hp
      obtain ⟨rfl, rfl⟩ := hp
      exact Or.inl ⟨hn, rfl⟩
    | ok a s =>
      obtain ⟨v1, h1⟩ := s
      simp only [hr] at hp
      obtain ⟨hf, rfl⟩ := tail v1 h1 hp
      exact Or.inr ⟨h1, Or.inr ⟨hn, rfl⟩, hf⟩
  · simp only [hn, if_false] at hp
    obtain ⟨hf, rfl⟩ := tail v h hp
    exact Or.inr ⟨h, Or.inl ⟨by omega, rfl, rfl⟩, hf⟩

/-- What a normal return of `resize` on a valid object leaves. -/
theorem resize_ok {env : Env T} {v v2 : Vector} {h h2 : Heap T} {n : Nat} {r : Ref T}
    (hwf : WF h v) (hl : n < SIZE_LIMIT) (hp : resize env v h n r = .ok () (v2, h2)) :
    WF h2 v2 ∧ v2.size_ = n ∧
    v2.capacity_ = (if n > v.capacity_ then n else v.capacity_) ∧
    (∀ i, i < v.size_ → i < n → load h2 v2.data_ i = load h v.data_ i) ∧
    (∀ x, r = .val x → ∀ i, v.size_ ≤ i → i < n → load h2 v2.data_ i = some x) ∧
    (∀ q, q ≠ v.data_ → q ≤ h.length → block h2 q = block h q) ∧
    h.length ≤ h2.length := by
  obtain ⟨v1, h1, hcase, hf, rfl⟩ := resize_ok_inv hp
  rcases hcase with ⟨hn, rfl, rfl⟩ | ⟨hn, hr⟩
  · obtain ⟨hwf2, hlen, hkeep, hnew, hfr⟩ := resize_tail hwf hn hf
    have hn2 : ¬ (n > v1.capacity_) := by omega
    exact ⟨hwf2, rfl, by rw [if_neg hn2], fun i hi1 _ => hkeep i hi1, hnew,
      fun q hq1 _ => hfr q hq1, by omega⟩
  · have hsz : v.size_ ≤ n := by have := hwf.1; omega
    have hwf1 := reallocate_ok_wf hwf hsz hl hr
    obtain ⟨rfl, _, hlen1, _, hold, _, hframe, _⟩ := reallocate_ok hwf.data_le hr
    obtain ⟨hwf2, hlen, hkeep, hnew, hfr⟩ := resize_tail hwf1 (Nat.le_refl n) hf
    have hle := hwf.data_le
    refine ⟨hwf2, rfl, by rw [if_pos hn], ?_, hnew, ?_, by omega⟩
    · intro i hi1 _
      exact (hkeep i hi1).trans (hold i hi1)
    · intro q hq1 hq2
      exact (hfr q (by simp only; omega)).trans (hframe q hq1 hq2)

/-- What `resize` on a valid object leaves when it throws: a valid object whose capacity
is not smaller, and every block other than its own as it was. -/
theorem resize_throws {env : Env T} {v v1 : Vector} {h h1 : Heap T} {n : Nat} {r : Ref T}
    {e : Exc} (hwf : WF h v) (hl : n < SIZE_LIMIT)
    (hp : resize env v h n r = .throws e (v1, h1)) :
    WF h1 v1 ∧ v.capacity_ ≤ v1.capacity_ ∧ h.length ≤ h1.length ∧
    (∀ q, q ≠ v.data_ → q ≤ h.length → block h1 q = block h q) := by
  rcases resize_throws_inv hp with ⟨_, hr⟩ | ⟨h0, hcase, hf⟩
  · obtain ⟨rfl, hwf1, hlen, _, hfr⟩ := reallocate_throws_frame hwf hr
    exact ⟨hwf1, Nat.le_refl _, hlen, hfr⟩
  · rcases hcase with ⟨hn, rfl, rfl⟩ | ⟨hn, hr⟩
    · obtain ⟨hwf2, hlen, _, hfr⟩ := resize_tail_throws hwf hf
      exact ⟨hwf2, Nat.le_refl _, by omega, fun q hq _ => hfr q hq⟩
    · have hsz : v.size_ ≤ n := by have := hwf.1; omega
      have hwf1 := reallocate_ok_wf hwf hsz hl hr
      obtain ⟨rfl, _, hlen1, _, _, _, hframe, _⟩ := reallocate_ok hwf.data_le hr
      obtain ⟨hwf2, hlen, _, hfr⟩ := resize_tail_throws hwf1 hf
      have hle := hwf.data_le
      refine ⟨hwf2, by simp only; omega, by omega, ?_⟩
      intro q hq1 hq2
      exact (hfr q (by simp only; omega)).trans (hframe q hq1 hq2)

theorem ctor_size_wf {env : Env T} {h h1 : Heap T} {n : Nat} {v : Vector}
    (hl : n < SIZE_LIMIT) (hc : ctor_size env h n = .ok v h1) : WF h1 v := by
  unfold ctor_size at hc
  cases hn : new_array env h n with
  | none => simp [hn] at hc
  | some r =>
    obtain ⟨p, h2⟩ := r
    obtain ⟨_, rfl, rfl⟩ := new_array_eq_some.1 hn
    simp only [hn, Outcome.ok.injEq] at hc
    obtain ⟨rfl, rfl⟩ := hc
    exact WF.of_block (Nat.le_refl _) hl (block_append_new h _) (by simp)

theorem ctor_fill_wf {env : Env T} {h h1 : Heap T} {n : Nat} {x : T} {v : Vector}
    (hl : n < SIZE_LIMIT) (hc : ctor_fill env h n x = .ok v h1) : WF h1 v := by
  unfold ctor_fill at hc
  cases hn : new_array env h n with
  | none => simp [hn] at hc
  | some r =>
    obtain ⟨p, h2⟩ := r
    obtain ⟨_, rfl, rfl⟩ := new_array_eq_some.1 hn
    simp only [hn] at hc
    cases hf : fill (h.length + 1) x n 0 (h ++ [some (List.replicate n env.dflt)]) with
    | none => simp [hf] at hc
    | some h3 =>
      simp only [hf, Outcome.ok.injEq] at hc
      obtain ⟨rfl, rfl⟩ := hc
      obtain ⟨_, hbl, _, _⟩ := fill_spec _ _ _ _ _ _ hf
      have hb := hbl (h.length + 1)
      rw [block_append_new] at hb
      refine ⟨Nat.le_refl _, hl, ?_⟩
      simp only [Nat.succ_ne_zero, if_false]
      rw [hb]; simp

theorem ctor_init_wf {env : Env T} {h h1 : Heap T} {init : List T} {v : Vector}
    (hl : init.length < SIZE_LIMIT) (hc : ctor_init env h init = .ok v h1) : WF h1 v := by
  unfold ctor_init at hc
  cases hn : new_array env h init.length with
  | none => simp [hn] at hc
  | some r =>
    obtain ⟨p, h2⟩ := r
    obtain ⟨_, rfl, rfl⟩ := new_array_eq_some.1 hn
    simp only [hn] at hc
    cases hf : copy_in (h.length + 1) init 0
        (h ++ [some (List.replicate init.length env.dflt)]) with
    | none => simp [hf] at hc
    | some h3 =>
      simp only [hf, Outcome.ok.injEq] at hc
      obtain ⟨rfl, rfl⟩ := hc
      obtain ⟨_, hbl, _, _⟩ := copy_in_spec _ _ _ _ _ hf
      have hb := hbl (h.length + 1)
      rw [block_append_new] at hb
      refine ⟨Nat.le_refl _, hl, ?_⟩
      simp only [Nat.succ_ne_zero, if_false]
      rw [hb]; simp

/-- Copying the live elements of a valid object into a fresh block of its capacity
(lines 79-84 and 106-111). -/
theorem copy_into_new {other : Vector} {h h1 : Heap T} (d : T) (hwf : WF h other)
    (hc : copy_elems other.data_ (h.length + 1) other.size_ 0
      (h ++ [some (List.replicate other.capacity_ d)]) = some h1) :
    WF h1 { data_ := h.length + 1, size_ := other.size_, capacity_ := other.capacity_ } ∧
    h1.length = h.length + 1 ∧
    (∀ i, i < other.size_ → load h1 (h.length + 1) i = load h other.data_ i) ∧
    (∀ q, q ≤ h.length → block h1 q = block h q) := by
  have hv := hwf.data_le
  have hne : other.data_ ≠ h.length + 1 := by omega
  obtain ⟨hlen, hbl, hld, _, _⟩ := copy_elems_spec _ _ hne _ _ _ _ hc
  have hb := hbl (h.length + 1)
  rw [block_append_new] at hb
  refine ⟨⟨hwf.1, hwf.2.1, ?_⟩, by rw [hlen]; simp, ?_, ?_⟩
  · simp only [Nat.succ_ne_zero, if_false]
    rw [hb]; simp
  · intro i hi
    rw [hld]
    have : h.length + 1 = h.length + 1 ∧ 0 ≤ i ∧ i < 0 + other.size_ := by omega
    rw [if_pos this, load_append_old h _ _ _ hv]
  · intro q hq
    apply (block_ext (hbl q) ?_).trans (block_append_old h _ q hq)
    intro j
    rw [hld]
    have : ¬ (q = h.length + 1 ∧ 0 ≤ j ∧ j < 0 + other.size_) := by omega
    rw [if_neg this]

/-- What a normal return of the copy constructor from a valid object leaves. -/
theorem ctor_copy_ok {env : Env T} {other v : Vector} {h h1 : Heap T} (hwf : WF h other)
    (hc : ctor_copy env h other = .ok v h1) :
    v = { data_ := h.length + 1, size_ := other.size_, capacity_ := other.capacity_ } ∧
    WF h1 v ∧ h1.length = h.length + 1 ∧
    (∀ i, i < other.size_ → load h1 v.data_ i = load h other.data_ i) ∧
    (∀ q, q ≤ h.length → block h1 q = block h q) := by
  unfold ctor_copy at hc
  cases hn : new_array env h other.capacity_ with
  | none => simp [hn] at hc
  | some r =>
    obtain ⟨p, h2⟩ := r
    obtain ⟨_, rfl, rfl⟩ := new_array_eq_some.1 hn
    simp only [hn] at hc
    cases hf : copy_elems other.data_ (h.length + 1) other.size_ 0
        (h ++ [some (List.replicate other.capacity_ env.dflt)]) with
    | none => simp [hf] at hc
    | some h3 =>
      simp only [hf, Outcome.ok.injEq] at hc
      obtain ⟨rfl, rfl⟩ := hc
      obtain ⟨h1, h2, h3, h4⟩ := copy_into_new env.dflt hwf hf
      exact ⟨rfl, h1, h2, h3, h4⟩

theorem Call.run_ok_wf {env : Env T} {c : Call T} {v v1 : Vector} {h h1 : Heap T}
    (hwf : WF h v) (hc : c.in_size_t) (hrun : c.run env v h = .ok () (v1, h1)) :
    WF h1 v1 ∧ v.capacity_ ≤ v1.capacity_ ∧ h.length ≤ h1.length ∧
    (∀ q, q ≠ v.data_ → q ≤ h.length → block h1 q = block h q) := by
  cases c with
  | push_back x =>
    obtain ⟨hwf1, _, hcap, _, hlen, _, _, hfr⟩ := push_back_ok hwf hrun
    refine ⟨hwf1, ?_, ?_, hfr⟩
    · rw [hcap]; split <;> omega
    · rw [hlen]; split <;> omega
  | reserve n =>
    obtain ⟨hwf1, _, hcap, _, _, hfr, hlen⟩ := reserve_ok hwf hc hrun
    exact ⟨hwf1, by rw [hcap]; omega, hlen, hfr⟩
  | resize n x =>
    obtain ⟨hwf1, _, hcap, _, _, hfr, hlen⟩ := resize_ok hwf hc hrun
    refine ⟨hwf1, ?_, hlen, hfr⟩
    rw [hcap]; split <;> omega

/-- What a call that throws leaves of a valid object: a valid object whose capacity is
not smaller, and every block other than its own as it was. -/
theorem Call.run_throws {env : Env T} {c : Call T} {v v1 : Vector} {h h1 : Heap T} {e : Exc}
    (hwf : WF h v) (hc : c.in_size_t) (hrun : c.run env v h = .throws e (v1, h1)) :
    WF h1 v1 ∧ v.capacity_ ≤ v1.capacity_ ∧ h.length ≤ h1.length ∧
    (∀ q, q ≠ v.data_ → q ≤ h.length → block h1 q = block h q) := by
  cases c with
  | push_back x => exact push_back_throws hwf hrun
  | reserve n =>
    obtain ⟨rfl, hwf1, hlen, _, hfr⟩ := reallocate_throws_frame hwf (reserve_throws hrun)
    exact ⟨hwf1, Nat.le_refl _, hlen, hfr⟩
  | resize n x => exact resize_throws hwf hc hrun

theorem WF.empty (h : Heap T) : WF h Vector.empty :=
  ⟨Nat.le_refl _, by decide, by simp [Vector.empty]⟩

theorem Reachable.wf {env : Env T} {v : Vector} {h : Heap T} (hr : Reachable env v h) :
    WF h v := by
  induction hr with
  | ctor_default h => exact WF.empty h
  | ctor_size hl hc => exact ctor_size_wf hl hc
  | ctor_fill hl hc => exact ctor_fill_wf hl hc
  | ctor_init hl hc => exact ctor_init_wf hl hc
  | ctor_copy _ hc ih => exact (ctor_copy_ok ih hc).2.1
  | ctor_move _ ih => exact ih
  | returned c _ hc hrun ih => exact (Call.run_ok_wf ih hc hrun).1
  | thrown c e _ hc hrun ih => exact (Call.run_throws ih hc hrun).1

/-! ## The doubling schedule -/

theorem Sched.step_room {j c a : Nat} (hs : Sched j c a) (hlt : j < c) : Sched (j + 1) c a := by
  rcases hs with ⟨_, hc, _⟩ | ⟨_, m, hc, ha, hle, hleast⟩
  · omega
  · refine Or.inr ⟨by omega, m, hc, ha, by omega, ?_⟩
    intro m1 hm1
    exact hleast m1 (by omega)

theorem Sched.step_full {j c a : Nat} (hs : Sched j c a) (hge : j ≥ c) :
    Sched (j + 1) (max 1 (2 * c)) (a + 1) := by
  rcases hs with ⟨rfl, rfl, rfl⟩ | ⟨hj, m, rfl, rfl, hle, hleast⟩
  · refine Or.inr ⟨by omega, 0, by simp, rfl, by simp, fun m1 _ => Nat.zero_le m1⟩
  · have hpos : 0 < 2 ^ m := Nat.pos_pow_of_pos m (by decide)
    have hjm : j = 2 ^ m := by omega
    refine Or.inr ⟨by omega, m + 1, ?_, rfl, ?_, ?_⟩
    · rw [Nat.pow_succ]; omega
    · rw [Nat.pow_succ]; omega
    · intro m1 hm1
      by_contra hcon
      have hm : m1 ≤ m := by omega
      have : 2 ^ m1 ≤ 2 ^ m := Nat.pow_le_pow_right (by decide) hm
      omega

theorem Sched.clog {N c a : Nat} (hN : 1 ≤ N) (hs : Sched N c a) :
    c = 2 ^ Nat.clog 2 N ∧ a = Nat.clog 2 N + 1 := by
  rcases hs with ⟨h0, _, _⟩ | ⟨_, m, rfl, rfl, hle, hleast⟩
  · omega
  · have h1 : Nat.clog 2 N ≤ m := (Nat.le_pow_iff_clog_le (by decide)).1 hle
    have h2 : m ≤ Nat.clog 2 N := hleast _ (Nat.le_pow_clog (by decide) N)
    have : m = Nat.clog 2 N := by omega
    subst this
    exact ⟨rfl, rfl⟩

theorem push_back_all_ok (env : Env T) :
    ∀ (xs : List T) (v v1 : Vector) (h h1 : Heap T) (k a : Nat),
      WF h v → Sched v.size_ v.capacity_ a →
      push_back_all env xs v h = .ok k (v1, h1) →
      WF h1 v1 ∧ v1.size_ = v.size_ + xs.length ∧ Sched v1.size_ v1.capacity_ (a + k) ∧
        h1.length = h.length + k := by
  intro xs
  induction xs with
  | nil =>
    intro v v1 h h1 k a hwf hs hp
    simp only [push_back_all, Outcome.ok.injEq, Prod.mk.injEq] at hp
    obtain ⟨rfl, rfl, rfl⟩ := hp
    exact ⟨hwf, rfl, hs, rfl⟩
  | cons x xs ih =>
    intro v v1 h h1 k a hwf hs hp
    simp only [push_back_all] at hp
    cases hpb : push_back env v h (.val x) with
    | ub => simp [hpb] at hp
    | throws e s => simp [hpb] at hp
    | ok u s =>
      obtain ⟨v2, h2⟩ := s
      simp only [hpb] at hp
      cases hrest : push_back_all env xs v2 h2 with
      | ub => simp [hrest] at hp
      | throws e s => simp [hrest] at hp
      | ok k2 s2 =>
        obtain ⟨v3, h3⟩ := s2
        simp only [hrest, Outcome.ok.injEq, Prod.mk.injEq] at hp
        obtain ⟨rfl, rfl, rfl⟩ := hp
        obtain ⟨hwf2, hsz2, hcap2, _, hlen2, _⟩ := push_back_ok hwf hpb
        by_cases hlt : v.size_ < v.capacity_
        · rw [if_pos hlt] at hcap2 hlen2
          have hs2 : Sched v2.size_ v2.capacity_ a := by
            rw [hsz2, hcap2]; exact hs.step_room hlt
          obtain ⟨hwf3, hsz3, hs3, hlen3⟩ := ih v2 v3 h2 h3 k2 a hwf2 hs2 hrest
          have hno : ¬ (v.size_ ≥ v.capacity_) := by omega
          simp only [hno, if_false, Nat.add_zero]
          refine ⟨hwf3, ?_, hs3, ?_⟩
          · rw [hsz3, hsz2, List.length_cons]; omega
          · rw [hlen3, hlen2]
        · rw [if_neg hlt] at hcap2 hlen2
          have hge : v.size_ ≥ v.capacity_ := by omega
          have hs2 : Sched v2.size_ v2.capacity_ (a + 1) := by
            rw [hsz2, hcap2]; exact hs.step_full hge
          obtain ⟨hwf3, hsz3, hs3, hlen3⟩ := ih v2 v3 h2 h3 k2 (a + 1) hwf2 hs2 hrest
          simp only [hge, if_true]
          refine ⟨hwf3, ?_, ?_, ?_⟩
          · rw [hsz3, hsz2, List.length_cons]; omega
          · have : a + (k2 + 1) = a + 1 + k2 := by omega
            rw [this]; exact hs3
          · rw [hlen3, hlen2]; omega

theorem push_back_all_returns (env : Env T) (hav : ∀ h n, env.avail h n = true)
    (hq : ∀ i x, env.xfer_throws i x = false) :
    ∀ (xs : List T) (v : Vector) (h : Heap T),
      (∀ x, x ∈ xs → env.assign_throws x = false) →
      WF h v → v.size_ + xs.length ≤ 2 ^ 63 →
      ∃ k v1 h1, push_back_all env xs v h = .ok k (v1, h1) := by
  intro xs
  induction xs with
  | nil => intro v h _ _ _; exact ⟨0, v, h, rfl⟩
  | cons x xs ih =>
    intro v h hx hwf hlen
    simp only [List.length_cons] at hlen
    have hgrow : v.size_ ≥ v.capacity_ →
        ∃ s, reallocate env v h (next_capacity v.capacity_) = .ok () s := by
      intro hge
      have hsc := hwf.1
      have hn : v.size_ ≤ next_capacity v.capacity_ := by
        unfold next_capacity SIZE_LIMIT
        by_cases hc : v.capacity_ = 0
        · rw [if_pos hc]; omega
        · rw [if_neg hc]; omega
      obtain ⟨h1, hr⟩ := reallocate_returns hwf hn (hav _ _) (fun j y _ _ => hq j y)
      exact ⟨_, hr⟩
    obtain ⟨v2, h2, hpb⟩ := push_back_returns x hwf (hx x (List.mem_cons_self x xs)) hgrow
    obtain ⟨hwf2, hsz2, _⟩ := push_back_ok hwf hpb
    obtain ⟨k, v3, h3, hrest⟩ := ih v2 h2 (fun y hy => hx y (List.mem_cons_of_mem x hy)) hwf2
      (by rw [hsz2]; omega)
    exact ⟨k + if v.size_ ≥ v.capacity_ then 1 else 0, v3, h3,
      by simp only [push_back_all, hpb, hrest]⟩

/-! ## Comparison and copies -/

/-- `resize` on a valid object, with an argument outside the buffers whose assignment does
not throw, returns normally when its growth step does. -/
theorem resize_returns {env : Env T} {v : Vector} {h : Heap T} {n : Nat} (x : T)
    (hx : env.assign_throws x = false) (hwf : WF h v) (hl : n < SIZE_LIMIT)
    (hgrow : n > v.capacity_ → ∃ s, reallocate env v h n = .ok () s) :
    ∃ v2 h2, resize env v h n (.val x) = .ok () (v2, h2) := by
  unfold resize
  by_cases hn : n > v.capacity_
  · obtain ⟨⟨v1, h1⟩, hr⟩ := hgrow hn
    have hsz : v.size_ ≤ n := by have := hwf.1; omega
    have hwf1 := reallocate_ok_wf hwf hsz hl hr
    obtain ⟨hv1, _⟩ := reallocate_ok hwf.data_le hr
    have hcap : n ≤ v1.capacity_ := by rw [hv1]
    obtain ⟨h2, hf⟩ := @resize_tail_ok T env v1 h1 n x hx hwf1 hcap
    exact ⟨{ v1 with size_ := n }, h2, by simp only [hn, if_true, hr, hf]⟩
  · obtain ⟨h2, hf⟩ := @resize_tail_ok T env v h n x hx hwf (show n ≤ v.capacity_ by omega)
    exact ⟨{ v with size_ := n }, h2, by simp only [hn, if_false, hf]⟩

/-- `reserve` on a valid object returns normally when its growth step does. -/
theorem reserve_returns {env : Env T} {v : Vector} {h : Heap T} {n : Nat}
    (hgrow : n > v.capacity_ → ∃ s, reallocate env v h n = .ok () s) :
    ∃ v2 h2, reserve env v h n = .ok () (v2, h2) := by
  unfold reserve
  by_cases hn : n > v.capacity_
  · obtain ⟨⟨v1, h1⟩, hr⟩ := hgrow hn
    exact ⟨v1, h1, by simp only [hn, if_true, hr]⟩
  · exact ⟨v, h, by simp only [hn, if_false]⟩

/-! ## `sum` -/

/-- The live elements of a valid object, as a list. -/
theorem WF.elements {h : Heap T} {v : Vector} (hwf : WF h v) :
    ∃ xs : List T, xs.length = v.size_ ∧ ∀ i, i < v.size_ → load h v.data_ i = xs[i]? := by
  by_cases hd : v.data_ = 0
  · have := hwf.cap_zero hd
    exact ⟨[], by simp [this.2], fun i hi => by omega⟩
  · obtain ⟨b, hb, hbl⟩ := hwf.has_block hd
    have hsc := hwf.1
    refine ⟨b.take v.size_, by simp; omega, ?_⟩
    intro i hi
    rw [load_eq, hb]
    simp [List.getElem?_take, hi]

theorem sum_loop_fold (add : T → T → Option T) (p : Nat) (h : Heap T) :
    ∀ (ys : List T) (i : Nat) (acc : T),
      (∀ j, j < ys.length → load h p (i + j) = ys[j]?) →
      sum_loop add p ys.length i h acc = ys.foldlM add acc := by
  intro ys
  induction ys with
  | nil => intro i acc _; rfl
  | cons y ys ih =>
    intro i acc hld
    have h0 := hld 0 (by simp)
    simp only [Nat.add_zero, List.getElem?_cons_zero] at h0
    simp only [List.length_cons, sum_loop, h0, List.foldlM_cons]
    cases hadd : add acc y with
    | none => rfl
    | some r =>
      simp only [Option.bind_eq_bind, Option.some_bind]
      apply ih (i + 1) r
      intro j hj
      have := hld (j + 1) (by simp; omega)
      rw [List.getElem?_cons_succ] at this
      rw [← this]
      congr 1
      omega

theorem foldlM_total (f : T → T → T) :
    ∀ (ys : List T) (acc : T),
      ys.foldlM (fun a x => some (f a x)) acc = some (ys.foldl f acc) := by
  intro ys
  induction ys with
  | nil => intro acc; rfl
  | cons y ys ih =>
    intro acc
    simp only [List.foldlM_cons, List.foldl_cons, Option.bind_eq_bind, Option.some_bind]
    exact ih (f acc y)

/-! ## `transform` -/

/-- A returning `push_back` on a valid object with room writes the slot of index `size_`
of its buffer and nothing else. -/
theorem push_back_in_place {env : Env T} {r r1 : Vector} {h h1 : Heap T} {y : T}
    (hwf : WF h r) (hlt : r.size_ < r.capacity_)
    (hp : push_back env r h (.val y) = .ok () (r1, h1)) :
    r1 = { r with size_ := r.size_ + 1 } ∧
      WF h1 { r with size_ := r.size_ + 1 } ∧ h1.length = h.length ∧
      (∀ q j, load h1 q j = if q = r.data_ ∧ j = r.size_ then some y else load h q j) ∧
      (∀ q, q ≠ r.data_ → block h1 q = block h q) := by
  rw [push_back_room hlt] at hp
  obtain ⟨x, hrd, hs, _, hr1⟩ := store_back_ok hp
  simp only [Ref.read, Option.some.injEq] at hrd
  subst hrd
  have hcl := hwf.2.1
  have hmod : (r.size_ + 1) % SIZE_LIMIT = r.size_ + 1 := Nat.mod_eq_of_lt (by omega)
  rw [hmod] at hr1
  refine ⟨hr1, ?_, store_length hs, load_store hs, ?_⟩
  · exact (hwf.of_blocks (store_block_length hs _)).resized (by omega)
  · intro q hq
    rw [store_block hs, if_neg hq]

/-- A `push_back` on a valid object with room, of an argument outside the buffers: it
returns, or the assignment of the new element throws, which leaves the free store as it
was. -/
theorem push_back_room_total {env : Env T} {r : Vector} {h : Heap T} (y : T)
    (hwf : WF h r) (hlt : r.size_ < r.capacity_) :
    (env.assign_throws y = false ∧ ∃ r1 h1, push_back env r h (.val y) = .ok () (r1, h1)) ∨
    (env.assign_throws y = true ∧ push_back env r h (.val y) =
      .throws .element_error ({ r with size_ := (r.size_ + 1) % SIZE_LIMIT }, h)) := by
  have hd : r.data_ ≠ 0 := fun hd => by have := hwf.cap_zero hd; omega
  obtain ⟨b, hb, hbl⟩ := hwf.has_block hd
  obtain ⟨h2, _, hsb⟩ := @store_back_total T env r h (.val y) y b rfl hb (by omega)
  rw [push_back_room hlt, hsb]
  by_cases hx : env.assign_throws y = true
  · exact Or.inr ⟨hx, by rw [if_pos hx]⟩
  · have hx0 : env.assign_throws y = false := by simpa using hx
    exact Or.inl ⟨hx0, _, h2, by rw [if_neg hx]⟩

/-- What the loop of `transform` leaves when it returns, on a result vector with room for
the `k` elements it appends. -/
theorem transform_loop_spec (env : Env T) (f : T → T) (p : Nat) :
    ∀ (k i : Nat) (r r2 : Vector) (h h2 : Heap T),
      WF h r → r.size_ = i → i + k ≤ r.capacity_ → r.data_ ≠ p →
      transform_loop env f p k i r h = .ok r2 h2 →
      r2 = { r with size_ := i + k } ∧
        WF h2 { r with size_ := i + k } ∧ h2.length = h.length ∧
        (∀ q, q ≠ r.data_ → block h2 q = block h q) ∧
        (∀ j, j < i → load h2 r.data_ j = load h r.data_ j) ∧
        (∀ j, i ≤ j → j < i + k → load h2 r.data_ j = (load h p j).map f) := by
  intro k
  induction k with
  | zero =>
    intro i r r2 h h2 hwf hsz _ _ hp
    simp only [transform_loop, Outcome.ok.injEq] at hp
    obtain ⟨rfl, rfl⟩ := hp
    have hr : { r with size_ := i + 0 } = r := by
      cases r; simp only [Nat.add_zero] at *; simp [hsz]
    refine ⟨hr.symm, ?_, rfl, fun _ _ => rfl, fun _ _ => rfl, ?_⟩
    · rw [hr]; exact hwf
    · intro j h1 h2; omega
  | succ k ih =>
    intro i r r2 h h2 hwf hsz hcap hne hp
    simp only [transform_loop] at hp
    cases hx : load h p i with
    | none => simp [hx] at hp
    | some x =>
      simp only [hx] at hp
      cases hpb : push_back env r h (.val (f x)) with
      | ub => simp [hpb] at hp
      | throws e s =>
        obtain ⟨r1, h1⟩ := s
        simp only [hpb] at hp
        cases hd : destroy r1 h1 <;> simp [hd] at hp
      | ok a s =>
        obtain ⟨r1, h1⟩ := s
        simp only [hpb] at hp
        obtain ⟨rfl, hwf1, hlen1, hld1, hfr1⟩ :=
          push_back_in_place hwf (show r.size_ < r.capacity_ by omega) hpb
        have hp1 : ∀ j, load h1 p j = load h p j := by
          intro j
          rw [hld1]
          have : ¬ (p = r.data_ ∧ j = r.size_) := fun hc => hne hc.1.symm
          rw [if_neg this]
        obtain ⟨hr2, hwf2, hlen2, hfr2, hlow2, hnew2⟩ :=
          ih (i + 1) { r with size_ := r.size_ + 1 } r2 h1 h2 hwf1 (by simp only; omega)
            (by simp only; omega) hne hp
        have htgt : ({ data_ := r.data_, size_ := i + 1 + k, capacity_ := r.capacity_ } :
            Vector) = { data_ := r.data_, size_ := i + (k + 1), capacity_ := r.capacity_ } := by
          have : i + 1 + k = i + (k + 1) := by omega
          rw [this]
        simp only at hr2 hwf2 hfr2 hlow2 hnew2
        rw [htgt] at hr2 hwf2
        refine ⟨hr2, hwf2, by rw [hlen2, hlen1], ?_, ?_, ?_⟩
        · intro q hq
          rw [hfr2 q hq, hfr1 q hq]
        · intro j hj
          rw [hlow2 j (by omega), hld1]
          have : ¬ (r.data_ = r.data_ ∧ j = r.size_) := by omega
          rw [if_neg this]
        · intro j hj1 hj2
          by_cases hji : j = i
          · subst hji
            rw [hlow2 j (by omega), hld1]
            have : r.data_ = r.data_ ∧ j = r.size_ := ⟨rfl, hsz.symm⟩
            rw [if_pos this, hx]
            rfl
          · rw [hnew2 j (by omega) (by omega), hp1]

/-- The loop of `transform` returns when the source elements are readable and the
assignment of none of their images throws. -/
theorem transform_loop_returns (env : Env T) (f : T → T) (p : Nat) :
    ∀ (k i : Nat) (r : Vector) (h : Heap T),
      WF h r → r.size_ = i → i + k ≤ r.capacity_ → r.data_ ≠ p →
      (∀ j, i ≤ j → j < i + k → ∃ x, load h p j = some x ∧ env.assign_throws (f x) = false) →
      ∃ r2 h2, transform_loop env f p k i r h = .ok r2 h2 := by
  intro k
  induction k with
  | zero => intro i r h _ _ _ _ _; exact ⟨r, h, rfl⟩
  | succ k ih =>
    intro i r h hwf hsz hcap hne hsrc
    obtain ⟨x, hx, hq⟩ := hsrc i (Nat.le_refl i) (by omega)
    have hlt : r.size_ < r.capacity_ := by omega
    rcases push_back_room_total (f x) hwf hlt with ⟨_, r1, h1, hpb⟩ | ⟨hthrow, _⟩
    · obtain ⟨rfl, hwf1, hlen1, hld1, hfr1⟩ := push_back_in_place hwf hlt hpb
      have hp1 : ∀ j, load h1 p j = load h p j := by
        intro j
        rw [hld1]
        have : ¬ (p = r.data_ ∧ j = r.size_) := fun hc => hne hc.1.symm
        rw [if_neg this]
      obtain ⟨r2, h2, hloop⟩ :=
        ih (i + 1) { r with size_ := r.size_ + 1 } h1 hwf1 (by simp only; omega)
          (by simp only; omega) hne
          (fun j hj1 hj2 => by
            obtain ⟨y, hy, hqy⟩ := hsrc j (by omega) (by omega)
            exact ⟨y, by rw [hp1]; exact hy, hqy⟩)
      refine ⟨r2, h2, ?_⟩
      simp only [transform_loop, hx]
      rw [hpb]
      exact hloop
    · rw [hq] at hthrow; cases hthrow

/-- The `reserve` at the start of `transform` on an empty source: nothing happens. -/
theorem reserve_empty_zero (env : Env T) (h : Heap T) :
    reserve env Vector.empty h 0 = .ok () (Vector.empty, h) := by
  simp [reserve, Vector.empty]

/-- The `reserve` at the start of `transform` on a non-empty source is the allocation of
the result's block. -/
theorem reserve_empty_pos (env : Env T) (h : Heap T) {n : Nat} (hpos : n > 0) :
    reserve env Vector.empty h n =
      if env.avail h n then
        .ok () ({ data_ := h.length + 1, size_ := 0, capacity_ := n },
          h ++ [some (List.replicate n env.dflt)])
      else .throws .bad_alloc (Vector.empty, h) := by
  have hgt : n > Vector.empty.capacity_ := hpos
  by_cases ha : env.avail h n = true
  · have hnew : new_array env h n =
        some (h.length + 1, h ++ [some (List.replicate n env.dflt)]) :=
      new_array_eq_some.2 ⟨ha, rfl, rfl⟩
    unfold reserve
    rw [if_pos hgt]
    simp only [reallocate, hnew, transfer, Vector.empty, delete_array, ha, if_true]
  · have ha0 : env.avail h n = false := by simpa using ha
    unfold reserve
    rw [if_pos hgt]
    simp only [reallocate, new_array_eq_none.2 ha0, ha0, Bool.false_eq_true, if_false]

theorem WF.fresh (h : Heap T) (d : T) {n : Nat} (hn : n < SIZE_LIMIT) :
    WF (h ++ [some (List.replicate n d)])
      { data_ := h.length + 1, size_ := 0, capacity_ := n } :=
  WF.of_block (Nat.zero_le _) hn (block_append_new h _) (by simp)

/-- What `transform` returns on a valid source: a valid vector of the source's size with
capacity equal to that size, holding the images of the source's elements in order, in a
new block (for a non-empty source) that is the only change to the free store. -/
theorem transform_spec {env : Env T} {v r : Vector} {h h2 : Heap T} {f : T → T}
    (hwf : WF h v) (hp : transform env v f h = .ok r h2) :
    WF h2 r ∧ r.size_ = v.size_ ∧ r.capacity_ = v.size_ ∧
      (∀ i, i < v.size_ → load h2 r.data_ i = (load h v.data_ i).map f) ∧
      (∀ q, q ≤ h.length → block h2 q = block h q) ∧
      h2.length = h.length + (if v.size_ = 0 then 0 else 1) ∧
      (v.size_ > 0 → env.avail h v.size_ = true) := by
  unfold transform at hp
  by_cases h0 : v.size_ = 0
  · rw [h0, reserve_empty_zero] at hp
    simp only [transform_loop, Outcome.ok.injEq] at hp
    obtain ⟨rfl, rfl⟩ := hp
    exact ⟨WF.empty h, by simp [Vector.empty, h0], by simp [Vector.empty, h0],
      fun i hi => by omega, fun _ _ => rfl, by simp [h0], fun hpos => by omega⟩
  · have hpos : v.size_ > 0 := by omega
    have hvle := hwf.data_le
    have hnl : v.size_ < SIZE_LIMIT := by have := hwf.1; have := hwf.2.1; omega
    rw [reserve_empty_pos env h hpos] at hp
    by_cases ha : env.avail h v.size_ = true
    · rw [if_pos ha] at hp
      simp only at hp
      have hwf1 := WF.fresh h env.dflt hnl
      obtain ⟨rfl, hwf2, hlen2, hfr2, _, hnew2⟩ :=
        transform_loop_spec env f v.data_ v.size_ 0 _ r _ h2 hwf1 rfl
          (by simp only; omega) (by simp only; omega) hp
      have hsrc : ∀ j, load (h ++ [some (List.replicate v.size_ env.dflt)]) v.data_ j =
          load h v.data_ j := fun j => load_append_old h _ _ _ hvle
      refine ⟨hwf2, by simp only; omega, rfl, ?_, ?_, ?_, fun _ => ha⟩
      · intro i hi
        have := hnew2 i (Nat.zero_le i) (by omega)
        simp only at this ⊢
        rw [this, hsrc]
      · intro q hq
        rw [hfr2 q (by simp only; omega), block_append_old h _ q hq]
      · rw [hlen2, if_neg h0]; simp
    · rw [if_neg ha] at hp
      simp [destroy, delete_array, Vector.empty] at hp

/-- When `transform` returns on a valid source: the allocation of its `reserve` succeeds
and the assignment of none of the images throws. -/
theorem transform_returns {env : Env T} {v : Vector} {h : Heap T} (f : T → T) (hwf : WF h v)
    (hav : v.size_ > 0 → env.avail h v.size_ = true)
    (hq : ∀ i x, i < v.size_ → load h v.data_ i = some x → env.assign_throws (f x) = false) :
    ∃ r h2, transform env v f h = .ok r h2 := by
  unfold transform
  by_cases h0 : v.size_ = 0
  · rw [h0, reserve_empty_zero]
    exact ⟨Vector.empty, h, rfl⟩
  · have hpos : v.size_ > 0 := by omega
    have hvle := hwf.data_le
    have hnl : v.size_ < SIZE_LIMIT := by have := hwf.1; have := hwf.2.1; omega
    rw [reserve_empty_pos env h hpos, if_pos (hav hpos)]
    simp only
    have hwf1 := WF.fresh h env.dflt hnl
    apply transform_loop_returns env f v.data_ v.size_ 0 _ _ hwf1 rfl
      (by simp only; omega) (by simp only; omega)
    intro j _ hj
    obtain ⟨x, hx⟩ := hwf.can_load (show j < v.capacity_ by have := hwf.1; omega)
    exact ⟨x, by rw [load_append_old h _ _ _ hvle]; exact hx, hq j x (by omega) hx⟩

/-- What a normal return of the constructor from a literal list leaves: a new block that
is exactly the list, and every other block as it was. -/
theorem ctor_init_ok {env : Env T} {h h1 : Heap T} {init : List T} {v : Vector}
    (hc : ctor_init env h init = .ok v h1) :
    v = { data_ := h.length + 1, size_ := init.length, capacity_ := init.length } ∧
    h1.length = h.length + 1 ∧
    block h1 v.data_ = some init ∧
    (∀ q, q ≤ h.length → block h1 q = block h q) := by
  unfold ctor_init at hc
  cases hn : new_array env h init.length with
  | none => simp [hn] at hc
  | some r =>
    obtain ⟨p, h2⟩ := r
    obtain ⟨_, rfl, rfl⟩ := new_array_eq_some.1 hn
    simp only [hn] at hc
    cases hf : copy_in (h.length + 1) init 0
        (h ++ [some (List.replicate init.length env.dflt)]) with
    | none => simp [hf] at hc
    | some h3 =>
      simp only [hf, Outcome.ok.injEq] at hc
      obtain ⟨rfl, rfl⟩ := hc
      obtain ⟨hlen, hbl, hld, _⟩ := copy_in_spec _ _ _ _ _ hf
      have hb := hbl (h.length + 1)
      rw [block_append_new] at hb
      refine ⟨rfl, by rw [hlen]; simp, ?_, ?_⟩
      · cases hb3 : block h3 (h.length + 1) with
        | none => rw [hb3] at hb; simp at hb
        | some b =>
          rw [hb3] at hb
          have hblen : b.length = init.length := by simpa using hb
          congr 1
          apply List.ext_getElem?
          intro j
          have := hld (h.length + 1) j
          rw [load_eq, hb3] at this
          simp only [Option.some_bind, Nat.zero_add, Nat.sub_zero] at this
          rw [this]
          by_cases hj : j < init.length
          · have hc : True ∧ 0 ≤ j ∧ j < init.length := ⟨trivial, Nat.zero_le j, hj⟩
            rw [if_pos hc]
          · have hc : ¬ (True ∧ 0 ≤ j ∧ j < init.length) := fun hc => hj hc.2.2
            rw [if_neg hc, load_eq, block_append_new]
            simp only [Option.some_bind]
            rw [List.getElem?_eq_none (by simp; omega), List.getElem?_eq_none (by omega)]
      · intro q hq
        apply (block_ext (hbl q) ?_).trans (block_append_old h _ q hq)
        intro j
        rw [hld]
        have : ¬ (q = h.length + 1 ∧ 0 ≤ j ∧ j < 0 + init.length) := by omega
        rw [if_neg this]

theorem ctor_init_returns {env : Env T} {h : Heap T} (init : List T)
    (ha : env.avail h init.length = true) :
    ∃ h1, ctor_init env h init =
      .ok { data_ := h.length + 1, size_ := init.length, capacity_ := init.length } h1 := by
  have hnew : new_array env h init.length =
      some (h.length + 1, h ++ [some (List.replicate init.length env.dflt)]) :=
    new_array_eq_some.2 ⟨ha, rfl, rfl⟩
  obtain ⟨h1, hc⟩ := copy_in_ok (h.length + 1) init 0
    (h ++ [some (List.replicate init.length env.dflt)]) _ (block_append_new h _) (by simp)
  exact ⟨h1, by simp only [ctor_init, hnew, hc]⟩

/-! ## The buffer invariant -/

theorem WF.i1_code {h : Heap T} {v : Vector} (hwf : WF h v) : I1_code h v := by
  constructor
  · intro hc
    by_cases hd : v.data_ = 0
    · exact Or.inl hd
    · right
      obtain ⟨b, hb, hbl⟩ := hwf.has_block hd
      rw [hb]
      have : b = [] := List.eq_nil_of_length_eq_zero (by omega)
      rw [this]
  · intro hc
    have hd : v.data_ ≠ 0 := fun hd => by have := hwf.cap_zero hd; omega
    obtain ⟨b, hb, hbl⟩ := hwf.has_block hd
    rw [hb]; simp [hbl]

theorem next_capacity_gt {c s : Nat} (hsc : s ≤ c) (hno : c * 2 < SIZE_LIMIT) :
    s < next_capacity c := by
  unfold next_capacity
  by_cases hc : c = 0
  · rw [if_pos hc]; omega
  · rw [if_neg hc, Nat.mod_eq_of_lt hno]; omega

/-- A reference that does not name a slot of the block `p` reads the same value after an
operation that leaves every other block as it was. -/
theorem Ref.read_frame {h h1 : Heap T} {r : Ref T} {p : Nat} {y : T}
    (hr : r.read h = some y) (hne : ∀ i, r ≠ .elem p i)
    (hfr : ∀ q, q ≠ p → q ≤ h.length → block h1 q = block h q) : r.read h1 = some y := by
  cases r with
  | val x => exact hr
  | elem q i =>
    have hq : q ≠ p := fun hc => hne i (by rw [hc])
    simp only [Ref.read] at hr ⊢
    rw [load_eq] at hr ⊢
    cases hb : block h q with
    | none => rw [hb] at hr; cases hr
    | some b =>
      rw [hfr q hq (block_bound hb).2, hb]
      rw [hb] at hr
      exact hr

/-- A reference that can be read can still be read after a store to a slot. -/
theorem Ref.read_store {h h1 : Heap T} {r : Ref T} {p i : Nat} {x y : T}
    (hr : r.read h = some y) (hs : store h p i x = some h1) : ∃ z, r.read h1 = some z := by
  cases r with
  | val w => exact ⟨w, rfl⟩
  | elem q j =>
    simp only [Ref.read] at hr ⊢
    rw [load_store hs]
    by_cases hc : q = p ∧ j = i
    · rw [if_pos hc]; exact ⟨x, rfl⟩
    · rw [if_neg hc]; exact ⟨y, hr⟩

theorem store_back_no_ub {env : Env T} {v : Vector} {h : Heap T} {r : Ref T} {x : T}
    {b : List T} (hr : r.read h = some x) (hb : block h v.data_ = some b)
    (hi : v.size_ < b.length) : store_back env v h r ≠ .ub := by
  obtain ⟨h2, _, hsb⟩ := @store_back_total T env v h r x b hr hb hi
  rw [hsb]
  split <;> exact fun hc => by cases hc

/-- `push_back` on a valid object whose `capacity_ * 2` does not wrap has no undefined
behaviour, when its argument can be read and, if the call grows the buffer, does not name
a slot of that buffer. -/
theorem push_back_no_ub {env : Env T} {v : Vector} {h : Heap T} (r : Ref T) (hwf : WF h v)
    (hno : v.capacity_ * 2 < SIZE_LIMIT) (hr : ∃ y, r.read h = some y)
    (hal : v.size_ ≥ v.capacity_ → ∀ i, r ≠ .elem v.data_ i) :
    push_back env v h r ≠ .ub := by
  obtain ⟨y, hy⟩ := hr
  by_cases hge : v.size_ ≥ v.capacity_
  · have hlt := next_capacity_gt hwf.1 hno
    rw [push_back_full hge]
    cases hre : reallocate env v h (next_capacity v.capacity_) with
    | ub => exact absurd hre (reallocate_no_ub hwf (by omega))
    | throws e s => exact fun hc => by cases hc
    | ok u s =>
      obtain ⟨v1, h1⟩ := s
      obtain ⟨rfl, _, _, ⟨b, hb, hbl⟩, _, _, hfr, _⟩ := reallocate_ok hwf.data_le hre
      simp only
      exact store_back_no_ub (Ref.read_frame hy (hal hge) hfr) hb (by simp only; omega)
  · have hlt : v.size_ < v.capacity_ := by omega
    rw [push_back_room hlt]
    have hd : v.data_ ≠ 0 := fun hd => by have := hwf.cap_zero hd; omega
    obtain ⟨b, hb, hbl⟩ := hwf.has_block hd
    exact store_back_no_ub hy hb (by omega)

theorem reserve_no_ub {env : Env T} {v : Vector} {h : Heap T} (n : Nat) (hwf : WF h v) :
    reserve env v h n ≠ .ub := by
  unfold reserve
  by_cases hn : n > v.capacity_
  · rw [if_pos hn]
    exact reallocate_no_ub hwf (by have := hwf.1; omega)
  · rw [if_neg hn]
    exact fun hc => by cases hc

/-- The loop of lines 251-254 inside a block, with an argument that can be read, has no
undefined behaviour. -/
theorem fill_ref_no_ub (env : Env T) (p : Nat) (r : Ref T) :
    ∀ (k i : Nat) (h : Heap T) (b : List T), block h p = some b → i + k ≤ b.length →
      (∃ y, r.read h = some y) → fill_ref env p r k i h ≠ .ub := by
  intro k
  induction k with
  | zero => intro i h b _ _ _; simp [fill_ref]
  | succ k ih =>
    intro i h b hb hi hr
    obtain ⟨y, hy⟩ := hr
    obtain ⟨h1, hs⟩ := store_of_block y hb (show i < b.length by omega)
    simp only [fill_ref, hy, hs]
    by_cases hx : env.assign_throws y = true
    · rw [if_pos hx]; exact fun hc => by cases hc
    · rw [if_neg hx]
      have hb2 := store_block hs p
      rw [if_pos rfl, hb] at hb2
      exact ih (i + 1) h1 (b.set i y) hb2 (by simp; omega) (Ref.read_store hy hs)

/-- `resize` on a valid object with a `size_t` argument has no undefined behaviour, when
its argument can be read and, if the call grows the buffer, does not name a slot of that
buffer. -/
theorem resize_no_ub {env : Env T} {v : Vector} {h : Heap T} (n : Nat) (r : Ref T)
    (hwf : WF h v) (hl : n < SIZE_LIMIT) (hr : ∃ y, r.read h = some y)
    (hal : n > v.capacity_ → ∀ i, r ≠ .elem v.data_ i) : resize env v h n r ≠ .ub := by
  have tail : ∀ (v1 : Vector) (h1 : Heap T), WF h1 v1 → n ≤ v1.capacity_ →
      (∃ y, r.read h1 = some y) →
      (match (if n > v1.size_ then fill_ref env v1.data_ r (n - v1.size_) v1.size_ h1
          else .ok () h1) with
        | .ok _ h3 => Outcome.ok () (({ v1 with size_ := n } : Vector), h3)
        | .throws e h3 => .throws e (v1, h3)
        | .ub => .ub) ≠ .ub := by
    intro v1 h1 hwf1 hn hr1
    have hne : (if n > v1.size_ then fill_ref env v1.data_ r (n - v1.size_) v1.size_ h1
        else Outcome.ok () h1) ≠ .ub := by
      by_cases hgt : n > v1.size_
      · rw [if_pos hgt]
        have hd : v1.data_ ≠ 0 := fun hd => by have := hwf1.cap_zero hd; omega
        obtain ⟨b, hb, hbl⟩ := hwf1.has_block hd
        exact fill_ref_no_ub env _ r _ _ h1 b hb (by omega) hr1
      · rw [if_neg hgt]; exact fun hc => by cases hc
    cases hf : (if n > v1.size_ then fill_ref env v1.data_ r (n - v1.size_) v1.size_ h1
        else Outcome.ok () h1) with
    | ub => exact absurd hf hne
    | ok a h3 => exact fun hc => by cases hc
    | throws e h3 => exact fun hc => by cases hc
  unfold resize
  by_cases hn : n > v.capacity_
  · rw [if_pos hn]
    cases hre : reallocate env v h n with
    | ub => exact absurd hre (reallocate_no_ub hwf (by have := hwf.1; omega))
    | throws e s => exact fun hc => by cases hc
    | ok u s =>
      obtain ⟨v1, h1⟩ := s
      have hsz : v.size_ ≤ n := by have := hwf.1; omega
      have hwf1 := reallocate_ok_wf hwf hsz hl hre
      obtain ⟨hv1, _, _, _, _, _, hfr, _⟩ := reallocate_ok hwf.data_le hre
      obtain ⟨y, hy⟩ := hr
      exact tail v1 h1 hwf1 (by rw [hv1]) ⟨y, Ref.read_frame hy (hal hn) hfr⟩
  · rw [if_neg hn]
    exact tail v h hwf (by omega) hr

/-! ## Arguments outside the buffers -/

/-- `push_back` of an object outside the buffers (a temporary, or a named object that is
not an element of a vector) on a valid vector: when its growth step returns and the
assignment of the new element does not throw, the call returns a vector whose size is one
more, whose element at the old size is the argument, and whose elements below the old
size are those before the call. -/
theorem push_back_val_appends (env : Env T) (v : Vector) (h : Heap T) (x : T)
    (hwf : WF h v) (hx : env.assign_throws x = false)
    (hgrow : v.size_ ≥ v.capacity_ →
      ∃ s, reallocate env v h (next_capacity v.capacity_) = .ok () s) :
    ∃ v1 h1, push_back env v h (.val x) = .ok () (v1, h1) ∧
      v1.size_ = v.size_ + 1 ∧
      op_index v1 h1 v.size_ = some x ∧
      ∀ i, i < v.size_ → ∃ y, op_index v h i = some y ∧ op_index v1 h1 i = some y := by
  obtain ⟨v1, h1, hp⟩ := push_back_returns x hwf hx hgrow
  obtain ⟨_, hsz, _, _, _, hnew, hold, _⟩ := push_back_ok hwf hp
  refine ⟨v1, h1, hp, hsz, hnew x rfl, ?_⟩
  intro i hi
  obtain ⟨y, hy⟩ := hwf.can_load (show i < v.capacity_ by have := hwf.1; omega)
  exact ⟨y, hy, by unfold op_index; rw [hold i hi]; exact hy⟩

/-- `resize` with a fill value outside the buffers on a valid vector: a call that returns
yields size `n`, capacity `n` if `n` exceeds the old capacity and the old capacity
otherwise, the prior elements below `min(size, n)` and the fill value from the old size
up to `n`; and the call does return when its growth step does and the assignment of the
fill value does not throw. -/
theorem resize_val_result (env : Env T) (v : Vector) (h : Heap T) (n : Nat) (f : T)
    (hwf : WF h v) (hn : n < SIZE_LIMIT) :
    (∀ v2 h2, resize env v h n (.val f) = .ok () (v2, h2) →
      v2.size_ = n ∧
      (n > v.capacity_ → v2.capacity_ = n) ∧
      (n ≤ v.capacity_ → v2.capacity_ = v.capacity_) ∧
      (∀ i, i < min v.size_ n → ∃ y, op_index v h i = some y ∧ op_index v2 h2 i = some y) ∧
      (∀ i, v.size_ ≤ i → i < n → op_index v2 h2 i = some f)) ∧
    (env.assign_throws f = false → (n > v.capacity_ → ∃ s, reallocate env v h n = .ok () s) →
      ∃ v2 h2, resize env v h n (.val f) = .ok () (v2, h2)) := by
  refine ⟨?_, fun hx => resize_returns f hx hwf hn⟩
  intro v2 h2 hp
  obtain ⟨_, hsz, hcap, hkeep, hnew, _⟩ := resize_ok hwf hn hp
  refine ⟨hsz, ?_, ?_, ?_, hnew f rfl⟩
  · intro hgt; rw [hcap, if_pos hgt]
  · intro hle; rw [hcap, if_neg (by omega)]
  · intro i hi
    have hi1 : i < v.size_ := by omega
    have hi2 : i < n := by omega
    obtain ⟨y, hy⟩ := hwf.can_load (show i < v.capacity_ by have := hwf.1; omega)
    exact ⟨y, hy, by unfold op_index; rw [hkeep i hi1 hi2]; exact hy⟩

/-- When `reallocate` throws on a valid object: the object keeps its pointer, size and
capacity; a failed allocation leaves the free store as it was; a relocation that throws
leaves the old buffer with its contents only when the relocation is by copy. -/
theorem reallocate_failure (env : Env T) (v v1 : Vector) (h h1 : Heap T) (n : Nat) (e : Exc)
    (hwf : WF h v) (hr : reallocate env v h n = .throws e (v1, h1)) :
    v1 = v ∧ (e = .bad_alloc → h1 = h) ∧
    (env.nothrow_move = false → block h1 v.data_ = block h v.data_) := by
  obtain ⟨hv, hcase⟩ := reallocate_throws hwf.data_le hr
  refine ⟨hv, ?_, ?_⟩
  · intro he
    rcases hcase with ⟨_, hh, _⟩ | ⟨he2, _⟩
    · exact hh
    · rw [he] at he2; cases he2
  · intro hcopy
    rcases hcase with ⟨_, hh, _⟩ | ⟨_, _, _, _, _, _, hsame⟩
    · rw [hh]
    · exact hsame hcopy

/-! ## The claims -/

/-- C1 (the code at a failing input): `v1.push_back(v1[0])` on the full vector
`{1, 2, 3, 4, 5}` of `main`.  The parameter of `push_back` is a reference, here to slot 0
of the buffer of `v1`; the growth step (line 193) relocates the elements and releases that
buffer (line 33) before line 196 reads the argument, so the read is of released storage:
undefined behaviour, where the claim has the call yield `[1, 2, 3, 4, 5, 1]`.  With a copy
of `v1[0]` outside the buffer as the argument, the call does yield that vector. -/
theorem push_back_reads_released_argument :
    WF main_heap main_v1 ∧
    op_index main_v1 main_heap 0 = some 1 ∧
    reallocate (Env.total 0) main_v1 main_heap (next_capacity main_v1.capacity_) =
      .ok () ({ data_ := 2, size_ := 5, capacity_ := 10 },
              [none, some [1, 2, 3, 4, 5, 0, 0, 0, 0, 0]]) ∧
    Ref.read ([none, some [1, 2, 3, 4, 5, 0, 0, 0, 0, 0]] : Heap Int)
      (.elem main_v1.data_ 0) = none ∧
    push_back (Env.total 0) main_v1 main_heap (.elem main_v1.data_ 0) = .ub ∧
    push_back (Env.total 0) main_v1 main_heap (.val 1) =
      .ok () ({ data_ := 2, size_ := 6, capacity_ := 10 },
              [none, some [1, 2, 3, 4, 5, 1, 0, 0, 0, 0]]) := by
  decide

/-- C2: for every vector `v` and every argument, the capacity after a `push_back` that
returns normally is unchanged if `v.size() < v.capacity()` before the call, and exactly
`max(1, 2 * v.capacity())` if `v.size() >= v.capacity()` before the call. -/
theorem push_back_capacity (env : Env T) (v v1 : Vector) (h h1 : Heap T) (r : Ref T)
    (hp : push_back env v h r = .ok () (v1, h1)) :
    (v.size_ < v.capacity_ → v1.capacity_ = v.capacity_) ∧
    (v.size_ ≥ v.capacity_ → v1.capacity_ = max 1 (2 * v.capacity_)) := by
  have hcap := push_back_ok_capacity hp
  constructor
  · intro hlt; rw [hcap, if_pos hlt]
  · intro hge; rw [hcap, if_neg (by omega)]

/-- C2 on three runs: the full vector of `main` (5 to 10), the empty vector (0 to 1) and
a vector with room (10 stays 10). -/
theorem push_back_capacity_witness :
    (10 : Nat) = max 1 (2 * main_v1.capacity_) ∧
    (1 : Nat) = max 1 (2 * Vector.empty.capacity_) ∧
    (10 : Nat) = (Vector.mk 2 6 10).capacity_ :=
  ⟨(push_back_capacity (Env.total 0) main_v1 _ main_heap _ (.val 6)
      (show push_back (Env.total 0) main_v1 main_heap (.val 6) =
        .ok () ({ data_ := 2, size_ := 6, capacity_ := 10 },
                [none, some [1, 2, 3, 4, 5, 6, 0, 0, 0, 0]]) by decide)).2 (by decide),
   (push_back_capacity (Env.total (0 : Int)) Vector.empty _ [] _ (.val 7)
      (show push_back (Env.total (0 : Int)) Vector.empty [] (.val 7) =
        .ok () ({ data_ := 1, size_ := 1, capacity_ := 1 }, [some [7]]) by decide)).2
      (by decide),
   (push_back_capacity (Env.total (0 : Int)) (Vector.mk 2 6 10) _
      [none, some [1, 2, 3, 4, 5, 6, 0, 0, 0, 0]] _ (.val 7)
      (show push_back (Env.total (0 : Int)) (Vector.mk 2 6 10)
          [none, some [1, 2, 3, 4, 5, 6, 0, 0, 0, 0]] (.val 7) =
        .ok () ({ data_ := 2, size_ := 7, capacity_ := 10 },
                [none, some [1, 2, 3, 4, 5, 6, 7, 0, 0, 0]]) by decide)).1 (by decide)⟩

/-- C3 (the code at failing inputs): growth is not transactional.  On the full vector
`{1, 2, 3, 4, 5}` of `main`, with an element type whose move constructor is `noexcept` and
whose move assignment throws at index 2, line 30 has move-assigned the elements 0 and 1
when `reallocate` throws: the object keeps its pointer, size and capacity, but its buffer
holds two moved-from elements, and so it does after the `push_back` or `reserve` that
called `reallocate`.  With an element type whose assignment of the value 7 throws,
`push_back(7)` on the vector `[1, 2, 3, 4, 5, 6]` of capacity 10 throws at line 196 after
`size_++`, and leaves size 7; and `resize(8, 7)` on `{1, 2, 3, 4, 5}` throws in its fill
loop (line 253) after its growth step has moved the elements to a new buffer of capacity
8. -/
theorem growth_failure_changes_state :
    WF main_heap main_v1 ∧
    reallocate (Env.throwing_move 2 0) main_v1 main_heap 10 =
      .throws .element_error (main_v1, [some [0, 0, 3, 4, 5], none]) ∧
    push_back (Env.throwing_move 2 0) main_v1 main_heap (.val 6) =
      .throws .element_error (main_v1, [some [0, 0, 3, 4, 5], none]) ∧
    reserve (Env.throwing_move 2 0) main_v1 main_heap 10 =
      .throws .element_error (main_v1, [some [0, 0, 3, 4, 5], none]) ∧
    op_index main_v1 main_heap 0 = some 1 ∧
    op_index main_v1 ([some [0, 0, 3, 4, 5], none] : Heap Int) 0 = some 0 ∧
    WF main_heap_pushed main_v1_pushed ∧
    push_back (Env.throwing_assign 7 0) main_v1_pushed main_heap_pushed (.val 7) =
      .throws .element_error ({ data_ := 2, size_ := 7, capacity_ := 10 }, main_heap_pushed) ∧
    resize (Env.throwing_assign 7 0) main_v1 main_heap 8 (.val 7) =
      .throws .element_error ({ data_ := 2, size_ := 5, capacity_ := 8 },
        [none, some [1, 2, 3, 4, 5, 0, 0, 0]]) :=
  ⟨by decide, by decide, by decide, by decide, by decide, by decide, by decide, by decide,
   by decide⟩

/-- C4: in every state reachable from a constructor through `push_back` / `reserve` /
`resize` calls, `size <= capacity` holds, and each further such call, whether it returns
or throws, leaves a capacity that is at least the capacity before it and a state that is
reachable again (so the same holds after every call of any finite sequence). -/
theorem capacity_monotone (env : Env T) (v v1 : Vector) (h h1 : Heap T) (c : Call T)
    (e : Exc) (hr : Reachable env v h) (hc : c.in_size_t)
    (hrun : c.run env v h = .ok () (v1, h1) ∨ c.run env v h = .throws e (v1, h1)) :
    v.size_ ≤ v.capacity_ ∧ v.capacity_ ≤ v1.capacity_ ∧ v1.size_ ≤ v1.capacity_ ∧
    Reachable env v1 h1 := by
  have hwf := hr.wf
  rcases hrun with hok | hth
  · obtain ⟨hwf1, hcap, _⟩ := Call.run_ok_wf hwf hc hok
    exact ⟨hwf.1, hcap, hwf1.1, Reachable.returned c hr hc hok⟩
  · obtain ⟨hwf1, hcap, _⟩ := Call.run_throws hwf hc hth
    exact ⟨hwf.1, hcap, hwf1.1, Reachable.thrown c e hr hc hth⟩

/-- C4 on the run of `main`: `v1 = {1,2,3,4,5}` is reachable, and `push_back(6)` takes
its capacity from 5 to 10 with size 6. -/
theorem capacity_monotone_witness :
    Reachable (Env.total 0) main_v1 main_heap ∧
    (5 : Nat) ≤ 5 ∧ (5 : Nat) ≤ 10 ∧ (6 : Nat) ≤ 10 ∧
    Reachable (Env.total (0 : Int)) { data_ := 2, size_ := 6, capacity_ := 10 }
      [none, some [1, 2, 3, 4, 5, 6, 0, 0, 0, 0]] :=
  have hreach : Reachable (Env.total 0) main_v1 main_heap :=
    @Reachable.ctor_init Int (Env.total 0) [] main_heap [1, 2, 3, 4, 5] main_v1
      (by decide) (by decide)
  ⟨hreach,
   capacity_monotone (Env.total 0) main_v1 { data_ := 2, size_ := 6, capacity_ := 10 }
     main_heap [none, some [1, 2, 3, 4, 5, 6, 0, 0, 0, 0]] (Call.push_back (.val 6)) .bad_alloc
     hreach trivial (Or.inl (by decide))⟩

/-- C5: starting from the empty vector, `N >= 1` consecutive `push_back` calls that return
leave size `N` and capacity `2 ^ ceil(log2 N)`, the least power of two that is `>= N`,
after exactly `ceil(log2 N) + 1` calls of `reallocate` (each of which allocated one block);
and the calls do return when the allocator and the element type never fail (no
allocation, relocation or assignment of an appended value throws) and `N <= 2 ^ 63`.  As this holds for every `N`, the capacities met on the way are
1, 2, 4, 8, ... -/
theorem doubling_schedule (env : Env T) (xs : List T) (h : Heap T) (hN : 1 ≤ xs.length) :
    (∀ k v1 h1, push_back_all env xs Vector.empty h = .ok k (v1, h1) →
      v1.size_ = xs.length ∧
      v1.capacity_ = 2 ^ Nat.clog 2 xs.length ∧
      xs.length ≤ v1.capacity_ ∧
      (∀ m, xs.length ≤ 2 ^ m → v1.capacity_ ≤ 2 ^ m) ∧
      k = Nat.clog 2 xs.length + 1 ∧
      h1.length = h.length + k) ∧
    ((∀ h2 n, env.avail h2 n = true) → (∀ i x, env.xfer_throws i x = false) →
      (∀ x, x ∈ xs → env.assign_throws x = false) → xs.length ≤ 2 ^ 63 →
      ∃ k v1 h1, push_back_all env xs Vector.empty h = .ok k (v1, h1)) := by
  constructor
  · intro k v1 h1 hp
    obtain ⟨_, hsz, hs, hlen⟩ :=
      push_back_all_ok env xs Vector.empty v1 h h1 k 0 (WF.empty h)
        (Or.inl ⟨rfl, rfl, rfl⟩) hp
    have hsz1 : v1.size_ = xs.length := by rw [hsz]; simp [Vector.empty]
    rw [hsz1, Nat.zero_add] at hs
    obtain ⟨hc, hk⟩ := hs.clog hN
    refine ⟨hsz1, hc, ?_, ?_, hk, hlen⟩
    · rw [hc]; exact Nat.le_pow_clog (by decide) _
    · intro m hm
      rw [hc]
      exact Nat.pow_le_pow_right (by decide) ((Nat.le_pow_iff_clog_le (by decide)).1 hm)
  · intro hav hq hx hlen
    exact push_back_all_returns env hav hq xs Vector.empty h hx (WF.empty h)
      (by simpa [Vector.empty] using hlen)

/-- C5 on five appends to the empty vector: the capacities are 1, 2, 4, 4, 8, so the fifth
leaves capacity 8 after 4 reallocations. -/
theorem doubling_schedule_witness :
    push_back_all (Env.total (0 : Int)) [1, 2, 3, 4, 5] Vector.empty [] =
      .ok 4 ({ data_ := 4, size_ := 5, capacity_ := 8 },
             [none, none, none, some [1, 2, 3, 4, 5, 0, 0, 0]]) ∧
    (8 : Nat) = 2 ^ Nat.clog 2 5 ∧ (4 : Nat) = Nat.clog 2 5 + 1 ∧
    ∃ k v1 h1, push_back_all (Env.total (0 : Int)) [1, 2, 3, 4, 5] Vector.empty [] =
      .ok k (v1, h1) :=
  have hrun : push_back_all (Env.total (0 : Int)) [1, 2, 3, 4, 5] Vector.empty [] =
      .ok 4 ({ data_ := 4, size_ := 5, capacity_ := 8 },
             [none, none, none, some [1, 2, 3, 4, 5, 0, 0, 0]]) := by decide
  have hall := doubling_schedule (Env.total (0 : Int)) [1, 2, 3, 4, 5] [] (by decide)
  ⟨hrun, (hall.1 _ _ _ hrun).2.1, (hall.1 _ _ _ hrun).2.2.2.2.1,
   hall.2 (fun _ _ => rfl) (fun _ _ => rfl) (fun _ _ => rfl) (by decide)⟩

/-- C7 (the code at a failing input): the vector `d = {7, 8}` is assigned the vector
`{1,2,3,4,5,6}` of `main` while no storage is left.  Line 102 has released the buffer of
`d` and lines 104-105 have overwritten its size and capacity when line 106 throws: `d`
is left with the size and capacity of the source and with the pointer to its released
block, and its destructor (line 139) releases that block a second time, which is
undefined behaviour. -/
theorem copy_assign_failure_dangles :
    WF (main_heap_pushed ++ [some [7, 8]]) { data_ := 3, size_ := 2, capacity_ := 2 } ∧
    copy_assign (Env.no_memory 0) false { data_ := 3, size_ := 2, capacity_ := 2 }
        main_v1_pushed (main_heap_pushed ++ [some [7, 8]]) =
      .throws .bad_alloc ({ data_ := 3, size_ := 6, capacity_ := 10 },
        [none, some [1, 2, 3, 4, 5, 6, 0, 0, 0, 0], none]) ∧
    block ([none, some [1, 2, 3, 4, 5, 6, 0, 0, 0, 0], none] : Heap Int) 3 = none ∧
    destroy { data_ := 3, size_ := 6, capacity_ := 10 }
      ([none, some [1, 2, 3, 4, 5, 6, 0, 0, 0, 0], none] : Heap Int) = none := by
  decide

/-- C8: for every vector `a`, move construction, and move assignment to a distinct valid
vector `d`, give the target exactly the pointer, size and capacity of `a`, hence its
elements in order (the buffer of `a` is not touched), and leave `a` with size 0,
capacity 0 and no buffer; move assignment releases the buffer `d` had. -/
theorem move_transfers (a d : Vector) (h : Heap T) (hwd : WF h d)
    (hdis : d.data_ = 0 ∨ d.data_ ≠ a.data_) :
    ((ctor_move a).1.size_ = a.size_ ∧ (ctor_move a).1.capacity_ = a.capacity_ ∧
      (∀ i, op_index (ctor_move a).1 h i = op_index a h i) ∧
      (ctor_move a).2.size_ = 0 ∧ (ctor_move a).2.capacity_ = 0 ∧
      (ctor_move a).2.data_ = 0) ∧
    (∃ b a1 h1, move_assign false d a h = .ok () (b, a1, h1) ∧
      b.size_ = a.size_ ∧ b.capacity_ = a.capacity_ ∧
      (∀ i, op_index b h1 i = op_index a h i) ∧
      a1.size_ = 0 ∧ a1.capacity_ = 0 ∧ a1.data_ = 0 ∧
      (d.data_ ≠ 0 → block h1 d.data_ = none)) := by
  refine ⟨⟨rfl, rfl, fun _ => rfl, rfl, rfl, rfl⟩, ?_⟩
  obtain ⟨h1, hdel⟩ := hwd.can_delete
  refine ⟨{ data_ := a.data_, size_ := a.size_, capacity_ := a.capacity_ },
    { data_ := 0, size_ := 0, capacity_ := 0 }, h1,
    by simp only [move_assign, Bool.false_eq_true, if_false, hdel],
    rfl, rfl, ?_, rfl, rfl, rfl, ?_⟩
  · intro i
    unfold op_index
    simp only
    rw [load_eq, load_eq, delete_block hdel]
    rcases hdis with h0 | hne
    · by_cases ha0 : a.data_ = d.data_
      · rw [if_pos ha0, ha0, h0]; rfl
      · rw [if_neg ha0]
    · rw [if_neg (Ne.symm hne)]
  · intro _
    rw [delete_block hdel, if_pos rfl]

/-- C8 on the run of `main` (line 362, `Vector<int> v3 = std::move(v1)`), and on a move
assignment of `v1` to a vector `{7, 8}`: the target is `[1,2,3,4,5,6]` and the source is
empty. -/
theorem move_transfers_witness :
    ctor_move main_v1_pushed = (main_v1_pushed, Vector.empty) ∧
    move_assign false { data_ := 3, size_ := 2, capacity_ := 2 } main_v1_pushed
        (main_heap_pushed ++ [some [7, 8]]) =
      .ok () (main_v1_pushed, Vector.empty,
        [none, some [1, 2, 3, 4, 5, 6, 0, 0, 0, 0], none]) ∧
    (∃ b a1 h1, move_assign false { data_ := 3, size_ := 2, capacity_ := 2 } main_v1_pushed
        (main_heap_pushed ++ [some [7, 8]]) = .ok () (b, a1, h1) ∧
      b.size_ = main_v1_pushed.size_ ∧ b.capacity_ = main_v1_pushed.capacity_ ∧
      (∀ i, op_index b h1 i =
        op_index main_v1_pushed (main_heap_pushed ++ [some [7, 8]]) i) ∧
      a1.size_ = 0 ∧ a1.capacity_ = 0 ∧ a1.data_ = 0 ∧
      ((3 : Nat) ≠ 0 → block h1 3 = none)) :=
  ⟨by decide, by decide,
   (move_transfers main_v1_pushed { data_ := 3, size_ := 2, capacity_ := 2 }
      (main_heap_pushed ++ [some [7, 8]]) (by decide) (Or.inr (by decide))).2⟩

/-- C10: for every vector `v` and index `i`, `at(i)` throws (and then it throws
`out_of_range`) if and only if `i >= v.size()`; when `i < v.size()` on a valid vector it
returns the element unchecked `v[i]` gives; and whether it returns or throws, the vector
and the free store are what they were. -/
theorem at_checks_bounds (v : Vector) (h : Heap T) (i : Nat) :
    ((∃ e s, at_ v h i = .throws e s) ↔ i ≥ v.size_) ∧
    (i ≥ v.size_ → at_ v h i = .throws .out_of_range (v, h)) ∧
    (WF h v → i < v.size_ → ∃ x, op_index v h i = some x ∧ at_ v h i = .ok x (v, h)) ∧
    (∀ x s, at_ v h i = .ok x s → s = (v, h) ∧ op_index v h i = some x) ∧
    (∀ e s, at_ v h i = .throws e s → s = (v, h) ∧ e = .out_of_range) := by
  by_cases hi : i ≥ v.size_
  · have hat : at_ v h i = .throws .out_of_range (v, h) := by simp only [at_, hi, if_true]
    refine ⟨⟨fun _ => hi, fun _ => ⟨_, _, hat⟩⟩, fun _ => hat, fun _ hlt => by omega, ?_, ?_⟩
    · intro x s hx; rw [hat] at hx; cases hx
    · intro e s hx
      rw [hat] at hx
      cases hx
      exact ⟨rfl, rfl⟩
  · have hat : at_ v h i =
        match load h v.data_ i with
        | none => .ub
        | some x => .ok x (v, h) := by simp only [at_, hi, if_false]
    refine ⟨⟨?_, fun hc => absurd hc hi⟩, fun hc => absurd hc hi, ?_, ?_, ?_⟩
    · rintro ⟨e, s, hx⟩
      rw [hat] at hx
      cases hl : load h v.data_ i <;> simp [hl] at hx
    · intro hwf hlt
      obtain ⟨x, hx⟩ := hwf.can_load (show i < v.capacity_ by have := hwf.1; omega)
      exact ⟨x, hx, by rw [hat, hx]⟩
    · intro x s hx
      rw [hat] at hx
      cases hl : load h v.data_ i with
      | none => simp [hl] at hx
      | some y =>
        simp only [hl, Outcome.ok.injEq] at hx
        exact ⟨hx.2.symm, by unfold op_index; rw [hl, hx.1]⟩
    · intro e s hx
      rw [hat] at hx
      cases hl : load h v.data_ i <;> simp [hl] at hx

/-- C10 on the vector of `main`: `at(2)` returns 3 as `v1[2]` does, `at(5)` throws
`out_of_range`, and `v1` is unchanged in both cases. -/
theorem at_checks_bounds_witness :
    at_ main_v1 main_heap 5 = .throws .out_of_range (main_v1, main_heap) ∧
    (∃ x, op_index main_v1 main_heap 2 = some x ∧
      at_ main_v1 main_heap 2 = .ok x (main_v1, main_heap)) ∧
    at_ main_v1 main_heap 2 = .ok 3 (main_v1, main_heap) :=
  ⟨(at_checks_bounds main_v1 main_heap 5).2.1 (by decide),
   (at_checks_bounds main_v1 main_heap 2).2.2.1 (by decide) (by decide),
   by decide⟩

/-- C11 (the code at a failing input): `v1.resize(8, v1[0])` on the vector
`{1, 2, 3, 4, 5}` of `main`, whose capacity is 5.  The fill value is a reference, here to
slot 0 of the buffer of `v1`; the growth step (line 246) relocates the elements and
releases that buffer (line 33) before the fill loop reads the value (line 253), so the
read is of released storage: undefined behaviour, where the claim has the call yield
`[1, 2, 3, 4, 5, 1, 1, 1]`.  With a copy of `v1[0]` outside the buffer as the fill value,
the call does yield that vector. -/
theorem resize_reads_released_argument :
    WF main_heap main_v1 ∧
    op_index main_v1 main_heap 0 = some 1 ∧
    reallocate (Env.total 0) main_v1 main_heap 8 =
      .ok () ({ data_ := 2, size_ := 5, capacity_ := 8 },
              [none, some [1, 2, 3, 4, 5, 0, 0, 0]]) ∧
    Ref.read ([none, some [1, 2, 3, 4, 5, 0, 0, 0]] : Heap Int) (.elem main_v1.data_ 0) =
      none ∧
    resize (Env.total 0) main_v1 main_heap 8 (.elem main_v1.data_ 0) = .ub ∧
    resize (Env.total 0) main_v1 main_heap 8 (.val 1) =
      .ok () ({ data_ := 2, size_ := 8, capacity_ := 8 },
              [none, some [1, 2, 3, 4, 5, 1, 1, 1]]) := by
  decide

/-- C12: for every valid vector `v` and every `n`, a `reserve(n)` that returns yields
`capacity == n` if `n > v.capacity()` and leaves the object and the free store entirely
unchanged otherwise; in both cases the capacity is `max(v.capacity(), n)`, and the size
and every element at an index below the size are unchanged; and the call does return when
its growth step does. -/
theorem reserve_result (env : Env T) (v : Vector) (h : Heap T) (n : Nat)
    (hwf : WF h v) (hn : n < SIZE_LIMIT) :
    (∀ v2 h2, reserve env v h n = .ok () (v2, h2) →
      (n > v.capacity_ → v2.capacity_ = n) ∧
      (n ≤ v.capacity_ → v2 = v ∧ h2 = h) ∧
      v2.capacity_ = max v.capacity_ n ∧ v.capacity_ ≤ v2.capacity_ ∧
      v2.size_ = v.size_ ∧
      (∀ i, i < v.size_ → ∃ y, op_index v h i = some y ∧ op_index v2 h2 i = some y)) ∧
    ((n > v.capacity_ → ∃ s, reallocate env v h n = .ok () s) →
      ∃ v2 h2, reserve env v h n = .ok () (v2, h2)) := by
  refine ⟨?_, reserve_returns⟩
  intro v2 h2 hp
  obtain ⟨_, hsz, hcap, hsame, hkeep, _⟩ := reserve_ok hwf hn hp
  refine ⟨?_, hsame, hcap, ?_, hsz, ?_⟩
  · intro hgt; rw [hcap]; omega
  · rw [hcap]; omega
  · intro i hi
    obtain ⟨y, hy⟩ := hwf.can_load (show i < v.capacity_ by have := hwf.1; omega)
    exact ⟨y, hy, by unfold op_index; rw [hkeep i hi]; exact hy⟩

/-- C12 on the vector of `main`: `reserve(8)` moves `{1,2,3,4,5}` to a block of 8 slots,
`reserve(3)` changes nothing. -/
theorem reserve_result_witness :
    reserve (Env.total 0) main_v1 main_heap 8 =
      .ok () ({ data_ := 2, size_ := 5, capacity_ := 8 },
              [none, some [1, 2, 3, 4, 5, 0, 0, 0]]) ∧
    reserve (Env.total 0) main_v1 main_heap 3 = .ok () (main_v1, main_heap) ∧
    ((8 : Nat) > main_v1.capacity_ → (8 : Nat) = 8) ∧
    ∃ v2 h2, reserve (Env.total 0) main_v1 main_heap 8 = .ok () (v2, h2) :=
  ⟨by decide, by decide,
   ((reserve_result (Env.total 0) main_v1 main_heap 8 (by decide) (by decide)).1
      { data_ := 2, size_ := 5, capacity_ := 8 } [none, some [1, 2, 3, 4, 5, 0, 0, 0]]
      (by decide)).1,
   (reserve_result (Env.total 0) main_v1 main_heap 8 (by decide) (by decide)).2
      (fun _ => ⟨({ data_ := 2, size_ := 5, capacity_ := 8 },
                  [none, some [1, 2, 3, 4, 5, 0, 0, 0]]), by decide⟩)⟩

/-- C13: for every vector `v`, `clear()` sets the size to 0 and leaves `capacity()` as it
was; and for every vector with `size <= capacity`, every `n <= v.size()` and every fill
argument, `resize(n)` returns with the size `n`, the capacity, the buffer pointer and the whole free store as
they were: truncation releases and allocates nothing. -/
theorem truncation_keeps_capacity (env : Env T) (v : Vector) (h : Heap T) (n : Nat)
    (r : Ref T) :
    ((clear v).size_ = 0 ∧ (clear v).capacity_ = v.capacity_ ∧ (clear v).data_ = v.data_) ∧
    (v.size_ ≤ v.capacity_ → n ≤ v.size_ →
      resize env v h n r = .ok () ({ v with size_ := n }, h)) := by
  refine ⟨⟨rfl, rfl, rfl⟩, ?_⟩
  intro hsc hn
  have h1 : ¬ (n > v.capacity_) := by omega
  have h2 : ¬ (n > v.size_) := by omega
  simp only [resize, h1, h2, if_false]

/-- C13 on the vector of `main`: `clear()` and `resize(2)` keep the capacity 5. -/
theorem truncation_keeps_capacity_witness :
    clear main_v1 = { data_ := 1, size_ := 0, capacity_ := 5 } ∧
    resize (Env.total 0) main_v1 main_heap 2 (.val 0) =
      .ok () ({ data_ := 1, size_ := 2, capacity_ := 5 }, main_heap) :=
  ⟨by decide,
   (truncation_keeps_capacity (Env.total 0) main_v1 main_heap 2 (.val 0)).2 (by decide)
     (by decide)⟩

/-- C14: for every vector `v`, if `v.size() > 0` then `pop_back()` yields size
`v.size() - 1` with the capacity, the buffer and so every element unchanged (in particular
those at indices below `v.size() - 1`); if `v.size() == 0` it changes nothing: the size
stays 0 and does not wrap. -/
theorem pop_back_result (v : Vector) (h : Heap T) :
    (v.size_ > 0 → (pop_back v).size_ = v.size_ - 1 ∧ (pop_back v).size_ + 1 = v.size_) ∧
    (v.size_ = 0 → pop_back v = v ∧ (pop_back v).size_ = 0) ∧
    (pop_back v).capacity_ = v.capacity_ ∧
    (pop_back v).data_ = v.data_ ∧
    (∀ i, op_index (pop_back v) h i = op_index v h i) := by
  by_cases hs : v.size_ > 0
  · have hp : pop_back v = { v with size_ := v.size_ - 1 } := by
      simp only [pop_back, hs, if_true]
    rw [hp]
    exact ⟨fun _ => ⟨rfl, by simp only; omega⟩, fun h0 => by omega, rfl, rfl, fun _ => rfl⟩
  · have hp : pop_back v = v := by simp only [pop_back, hs, if_false]
    rw [hp]
    exact ⟨fun hc => absurd hc hs, fun h0 => ⟨rfl, h0⟩, rfl, rfl, fun _ => rfl⟩

/-- C14 on the vector `{1, 2, 3}` (one `pop_back` gives `popped_w`, size 2, capacity 3) and
on the empty vector. -/
theorem pop_back_result_witness :
    pop_back { data_ := 1, size_ := 3, capacity_ := 3 } = popped_w ∧
    (pop_back popped_w).size_ = popped_w.size_ - 1 ∧
    pop_back Vector.empty = Vector.empty :=
  ⟨by decide,
   ((pop_back_result popped_w popped_heap).1 (by decide)).1,
   ((pop_back_result Vector.empty popped_heap).2.1 (by decide)).1⟩

/-- C15: for every valid vector `v`, `sum` is the left fold of the element type's `+=`
over the `size()` live elements of `v` in index order, starting from the zero value `T{}`
(with undefined behaviour exactly when a step of that fold has no value); when `+=` is
total it returns `foldl` of it, and for a vector of size 0 it returns the zero value. -/
theorem sum_is_left_fold (zero : T) (add : T → T → Option T) (v : Vector) (h : Heap T)
    (hwf : WF h v) :
    (∃ xs : List T, xs.length = v.size_ ∧
      (∀ i, i < v.size_ → op_index v h i = xs[i]?) ∧
      sum zero add v h = xs.foldlM add zero ∧
      (∀ f : T → T → T, (∀ a x, add a x = some (f a x)) →
        sum zero add v h = some (xs.foldl f zero))) ∧
    (v.size_ = 0 → sum zero add v h = some zero) := by
  obtain ⟨xs, hlen, hxs⟩ := hwf.elements
  have hsum : sum zero add v h = xs.foldlM add zero := by
    unfold sum
    rw [← hlen]
    apply sum_loop_fold
    intro j hj
    rw [Nat.zero_add]
    exact hxs j (by omega)
  refine ⟨⟨xs, hlen, hxs, hsum, ?_⟩, ?_⟩
  · intro f hf
    have : add = fun a x => some (f a x) := by funext a x; exact hf a x
    rw [hsum, this]
    exact foldlM_total f xs zero
  · intro h0
    unfold sum
    rw [h0]
    rfl

/-- C15 on the runs of the claim: `[1,2,3,4,5]` sums to 15, `[1,2,3,4,5,6]` (line 346 of
`main`) to 21, and the empty vector to 0. -/
theorem sum_is_left_fold_witness :
    sum 0 int_add main_v1 main_heap = some 15 ∧
    sum 0 int_add main_v1_pushed main_heap_pushed = some 21 ∧
    sum 0 int_add Vector.empty main_heap = some 0 ∧
    (∃ xs : List Int, xs.length = main_v1.size_ ∧
      (∀ i, i < main_v1.size_ → op_index main_v1 main_heap i = xs[i]?) ∧
      sum 0 int_add main_v1 main_heap = xs.foldlM int_add 0 ∧
      (∀ f : Int → Int → Int, (∀ a x, int_add a x = some (f a x)) →
        sum 0 int_add main_v1 main_heap = some (xs.foldl f 0))) :=
  ⟨by decide, by decide,
   (sum_is_left_fold 0 int_add Vector.empty main_heap (by decide)).2 rfl,
   (sum_is_left_fold 0 int_add main_v1 main_heap (by decide)).1⟩

/-- C16: for every valid vector `v` and every function `f`, a `transform(v, f)` that
returns gives a vector `r` with `r.size() == v.size()` and `r[i] == f(v[i])` for every
`i < v.size()`, in the original order, and leaves the buffer of `v` (hence its elements;
`v` is passed by reference to const, so its size and capacity are not written) as it was;
and the call does return when the allocation of its `reserve` succeeds and the assignment
of none of the images throws. -/
theorem transform_maps (env : Env T) (v : Vector) (f : T → T) (h : Heap T) (hwf : WF h v) :
    (∀ r h2, transform env v f h = .ok r h2 →
      r.size_ = v.size_ ∧
      (∀ i, i < v.size_ → ∃ y, op_index v h i = some y ∧ op_index r h2 i = some (f y)) ∧
      block h2 v.data_ = block h v.data_ ∧
      (∀ i, op_index v h2 i = op_index v h i)) ∧
    ((v.size_ > 0 → env.avail h v.size_ = true) →
      (∀ i y, i < v.size_ → op_index v h i = some y → env.assign_throws (f y) = false) →
      ∃ r h2, transform env v f h = .ok r h2) := by
  constructor
  · intro r h2 hp
    obtain ⟨_, hsz, _, hmap, hfr, _⟩ := transform_spec hwf hp
    have hblk := hfr _ hwf.data_le
    refine ⟨hsz, ?_, hblk, ?_⟩
    · intro i hi
      obtain ⟨y, hy⟩ := hwf.can_load (show i < v.capacity_ by have := hwf.1; omega)
      refine ⟨y, hy, ?_⟩
      unfold op_index
      rw [hmap i hi, hy]
      rfl
    · intro i
      unfold op_index
      rw [load_eq, load_eq, hblk]
  · intro hav hq
    exact transform_returns f hwf hav hq

/-- C16 on the runs of the claim: `[1,2,3]` with `x * 2` gives `[2,4,6]`, and the vector
`[1,2,3,4,5,6]` of `main` (line 350) gives `[2,4,6,8,10,12]`; the source block is as it
was. -/
theorem transform_maps_witness :
    transform (Env.total 0) { data_ := 1, size_ := 3, capacity_ := 3 } (fun x => x * 2)
        ([some [1, 2, 3]] : Heap Int) =
      .ok { data_ := 2, size_ := 3, capacity_ := 3 } [some [1, 2, 3], some [2, 4, 6]] ∧
    transform (Env.total 0) main_v1_pushed (fun x => x * 2) main_heap_pushed =
      .ok { data_ := 3, size_ := 6, capacity_ := 6 }
        [none, some [1, 2, 3, 4, 5, 6, 0, 0, 0, 0], some [2, 4, 6, 8, 10, 12]] ∧
    (∀ i, i < main_v1_pushed.size_ →
      ∃ y, op_index main_v1_pushed main_heap_pushed i = some y ∧
        op_index { data_ := 3, size_ := 6, capacity_ := 6 }
          ([none, some [1, 2, 3, 4, 5, 6, 0, 0, 0, 0], some [2, 4, 6, 8, 10, 12]] : Heap Int)
          i = some (y * 2)) ∧
    ∃ r h2, transform (Env.total 0) main_v1_pushed (fun x => x * 2) main_heap_pushed =
      .ok r h2 :=
  ⟨by decide, by decide,
   ((transform_maps (Env.total 0) main_v1_pushed (fun x => x * 2) main_heap_pushed
      (by decide)).1 { data_ := 3, size_ := 6, capacity_ := 6 }
      [none, some [1, 2, 3, 4, 5, 6, 0, 0, 0, 0], some [2, 4, 6, 8, 10, 12]]
      (by decide)).2.1,
   (transform_maps (Env.total 0) main_v1_pushed (fun x => x * 2) main_heap_pushed
      (by decide)).2 (fun _ => rfl) (fun _ _ _ _ => rfl)⟩

/-- C17: for every valid vector `v` (the empty one included) and every function `f`, the
vector a returning `transform(v, f)` gives has capacity exactly `v.size()`, and the call
allocates exactly one block when `v` is not empty and none when it is: the `reserve` at
its start is the only reallocation, none of the `push_back` calls grows the buffer; and
the call does return when the allocation of its `reserve` succeeds and the assignment of
none of the images throws. -/
theorem transform_capacity (env : Env T) (v : Vector) (f : T → T) (h : Heap T)
    (hwf : WF h v) :
    (∀ r h2, transform env v f h = .ok r h2 →
      r.capacity_ = v.size_ ∧
      (v.size_ = 0 → h2.length = h.length) ∧
      (v.size_ > 0 → h2.length = h.length + 1)) ∧
    ((v.size_ > 0 → env.avail h v.size_ = true) →
      (∀ i y, i < v.size_ → op_index v h i = some y → env.assign_throws (f y) = false) →
      ∃ r h2, transform env v f h = .ok r h2 ∧ r.capacity_ = v.size_) := by
  constructor
  · intro r h2 hp
    obtain ⟨_, _, hcap, _, _, hlen, _⟩ := transform_spec hwf hp
    refine ⟨hcap, ?_, ?_⟩
    · intro h0; rw [hlen, if_pos h0]; rfl
    · intro hpos; rw [hlen, if_neg (by omega)]
  · intro hav hq
    obtain ⟨r, h2, hp⟩ := transform_returns f hwf hav hq
    exact ⟨r, h2, hp, (transform_spec hwf hp).2.2.1⟩

/-- C17 on the vector `[1,2,3,4,5,6]` of `main`, whose capacity is 10: the result has
capacity 6 in the one block added to the free store; and on the empty vector: capacity 0
and no block. -/
theorem transform_capacity_witness :
    ({ data_ := 3, size_ := 6, capacity_ := 6 } : Vector).capacity_ = main_v1_pushed.size_ ∧
    transform (Env.total 0) Vector.empty (fun x => x * 2) main_heap_pushed =
      .ok Vector.empty main_heap_pushed ∧
    Vector.empty.capacity_ = Vector.empty.size_ ∧
    ∃ r h2, transform (Env.total 0) main_v1_pushed (fun x => x * 2) main_heap_pushed =
      .ok r h2 ∧ r.capacity_ = main_v1_pushed.size_ :=
  ⟨((transform_capacity (Env.total 0) main_v1_pushed (fun x => x * 2) main_heap_pushed
      (by decide)).1 { data_ := 3, size_ := 6, capacity_ := 6 }
      [none, some [1, 2, 3, 4, 5, 6, 0, 0, 0, 0], some [2, 4, 6, 8, 10, 12]]
      (by decide)).1,
   by decide,
   ((transform_capacity (Env.total 0) Vector.empty (fun x => x * 2) main_heap_pushed
      (by decide)).1 Vector.empty main_heap_pushed (by decide)).1,
   (transform_capacity (Env.total 0) main_v1_pushed (fun x => x * 2) main_heap_pushed
      (by decide)).2 (fun _ => rfl) (fun _ _ _ _ => rfl)⟩

/-- C18: for every finite literal list `l`, constructing a vector from `l` (when the
allocation succeeds) yields `size == capacity == len(l)` and a buffer that is exactly `l`:
element `i` is `l[i]` for every `i < len(l)`, in the same order. -/
theorem ctor_init_result (env : Env T) (h : Heap T) (l : List T) :
    (∀ v h1, ctor_init env h l = .ok v h1 →
      v.size_ = l.length ∧ v.capacity_ = l.length ∧
      block h1 v.data_ = some l ∧
      (∀ i, i < l.length → op_index v h1 i = l[i]?)) ∧
    (env.avail h l.length = true → ∃ v h1, ctor_init env h l = .ok v h1) := by
  constructor
  · intro v h1 hc
    obtain ⟨rfl, _, hb, _⟩ := ctor_init_ok hc
    refine ⟨rfl, rfl, hb, ?_⟩
    intro i _
    unfold op_index
    rw [load_eq, hb]
    rfl
  · intro ha
    obtain ⟨h1, hc⟩ := ctor_init_returns l ha
    exact ⟨_, h1, hc⟩

/-- C18 on line 324 of `main`: `{1, 2, 3, 4, 5}` gives size 5, capacity 5 and the elements
1, 2, 3, 4, 5. -/
theorem ctor_init_result_witness :
    ctor_init (Env.total (0 : Int)) [] [1, 2, 3, 4, 5] = .ok main_v1 main_heap ∧
    (main_v1.size_ = 5 ∧ main_v1.capacity_ = 5 ∧
      block main_heap main_v1.data_ = some [1, 2, 3, 4, 5] ∧
      (∀ i, i < 5 → op_index main_v1 main_heap i = ([1, 2, 3, 4, 5] : List Int)[i]?)) ∧
    ∃ v h1, ctor_init (Env.total (0 : Int)) [] [1, 2, 3, 4, 5] = .ok v h1 :=
  ⟨by decide,
   (ctor_init_result (Env.total (0 : Int)) [] [1, 2, 3, 4, 5]).1 main_v1 main_heap
     (by decide),
   (ctor_init_result (Env.total (0 : Int)) [] [1, 2, 3, 4, 5]).2 rfl⟩

/-- C20: for every valid vector (`size <= capacity`, owning its buffer) whose
`capacity * 2` does not wrap, the buffer writes of `push_back`, `emplace_back`, `reserve`
and `resize` are in bounds.  The growth request of `push_back` exceeds the size, so after
its growth check the write index `size` is below the capacity, which is the length of
the buffer; `reserve` and `resize` only call `reallocate` with a request above the
capacity, hence at least the size; `reallocate` with a request of at least the size has
no undefined behaviour, so its transfer loop stays inside the new buffer; after the
growth check of `resize` the capacity, which is the length of the buffer, is at least the
new size, which bounds the indices of its fill loop; and none of the four calls has
undefined behaviour when its argument is an object outside the buffers, or any reference
that can be read and does not name a slot of the vector's own buffer in a call that grows
it. -/
theorem writes_in_bounds (env : Env T) (v : Vector) (h : Heap T) (n : Nat) (x : T)
    (hwf : WF h v) (hno : v.capacity_ * 2 < SIZE_LIMIT) (hn : n < SIZE_LIMIT) :
    (v.size_ ≥ v.capacity_ → v.size_ < next_capacity v.capacity_) ∧
    (∀ v1 h1,
      (if v.size_ ≥ v.capacity_ then reallocate env v h (next_capacity v.capacity_)
        else .ok () (v, h)) = .ok () (v1, h1) →
      v1.size_ < v1.capacity_ ∧
        (block h1 v1.data_).map List.length = some v1.capacity_) ∧
    (n > v.capacity_ → v.size_ ≤ n) ∧
    (∀ m, v.size_ ≤ m → reallocate env v h m ≠ .ub) ∧
    (∀ v1 h1,
      (if n > v.capacity_ then reallocate env v h n else .ok () (v, h)) = .ok () (v1, h1) →
      n ≤ v1.capacity_ ∧ v1.size_ = v.size_ ∧
        (n > v1.size_ → (block h1 v1.data_).map List.length = some v1.capacity_)) ∧
    push_back env v h (.val x) ≠ .ub ∧ emplace_back env v h (.val x) ≠ .ub ∧
    reserve env v h n ≠ .ub ∧ resize env v h n (.val x) ≠ .ub ∧
    (∀ r : Ref T, (∃ y, r.read h = some y) →
      ((v.size_ ≥ v.capacity_ → ∀ i, r ≠ .elem v.data_ i) →
        push_back env v h r ≠ .ub ∧ emplace_back env v h r ≠ .ub) ∧
      ((n > v.capacity_ → ∀ i, r ≠ .elem v.data_ i) → resize env v h n r ≠ .ub)) := by
  have hsc := hwf.1
  have hblk : ∀ {w : Vector} {k : Heap T}, WF k w → w.capacity_ > 0 →
      (block k w.data_).map List.length = some w.capacity_ := by
    intro w k hw hpos
    exact hw.i1_code.2 hpos
  have hval : ∀ (c : Prop) (i : Nat), c → Ref.val x ≠ Ref.elem v.data_ i :=
    fun _ _ _ hc => by cases hc
  refine ⟨fun _ => next_capacity_gt hsc hno, ?_, fun hgt => by omega,
    fun m hm => reallocate_no_ub hwf hm, ?_,
    push_back_no_ub (.val x) hwf hno ⟨x, rfl⟩ (fun hc i => hval _ i hc),
    push_back_no_ub (.val x) hwf hno ⟨x, rfl⟩ (fun hc i => hval _ i hc),
    reserve_no_ub n hwf,
    resize_no_ub n (.val x) hwf hn ⟨x, rfl⟩ (fun hc i => hval _ i hc),
    fun r hr => ⟨fun hal => ⟨push_back_no_ub r hwf hno hr hal,
      push_back_no_ub r hwf hno hr hal⟩, fun hal => resize_no_ub n r hwf hn hr hal⟩⟩
  · intro v1 h1 hg
    by_cases hge : v.size_ ≥ v.capacity_
    · rw [if_pos hge] at hg
      have hlt := next_capacity_gt hsc hno
      have hw1 := reallocate_ok_wf hwf (by omega) (next_capacity_lt _) hg
      obtain ⟨rfl, _⟩ := reallocate_ok hwf.data_le hg
      exact ⟨hlt, hblk hw1 (by simp only; omega)⟩
    · rw [if_neg hge] at hg
      simp only [Outcome.ok.injEq, Prod.mk.injEq, true_and] at hg
      obtain ⟨rfl, rfl⟩ := hg
      exact ⟨by omega, hblk hwf (by omega)⟩
  · intro v1 h1 hg
    by_cases hgt : n > v.capacity_
    · rw [if_pos hgt] at hg
      have hw1 := reallocate_ok_wf hwf (by omega) hn hg
      obtain ⟨rfl, _⟩ := reallocate_ok hwf.data_le hg
      exact ⟨Nat.le_refl _, rfl, fun hpos => hblk hw1 (by simp only at hpos ⊢; omega)⟩
    · rw [if_neg hgt] at hg
      simp only [Outcome.ok.injEq, Prod.mk.injEq, true_and] at hg
      obtain ⟨rfl, rfl⟩ := hg
      exact ⟨by omega, rfl, fun hpos => hblk hwf (by omega)⟩

/-- C20 on the vector of `main`, full with 5 elements: the growth request is 10, above the
write index 5, and `push_back(6)`, `reserve(8)` and `resize(7, 0)` return. -/
theorem writes_in_bounds_witness :
    main_v1.size_ < next_capacity main_v1.capacity_ ∧
    push_back (Env.total 0) main_v1 main_heap (.val 6) ≠ .ub ∧
    emplace_back (Env.total 0) main_v1 main_heap (.val 6) ≠ .ub ∧
    reserve (Env.total 0) main_v1 main_heap 8 ≠ .ub ∧
    resize (Env.total 0) main_v1 main_heap 8 (.val 6) ≠ .ub ∧
    resize (Env.total 0) main_v1 main_heap 7 (.val 0) =
      .ok () ({ data_ := 2, size_ := 7, capacity_ := 7 }, [none, some [1, 2, 3, 4, 5, 0, 0]]) :=
  have hall := writes_in_bounds (Env.total 0) main_v1 main_heap 8 6 (by decide) (by decide)
    (by decide)
  ⟨hall.1 (by decide), hall.2.2.2.2.2.1, hall.2.2.2.2.2.2.1, hall.2.2.2.2.2.2.2.1,
   hall.2.2.2.2.2.2.2.2.1, by decide⟩

end CustomVector
